import Mathlib

/-!
Verification development for the task-controller repository.

The embedding translates the TypeScript sources:
  src/tasks/task-controller.ts      (TaskController, "the Scheduler")
  src/locks/lock-controller.ts      (LockController, "the Gate")
  src/tasks/multi-step-controller.ts
  src/utils/options-sanitizer.utils.ts
into executable Lean definitions.  JavaScript numbers are modelled as an
inductive that distinguishes NaN, the infinities and finite rationals;
the controller state machines are modelled as explicit state-passing
functions, with the event-loop nondeterminism (timer fires, user-task
completions, public API calls) captured by a `Step` type and a total
`step` function.  Event emission is a log inside the state.  Listener
callbacks are treated as pure observers (they do not re-enter the
controller), matching the serialized operation model of the spec.
-/

namespace TaskCtrl

/-- Model of a JavaScript number: NaN, the two infinities, or a finite
value (modelled as a rational). -/
inductive JSNum where
  | nan
  | posInf
  | negInf
  | fin (q : ℚ)
deriving DecidableEq, Repr

/-- Model of a JavaScript runtime value supplied in a numeric option
slot: null or undefined, a value of non-number runtime type, or a
number. -/
inductive JSValue where
  | undef
  | null
  | notNumber
  | num (n : JSNum)
deriving DecidableEq, Repr

/-- JavaScript `Math.round` on a finite value: round half toward
positive infinity, i.e. `⌊q + 1/2⌋`, computed on the numerator and
denominator directly (`jsRound_eq_floor` below proves the equality). -/
def jsRound (q : ℚ) : ℤ := Int.fdiv (2 * q.num + (q.den : ℤ)) (2 * (q.den : ℤ))

/-- JavaScript `Number.isInteger` for a finite value. -/
def JSNum.isIntegerFin (q : ℚ) : Bool := q.den = 1

/-- The veiled `x > 0` test on a JS number, used for timeout enabling
(`releaseTimeout > 0`, `waitingTimeout > 0`).  NaN compares false. -/
def JSNum.gtZero : JSNum → Bool
  | .nan => false
  | .posInf => true
  | .negInf => false
  | .fin q => decide (0 < q)

/-- Translation of
`OptionsSanitizerUtils.sanitizeNumberToPositiveGraterThanZeroInteger`
(src/utils/options-sanitizer.utils.ts, lines 59-85).  The guards are in
source order: null/undefined, typeof, `Number.isNaN`,
`Number.isFinite`, `Number.isInteger` (non-integers are returned
rounded, with no further check), and finally `value <= 0`. -/
def sanitizeNumberToPositiveGraterThanZeroInteger
    (value : JSValue) (defaultValue : Option ℤ) : Option ℤ :=
  match value with
  | .undef => defaultValue
  | .null => defaultValue
  | .notNumber => defaultValue
  | .num .nan => defaultValue
  | .num .posInf => defaultValue
  | .num .negInf => defaultValue
  | .num (.fin q) =>
      if ¬ JSNum.isIntegerFin q then some (jsRound q)
      else if q.num ≤ 0 then defaultValue
      else some q.num

/-- The concurrency actually stored by the TaskController and
LockController constructors for a supplied `concurrency` runtime value
(src/tasks/task-controller.ts `sanitizeOptions`, lines 465-476, and the
identical src/locks/lock-controller.ts lines 206-217): the util is
called with no default; on `undefined` the key is deleted so
`sanitizeToRequired` falls back to the default 1; otherwise the returned
number (of runtime type number, hence kept by the typeof check) becomes
the option value. -/
def sanitizedConcurrency (value : JSValue) : ℤ :=
  match sanitizeNumberToPositiveGraterThanZeroInteger value none with
  | none => 1
  | some k => k

/-- Restatement of the C2 spec sentence, for comparison with
`sanitizedConcurrency`: non-number, NaN, infinities and nonpositive
integers give the default 1; non-integer numerics are rounded half-up
and the rounded value is kept even when it is nonpositive; positive
integers are kept. -/
def specConcurrencyAmended (value : JSValue) : ℤ :=
  match value with
  | .num (.fin q) =>
      if JSNum.isIntegerFin q then (if 0 < q.num then q.num else 1)
      else jsRound q
  | _ => 1

end TaskCtrl

namespace TaskCtrl

/-! Argument plumbing of the submission paths
(src/tasks/task-controller.ts).  A JS argument value is opaque or an
array; each public path is modelled by the argument list that
`enqueueAndRun` receives through its rest parameter, which becomes
`taskEntry.args`, and the user callable is invoked as
`task(...taskEntry.args)`. -/

/-- Opaque JS argument value; arrays are explicit so that the spreading
mistakes are observable. -/
inductive JSArg where
  | base (n : ℕ)
  | arr (xs : List JSArg)
deriving Repr

/-- `enqueueAndRun(task, options, ...args)`: the rest parameter becomes
`taskEntry.args` (line 315 `{ resolve, reject, args, options }`). -/
def enqueueAndRunEntryArgs (rest : List JSArg) : List JSArg := rest

/-- The wrapper invokes `task(...taskEntry.args)` (line 344). -/
def invokedArgs (entryArgs : List JSArg) : List JSArg := entryArgs

/-- `run(task, ...args)` forwards `...args` (spread) to
`enqueueAndRun` (line 109). -/
def runInvokedArgs (callerArgs : List JSArg) : List JSArg :=
  invokedArgs (enqueueAndRunEntryArgs callerArgs)

/-- `runWithOptions(task, options, ...args)` forwards `...args`
(line 120). -/
def runWithOptionsInvokedArgs (callerArgs : List JSArg) : List JSArg :=
  invokedArgs (enqueueAndRunEntryArgs callerArgs)

/-- One element of `runMany`: when `args` is supplied it is spread
(line 134); otherwise no rest arguments are passed (line 136). -/
def runManyInvokedArgs (args : Option (List JSArg)) : List JSArg :=
  match args with
  | some l => invokedArgs (enqueueAndRunEntryArgs l)
  | none => invokedArgs (enqueueAndRunEntryArgs [])

/-- `runForEachArgs`: each args tuple is spread (line 154). -/
def runForEachArgsInvokedArgs (args : List JSArg) : List JSArg :=
  invokedArgs (enqueueAndRunEntryArgs args)

/-- `runForEach`: the entity is passed as the single argument
(line 171). -/
def runForEachInvokedArgs (entity : JSArg) : List JSArg :=
  invokedArgs (enqueueAndRunEntryArgs [entity])

/-- The thunk of `tryRunWithOptions` calls
`this.enqueueAndRun(task, sanitized, args)` passing its rest array
`args` as one positional value, not spread (line 213); so the rest
parameter of `enqueueAndRun` receives the one-element list holding that
array. -/
def tryRunWithOptionsInvokedArgs (rest : List JSArg) : List JSArg :=
  invokedArgs (enqueueAndRunEntryArgs [JSArg.arr rest])

/-- `tryRun(task, ...args)` calls
`this.tryRunWithOptions(task, undefined, args)` passing its rest array
as one positional value, not spread (line 188); so the rest parameter of
`tryRunWithOptions` receives the one-element list holding the caller's
argument array. -/
def tryRunInvokedArgs (callerArgs : List JSArg) : List JSArg :=
  tryRunWithOptionsInvokedArgs [JSArg.arr callerArgs]

end TaskCtrl

namespace TaskCtrl

/-! Constructor models (claim C10).  The runtime value passed for
`options` is modelled with enough structure to observe the guards that
the three constructors actually execute. -/

/-- Queue type enumeration. -/
inductive QueueType where
  | FIFO
  | LIFO
deriving DecidableEq, Repr

/-- Runtime value found in the `queueType` option slot. -/
inductive RawQueue where
  | absent
  | nonString
  | fifo
  | lifo
deriving DecidableEq, Repr

/-- Runtime value found in the `signal` option slot; an object carrying
a boolean `aborted` is kept, anything of non-object runtime type falls
back to the never-aborted default. -/
inductive RawSignal where
  | absent
  | nonObject
  | sig (aborted : Bool)
deriving DecidableEq, Repr

/-- Runtime shape of a TaskController / LockController options object
(fields not relevant to the claims are omitted; handler slots only ever
hold functions in the claims considered). -/
structure CtorFields where
  concurrency : JSValue := .undef
  queueType : RawQueue := .absent
  waitingTimeout : JSValue := .undef
  releaseTimeout : JSValue := .undef
  signalField : RawSignal := .absent
deriving DecidableEq, Repr

/-- The options argument as a runtime value. -/
inductive CtorArg where
  | jsNull
  | jsUndefined
  | primitive
  | arrayVal
  | obj (o : CtorFields)
deriving DecidableEq, Repr

/-- A thrown JS error (only the kind matters here). -/
inductive JSError where
  | typeError
deriving DecidableEq, Repr

/-- Field-level rule of `OptionsSanitizerUtils.sanitizeToRequired`
(lines 3-29) for the `queueType` slot (default is the string FIFO, so
only string runtime values are kept). -/
def sanitizeQueueType : RawQueue → QueueType
  | .absent => .FIFO
  | .nonString => .FIFO
  | .fifo => .FIFO
  | .lifo => .LIFO

/-- Field-level rule of `sanitizeToRequired` for a numeric timeout slot
(default 0, runtime type number, so every number including NaN and the
infinities is kept; null/undefined and non-numbers fall back). -/
def sanitizeTimeout : JSValue → JSNum
  | .num n => n
  | _ => .fin 0

/-- Field-level rule of `sanitizeToRequired` for the `signal` slot
(default is an object, so objects are kept). -/
def sanitizeSignal : RawSignal → Bool
  | .sig b => b
  | _ => false

end TaskCtrl

namespace TaskCtrl

/-! Model of the LockController (src/locks/lock-controller.ts).
Waiters and permits are identified by natural-number ids drawn from a
counter; the acquired map keeps insertion order as a list. -/

/-- Events emitted by the LockController. -/
inductive LockEv where
  | lockAcquired (i : ℕ)
  | lockReleased (i : ℕ) (timeoutReached : Bool)
  | releaseTimeoutHandlerCalled (i : ℕ)
deriving DecidableEq, Repr

/-- LockController state.  `conc` is the sanitized concurrency (an
integer: the sanitizer can produce nonpositive values),
`releaseTimeoutNum` the sanitized releaseTimeout number. -/
structure LockCtrl where
  conc : ℤ
  queueType : QueueType
  releaseTimeoutNum : JSNum
  waitingQueue : List ℕ
  acquiredList : List ℕ
  releaseTimers : List ℕ
  events : List LockEv
  nextId : ℕ
deriving DecidableEq, Repr

/-- Fresh LockController with already-sanitized options
(constructor lines 51-53). -/
def LockCtrl.init (conc : ℤ) (qt : QueueType) (rt : JSNum) : LockCtrl :=
  { conc := conc, queueType := qt, releaseTimeoutNum := rt,
    waitingQueue := [], acquiredList := [], releaseTimers := [],
    events := [], nextId := 0 }

/-- `isAvailable` (lines 115-118): the concurrent limit is reached when
`acquiredQueue.size >= concurrency`. -/
def LockCtrl.isAvailable (s : LockCtrl) : Bool :=
  decide ((s.acquiredList.length : ℤ) < s.conc)

/-- Pop per queue discipline (`getNextLockToRun`, lines 192-204):
FIFO shifts the head, LIFO pops the tail. -/
def popNext (qt : QueueType) (q : List ℕ) : Option (ℕ × List ℕ) :=
  match qt with
  | .FIFO =>
      match q with
      | [] => none
      | x :: rest => some (x, rest)
  | .LIFO =>
      match q.getLast? with
      | none => none
      | some x => some (x, q.dropLast)

/-- `start` (lines 138-145): create the permit, record it in the
acquired map, arm the release timer when `releaseTimeout > 0`
(buildReleaseFunction lines 162-172), emit lock-acquired. -/
def LockCtrl.start (i : ℕ) (s : LockCtrl) : LockCtrl :=
  let s := { s with acquiredList := s.acquiredList ++ [i] }
  let s := if s.releaseTimeoutNum.gtZero then
      { s with releaseTimers := s.releaseTimers ++ [i] }
    else s
  { s with events := s.events ++ [LockEv.lockAcquired i] }

/-- `dispatchNextLock` (lines 177-190). -/
def LockCtrl.dispatchNextLock (s : LockCtrl) : LockCtrl :=
  if s.isAvailable then
    match popNext s.queueType s.waitingQueue with
    | none => s
    | some (i, rest) => LockCtrl.start i { s with waitingQueue := rest }
  else s

/-- The release token built by `buildReleaseFunction` (lines 147-160):
if the permit is no longer acquired, do nothing; otherwise cancel its
release timer, remove it, emit lock-released and dispatch. -/
def LockCtrl.releaseFn (i : ℕ) (timeoutReached : Bool) (s : LockCtrl) : LockCtrl :=
  if i ∈ s.acquiredList then
    let s := { s with releaseTimers := s.releaseTimers.erase i }
    let s := { s with acquiredList := s.acquiredList.erase i }
    let s := { s with events := s.events ++ [LockEv.lockReleased i timeoutReached] }
    s.dispatchNextLock
  else s

/-- `acquire` (lines 82-88): append a waiter and dispatch. -/
def LockCtrl.acquire (s : LockCtrl) : LockCtrl :=
  let i := s.nextId
  let s := { s with waitingQueue := s.waitingQueue ++ [i], nextId := i + 1 }
  s.dispatchNextLock

/-- `tryAcquire` (lines 95-109): refuse when someone is waiting, refuse
when the concurrent limit is reached, otherwise start a fresh permit.
Returns whether it acquired together with the new state. -/
def LockCtrl.tryAcquire (s : LockCtrl) : Bool × LockCtrl :=
  if s.waitingQueue.length > 0 then (false, s)
  else if decide ((s.acquiredList.length : ℤ) ≥ s.conc) then (false, s)
  else
    let i := s.nextId
    (true, LockCtrl.start i { s with nextId := i + 1 })

/-- `releaseAcquiredLocks` (lines 123-132): snapshot the acquired map
and invoke every release token. -/
def LockCtrl.releaseAcquiredLocks (s : LockCtrl) : LockCtrl :=
  if s.acquiredList.isEmpty then s
  else s.acquiredList.foldl (fun acc i => LockCtrl.releaseFn i false acc) s

/-- Release timer fire (lines 163-171): the handler is invoked first,
then the token with `timeoutReached = true`.  Only an armed timer can
fire. -/
def LockCtrl.fireReleaseTimer (i : ℕ) (s : LockCtrl) : LockCtrl :=
  if i ∈ s.releaseTimers then
    let s := { s with releaseTimers := s.releaseTimers.erase i }
    let s := { s with events := s.events ++ [LockEv.releaseTimeoutHandlerCalled i] }
    LockCtrl.releaseFn i true s
  else s

end TaskCtrl

namespace TaskCtrl

/-! Model of the TaskController (src/tasks/task-controller.ts).
Every submission gets a fresh natural-number id.  The waiting queue,
running map and expired set are insertion-ordered lists of ids; the
per-entry data lives in `entries`.  `outerSettled` tracks whether the
Future returned by the submission operation has settled and with which
variant; the JS code settles it only when the user callable returns
(`enqueueAndRun`, lines 341-361). -/

/-- Discard reason enumeration. -/
inductive DiscardReason where
  | timeoutReached
  | forced
  | abortSignal
deriving DecidableEq, Repr

/-- Release-before-finish reason enumeration. -/
inductive RelReason where
  | timeoutReached
  | forced
deriving DecidableEq, Repr

/-- Scheduler events; the handler-called markers record the order in
which the controller invokes user-supplied timeout handlers. -/
inductive Ev where
  | taskStarted (i : ℕ)
  | taskFinished (i : ℕ)
  | taskFailure (i : ℕ)
  | taskDiscarded (i : ℕ) (r : DiscardReason)
  | taskReleasedBeforeFinished (i : ℕ) (r : RelReason)
  | releaseTimeoutHandlerCalled (i : ℕ)
  | waitingTimeoutHandlerCalled (i : ℕ)
deriving DecidableEq, Repr

/-- Settlement variant of the Future returned by a submission
operation.  `rejectedDiscard` is the variant the spec postulates for
discarded tasks; the code never produces it. -/
inductive SettledResult where
  | fulfilled
  | rejectedError
  | rejectedDiscard
deriving DecidableEq, Repr

/-- Per-call option overrides (`TaskOptions`); `none` means the slot is
absent and the controller default applies. -/
structure TaskOpts where
  waitingTimeout : Option JSNum := none
  releaseTimeout : Option JSNum := none
  aborted : Option Bool := none
deriving DecidableEq, Repr

/-- Lifecycle phase of a submitted task. -/
inductive Phase where
  | waiting
  | running
  | expired
  | finished
  | discarded
deriving DecidableEq, Repr

/-- Per-submission record. -/
structure EntryRec where
  eid : ℕ
  opts : Option TaskOpts
  phase : Phase
  outstanding : Bool
  outerSettled : Option SettledResult
  discardReason : Option DiscardReason
  releaseReason : Option RelReason
deriving DecidableEq, Repr

/-- TaskController state. -/
structure Ctrl where
  conc : ℤ
  queueType : QueueType
  defWaitingTimeout : JSNum
  defReleaseTimeout : JSNum
  defAborted : Bool
  entries : List EntryRec
  waitingQueue : List ℕ
  runningList : List ℕ
  expiredList : List ℕ
  waitingTimers : List ℕ
  releaseTimers : List ℕ
  events : List Ev
  nextId : ℕ
deriving DecidableEq, Repr

/-- Fresh controller with already-sanitized options
(constructor lines 75-77). -/
def Ctrl.init (conc : ℤ) (qt : QueueType) (wt rt : JSNum) (ab : Bool) : Ctrl :=
  { conc := conc, queueType := qt, defWaitingTimeout := wt,
    defReleaseTimeout := rt, defAborted := ab, entries := [],
    waitingQueue := [], runningList := [], expiredList := [],
    waitingTimers := [], releaseTimers := [], events := [], nextId := 0 }

/-- Entry lookup by id. -/
def Ctrl.findEntry (s : Ctrl) (i : ℕ) : Option EntryRec :=
  s.entries.find? (fun e => e.eid == i)

/-- Pointwise entry update by id. -/
def Ctrl.updEntry (s : Ctrl) (i : ℕ) (f : EntryRec → EntryRec) : Ctrl :=
  { s with entries := s.entries.map (fun e => if e.eid == i then f e else e) }

/-- Append an event to the log (`emit`, lines 309-311; listeners are
pure observers). -/
def Ctrl.emit (s : Ctrl) (e : Ev) : Ctrl :=
  { s with events := s.events ++ [e] }

/-- Effective abort flag of an entry:
`taskEntry.options?.signal ?? this.options.signal` (line 454). -/
def Ctrl.effAborted (s : Ctrl) (i : ℕ) : Bool :=
  (((s.findEntry i).bind (fun e => e.opts)).bind (fun o => o.aborted)).getD s.defAborted

/-- Effective waiting timeout of an entry (line 318). -/
def Ctrl.effWaitingTimeout (s : Ctrl) (i : ℕ) : JSNum :=
  (((s.findEntry i).bind (fun e => e.opts)).bind (fun o => o.waitingTimeout)).getD s.defWaitingTimeout

/-- Effective release timeout of an entry (line 418). -/
def Ctrl.effReleaseTimeout (s : Ctrl) (i : ℕ) : JSNum :=
  (((s.findEntry i).bind (fun e => e.opts)).bind (fun o => o.releaseTimeout)).getD s.defReleaseTimeout

/-- `runningTasks()` (lines 296-298). -/
def Ctrl.runningTasks (s : Ctrl) : ℕ := s.runningList.length

/-- `waitingTasks()` (lines 287-289). -/
def Ctrl.waitingTasks (s : Ctrl) : ℕ := s.waitingQueue.length

/-- `expiredTasks()` (lines 305-307). -/
def Ctrl.expiredTasks (s : Ctrl) : ℕ := s.expiredList.length

/-- `isAvailable()` (lines 257-260). -/
def Ctrl.isAvailable (s : Ctrl) : Bool :=
  decide ((s.runningList.length : ℤ) < s.conc)

/-- Skip aborted entries from the front of a pop-ordered queue,
returning the skipped ids in pop order, the admitted id and the
remaining queue (in the same orientation). -/
def skipFront (ab : ℕ → Bool) : List ℕ → List ℕ × Option ℕ × List ℕ
  | [] => ([], none, [])
  | x :: rest =>
      if ab x then
        let r := skipFront ab rest
        (x :: r.1, r.2.1, r.2.2)
      else ([], some x, rest)

/-- Discard one popped entry whose effective signal is aborted
(`getNextTaskToRun`, lines 454-460): its waiting timer was already
cancelled at pop (lines 450-452), the discard reason is recorded and
task-discarded emitted. -/
def Ctrl.discardAborted (s : Ctrl) (i : ℕ) : Ctrl :=
  let s1 := { s with waitingTimers := s.waitingTimers.erase i }
  let s2 := s1.updEntry i (fun e =>
    { e with phase := Phase.discarded, discardReason := some DiscardReason.abortSignal })
  s2.emit (Ev.taskDiscarded i DiscardReason.abortSignal)

/-- Pop discipline of `getNextTaskToRun` (lines 437-444) as a pure
function: FIFO skips and pops from the head, LIFO from the tail. -/
def queuePick (qt : QueueType) (ab : ℕ → Bool) (q : List ℕ) :
    List ℕ × Option ℕ × List ℕ :=
  match qt with
  | QueueType.FIFO => skipFront ab q
  | QueueType.LIFO =>
      let r0 := skipFront ab q.reverse
      (r0.1, r0.2.1, r0.2.2.reverse)

/-- `getNextTaskToRun` (lines 435-463): pop per discipline (recursing
past aborted entries), cancel the popped waiting timer, and return the
admitted id, if any, with the updated state. -/
def Ctrl.getNext (s : Ctrl) : Option ℕ × Ctrl :=
  let r := queuePick s.queueType (s.effAborted) s.waitingQueue
  let s1 := { s with waitingQueue := r.2.2 }
  let s2 := r.1.foldl Ctrl.discardAborted s1
  match r.2.1 with
  | none => (none, s2)
  | some i => (some i, { s2 with waitingTimers := s2.waitingTimers.erase i })

/-- `start` (lines 378-385) together with the timer arming inside
`buildReleaseFunction` (lines 418-430): the release timer is armed when
the effective releaseTimeout is positive, the entry joins the running
map, task-started is emitted; the waiter future is resolved so the
wrapper will run the user callable. -/
def Ctrl.startTask (i : ℕ) (s : Ctrl) : Ctrl :=
  let s1 := if (s.effReleaseTimeout i).gtZero then
      { s with releaseTimers := s.releaseTimers ++ [i] }
    else s
  let s2 := { s1 with runningList := s1.runningList ++ [i] }
  let s3 := s2.updEntry i (fun e =>
    { e with phase := Phase.running, outstanding := true })
  s3.emit (Ev.taskStarted i)

/-- `dispatchNextTask` (lines 363-376): a single dispatch — at most one
waiter is admitted per call. -/
def Ctrl.dispatchNextTask (s : Ctrl) : Ctrl :=
  if s.isAvailable then
    match s.getNext with
    | (none, s1) => s1
    | (some i, s1) => Ctrl.startTask i s1
  else s

/-- The release token built by `buildReleaseFunction` (lines 387-416):
first, an entry found in the expired set is finalized (removed,
task-finished emitted); then, if the entry is not running, return;
otherwise cancel the release timer, remove from running, and either move
to expired (reason timeoutReached/forced, emitting
task-released-before-finished) or finish (no reason, emitting
task-finished); finally dispatch the next waiter. -/
def Ctrl.releaseFn (i : ℕ) (reason : Option RelReason) (s : Ctrl) : Ctrl :=
  let s0 := if i ∈ s.expiredList then
      (Ctrl.updEntry { s with expiredList := s.expiredList.erase i } i
        (fun e => { e with phase := Phase.finished })).emit (Ev.taskFinished i)
    else s
  if i ∈ s0.runningList then
    let s1 := { s0 with releaseTimers := s0.releaseTimers.erase i }
    let s2 := { s1 with runningList := s1.runningList.erase i }
    let s3 := match reason with
      | some r =>
          (Ctrl.updEntry { s2 with expiredList := s2.expiredList ++ [i] } i
            (fun e => { e with phase := Phase.expired, releaseReason := some r })).emit
            (Ev.taskReleasedBeforeFinished i r)
      | none =>
          (s2.updEntry i (fun e => { e with phase := Phase.finished })).emit
            (Ev.taskFinished i)
    s3.dispatchNextTask
  else s0

/-- `acquire` reached from `enqueueAndRun` (lines 313-339): push a
fresh waiting entry, arm the waiting timer when the effective
waitingTimeout is positive, and dispatch. -/
def Ctrl.submit (opts : Option TaskOpts) (s : Ctrl) : Ctrl :=
  let i := s.nextId
  let e : EntryRec :=
    { eid := i, opts := opts, phase := Phase.waiting,
      outstanding := false, outerSettled := none, discardReason := none,
      releaseReason := none }
  let s1 :=
    { s with
      entries := s.entries ++ [e]
      waitingQueue := s.waitingQueue ++ [i]
      nextId := i + 1 }
  let s2 := if (s1.effWaitingTimeout i).gtZero then
      { s1 with waitingTimers := s1.waitingTimers ++ [i] }
    else s1
  s2.dispatchNextTask

/-- Waiting timer fire (lines 320-334): splice the entry out of the
queue if still present, record the discard reason, emit task-discarded,
then call the waiting timeout handler.  Only an armed timer can fire,
and firing consumes it. -/
def Ctrl.fireWaitingTimer (i : ℕ) (s : Ctrl) : Ctrl :=
  if i ∈ s.waitingTimers then
    let s1 := { s with waitingTimers := s.waitingTimers.erase i }
    let s2 := { s1 with waitingQueue := s1.waitingQueue.erase i }
    let s3 := s2.updEntry i (fun e =>
      { e with phase := Phase.discarded, discardReason := some DiscardReason.timeoutReached })
    let s4 := s3.emit (Ev.taskDiscarded i DiscardReason.timeoutReached)
    s4.emit (Ev.waitingTimeoutHandlerCalled i)
  else s

/-- Release timer fire (lines 420-429): the token is invoked with
reason timeoutReached first — freeing the slot and dispatching — and
the releaseTimeoutHandler is called only afterwards. -/
def Ctrl.fireReleaseTimer (i : ℕ) (s : Ctrl) : Ctrl :=
  if i ∈ s.releaseTimers then
    let s1 := { s with releaseTimers := s.releaseTimers.erase i }
    let s2 := Ctrl.releaseFn i (some RelReason.timeoutReached) s1
    s2.emit (Ev.releaseTimeoutHandlerCalled i)
  else s

/-- The wrapper around the user callable (`enqueueAndRun`,
lines 341-361): when the callable settles, the outer Future settles
(fulfilled on success, rejected-with-error on failure, emitting
task-failure first), and the release token is invoked with no reason.
Only an admitted entry whose callable is still outstanding can
complete. -/
def Ctrl.taskCompletes (i : ℕ) (ok : Bool) (s : Ctrl) : Ctrl :=
  match s.findEntry i with
  | none => s
  | some e =>
    if e.outstanding then
      let s1 := s.updEntry i (fun e =>
        { e with
          outstanding := false
          outerSettled := some (if ok then SettledResult.fulfilled else SettledResult.rejectedError) })
      let s2 := if ok then s1 else s1.emit (Ev.taskFailure i)
      Ctrl.releaseFn i none s2
    else s

/-- `flushPendingTasks` (lines 233-249): snapshot the waiting queue,
clear it, then for each entry record discardReason forced, emit
task-discarded and cancel its waiting timer. -/
def Ctrl.flushPendingTasks (s : Ctrl) : Ctrl :=
  if s.waitingQueue.isEmpty then s
  else
    let q := s.waitingQueue
    let s1 := { s with waitingQueue := [] }
    q.foldl (fun acc i =>
      let a1 := acc.updEntry i (fun e =>
        { e with phase := Phase.discarded, discardReason := some DiscardReason.forced })
      let a2 := a1.emit (Ev.taskDiscarded i DiscardReason.forced)
      { a2 with waitingTimers := a2.waitingTimers.erase i }) s1

/-- `releaseRunningTasks` (lines 219-228): snapshot the running map and
invoke each release token with reason forced. -/
def Ctrl.releaseRunningTasks (s : Ctrl) : Ctrl :=
  if s.runningList.isEmpty then s
  else s.runningList.foldl (fun acc i => Ctrl.releaseFn i (some RelReason.forced) acc) s

/-- `changeConcurrentLimit` (lines 262-280): null/undefined,
non-integers and values below 1 are ignored; otherwise the limit is
updated and, when it increased, a single dispatch is performed. -/
def Ctrl.changeConcurrentLimit (v : JSValue) (s : Ctrl) : Ctrl :=
  match v with
  | JSValue.null => s
  | JSValue.undef => s
  | JSValue.notNumber => s
  | JSValue.num JSNum.nan => s
  | JSValue.num JSNum.posInf => s
  | JSValue.num JSNum.negInf => s
  | JSValue.num (JSNum.fin q) =>
      if ¬ JSNum.isIntegerFin q then s
      else if q.num < 1 then s
      else
        let increased := decide (s.conc < q.num)
        let s1 := { s with conc := q.num }
        if increased then s1.dispatchNextTask else s1

/-- The availability report of `tryRun`/`tryRunWithOptions`
(lines 202-214): unavailable when someone is waiting, unavailable when
the concurrent limit is reached, available otherwise. -/
def Ctrl.tryRunAvailable (s : Ctrl) : Bool :=
  if s.waitingQueue.length > 0 then false
  else if decide ((s.runningList.length : ℤ) ≥ s.conc) then false
  else true

/-- External occurrences driving the controller: public API calls,
user-callable completions and timer fires. -/
inductive Step where
  | submit (opts : Option TaskOpts)
  | complete (i : ℕ) (ok : Bool)
  | waitTimer (i : ℕ)
  | relTimer (i : ℕ)
  | flush
  | releaseAll
  | changeLimit (v : JSValue)
deriving DecidableEq, Repr

/-- One event-loop turn. -/
def step (s : Ctrl) : Step → Ctrl
  | Step.submit o => Ctrl.submit o s
  | Step.complete i ok => Ctrl.taskCompletes i ok s
  | Step.waitTimer i => Ctrl.fireWaitingTimer i s
  | Step.relTimer i => Ctrl.fireReleaseTimer i s
  | Step.flush => Ctrl.flushPendingTasks s
  | Step.releaseAll => Ctrl.releaseRunningTasks s
  | Step.changeLimit v => Ctrl.changeConcurrentLimit v s

/-- Run a list of turns. -/
def runSteps (s : Ctrl) (l : List Step) : Ctrl := l.foldl step s

end TaskCtrl

namespace TaskCtrl

/-! Constructor bodies as fallible functions (claim C10).  A JS
property read on null or undefined throws; on any other value it
succeeds (primitives are boxed, absent fields read as undefined). -/

/-- Runtime value found in the `stepConcurrencies` slot of the
MultiStepController options. -/
inductive MSField where
  | missing
  | notArray
  | arrOf (ls : List JSValue)
deriving DecidableEq, Repr

/-- The options argument of the MultiStepController constructor as a
runtime value. -/
inductive MSArg where
  | jsNull
  | jsUndefined
  | primitive
  | arrayVal
  | obj (sc : MSField)
deriving DecidableEq, Repr

/-- TaskController constructor (lines 75-77 with `sanitizeOptions`,
lines 465-476): `if (options)` guards every property read, so null and
undefined never get dereferenced; non-object truthy values survive the
reads (boxing) and `sanitizeToRequired` maps them to all defaults. -/
def taskControllerConstruct (a : CtorArg) : Except JSError Ctrl :=
  match a with
  | CtorArg.jsNull => Except.ok (Ctrl.init 1 QueueType.FIFO (JSNum.fin 0) (JSNum.fin 0) false)
  | CtorArg.jsUndefined => Except.ok (Ctrl.init 1 QueueType.FIFO (JSNum.fin 0) (JSNum.fin 0) false)
  | CtorArg.primitive => Except.ok (Ctrl.init 1 QueueType.FIFO (JSNum.fin 0) (JSNum.fin 0) false)
  | CtorArg.arrayVal => Except.ok (Ctrl.init 1 QueueType.FIFO (JSNum.fin 0) (JSNum.fin 0) false)
  | CtorArg.obj o =>
      Except.ok (Ctrl.init (sanitizedConcurrency o.concurrency)
        (sanitizeQueueType o.queueType) (sanitizeTimeout o.waitingTimeout)
        (sanitizeTimeout o.releaseTimeout) (sanitizeSignal o.signalField))

/-- LockController constructor (lines 51-53 with `sanitizeOptions`,
lines 206-217): same guarded structure as the TaskController. -/
def lockControllerConstruct (a : CtorArg) : Except JSError LockCtrl :=
  match a with
  | CtorArg.jsNull => Except.ok (LockCtrl.init 1 QueueType.FIFO (JSNum.fin 0))
  | CtorArg.jsUndefined => Except.ok (LockCtrl.init 1 QueueType.FIFO (JSNum.fin 0))
  | CtorArg.primitive => Except.ok (LockCtrl.init 1 QueueType.FIFO (JSNum.fin 0))
  | CtorArg.arrayVal => Except.ok (LockCtrl.init 1 QueueType.FIFO (JSNum.fin 0))
  | CtorArg.obj o =>
      Except.ok (LockCtrl.init (sanitizedConcurrency o.concurrency)
        (sanitizeQueueType o.queueType) (sanitizeTimeout o.releaseTimeout))

/-- MultiStepController constructor
(src/tasks/multi-step-controller.ts, lines 8-17): no sanitization —
`this.options = options` is followed by the unguarded read
`this.options.stepConcurrencies.forEach(...)`.  Reading a property of
null or undefined throws; on a primitive or array the slot reads as
undefined and calling `forEach` on undefined throws; a non-array slot
value has no callable `forEach`.  On success each step builds
`new LockController({ concurrency: value })`. -/
def multiStepConstruct (a : MSArg) : Except JSError (List ℤ) :=
  match a with
  | MSArg.jsNull => Except.error JSError.typeError
  | MSArg.jsUndefined => Except.error JSError.typeError
  | MSArg.primitive => Except.error JSError.typeError
  | MSArg.arrayVal => Except.error JSError.typeError
  | MSArg.obj MSField.missing => Except.error JSError.typeError
  | MSArg.obj MSField.notArray => Except.error JSError.typeError
  | MSArg.obj (MSField.arrOf ls) => Except.ok (ls.map sanitizedConcurrency)

end TaskCtrl

namespace TaskCtrl

/-- Settlement state of the Future returned by the submission whose
entry has id `i`: `none` while it is still pending (or when no such
submission exists). -/
def settledOf (s : Ctrl) (i : ℕ) : Option SettledResult :=
  (s.findEntry i).bind (fun e => e.outerSettled)

end TaskCtrl

namespace TaskCtrl

/-- Phase recorded for the entry of id `i` (none when no such
submission exists). -/
def phaseOf (s : Ctrl) (i : ℕ) : Option Phase :=
  (s.findEntry i).map (fun e => e.phase)

/-- Whether the user callable of entry `i` is currently executing. -/
def outstandingOf (s : Ctrl) (i : ℕ) : Bool :=
  match s.findEntry i with
  | some e => e.outstanding
  | none => false

/-- Number of events satisfying a predicate. -/
def evCnt (p : Ev → Bool) (l : List Ev) : ℕ := (l.filter p).length

/-- Recognizers for the per-task lifecycle events. -/
def isStartEv (i : ℕ) : Ev → Bool
  | Ev.taskStarted j => j == i
  | _ => false

def isFinEv (i : ℕ) : Ev → Bool
  | Ev.taskFinished j => j == i
  | _ => false

def isDisEv (i : ℕ) : Ev → Bool
  | Ev.taskDiscarded j _ => j == i
  | _ => false

def isFailEv (i : ℕ) : Ev → Bool
  | Ev.taskFailure j => j == i
  | _ => false

/-- Lifecycle event counters of a controller state. -/
def startCnt (s : Ctrl) (i : ℕ) : ℕ := evCnt (isStartEv i) s.events

def finCnt (s : Ctrl) (i : ℕ) : ℕ := evCnt (isFinEv i) s.events

def disCnt (s : Ctrl) (i : ℕ) : ℕ := evCnt (isDisEv i) s.events

def failCnt (s : Ctrl) (i : ℕ) : ℕ := evCnt (isFailEv i) s.events

/-- Relation between an entry's phase and its lifecycle event counts:
a waiting (or non-existent) entry has emitted nothing, a running or
expired one exactly one task-started, a finished one exactly one
task-finished (with at most one task-failure, none while its callable
is still outstanding), and a discarded one exactly one task-discarded
and nothing else. -/
def phaseCnt (ph : Option Phase) (st fin dis fl : ℕ) (ou : Bool) : Prop :=
  match ph with
  | none => st = 0 ∧ fin = 0 ∧ dis = 0 ∧ fl = 0 ∧ ou = false
  | some Phase.waiting => st = 0 ∧ fin = 0 ∧ dis = 0 ∧ fl = 0 ∧ ou = false
  | some Phase.running => st = 1 ∧ fin = 0 ∧ dis = 0 ∧ fl = 0 ∧ ou = true
  | some Phase.expired => st = 1 ∧ fin = 0 ∧ dis = 0 ∧ fl = 0 ∧ ou = true
  | some Phase.finished =>
      st = 1 ∧ fin = 1 ∧ dis = 0 ∧ (ou = true → fl = 0) ∧ fl ≤ 1
  | some Phase.discarded => st = 0 ∧ fin = 0 ∧ dis = 1 ∧ fl = 0 ∧ ou = false

def CntOK (s : Ctrl) (i : ℕ) : Prop :=
  phaseCnt (phaseOf s i) (startCnt s i) (finCnt s i) (disCnt s i)
    (failCnt s i) (outstandingOf s i)

/-- Well-formedness of a controller state, generalized by a list `X` of
in-flight ids: entries popped from the waiting queue during the current
dispatch that have not yet been retired (admitted or discarded). -/
structure WFx (s : Ctrl) (X : List ℕ) : Prop where
  idsLt : ∀ e ∈ s.entries, e.eid < s.nextId
  wqNodup : (s.waitingQueue ++ X).Nodup
  runNodup : s.runningList.Nodup
  expNodup : s.expiredList.Nodup
  wqPhase : ∀ i, (i ∈ s.waitingQueue ∨ i ∈ X) ↔ phaseOf s i = some Phase.waiting
  runPhase : ∀ i, i ∈ s.runningList ↔ phaseOf s i = some Phase.running
  expPhase : ∀ i, i ∈ s.expiredList ↔ phaseOf s i = some Phase.expired
  wtNodup : s.waitingTimers.Nodup
  rtNodup : s.releaseTimers.Nodup
  wtSub : ∀ i, i ∈ s.waitingTimers → i ∈ s.waitingQueue ∨ i ∈ X
  rtSub : ∀ i, i ∈ s.releaseTimers → i ∈ s.runningList
  cnt : ∀ i, CntOK s i

/-- Well-formedness with no in-flight ids. -/
def WF (s : Ctrl) : Prop := WFx s []

/-- Well-formedness with the count relation possibly broken at one id
`j` (the entry being settled inside a completion, whose outstanding
flag was just cleared). -/
structure WFc (s : Ctrl) (j : ℕ) : Prop where
  idsLt : ∀ e ∈ s.entries, e.eid < s.nextId
  wqNodup : s.waitingQueue.Nodup
  runNodup : s.runningList.Nodup
  expNodup : s.expiredList.Nodup
  wqPhase : ∀ i, i ∈ s.waitingQueue ↔ phaseOf s i = some Phase.waiting
  runPhase : ∀ i, i ∈ s.runningList ↔ phaseOf s i = some Phase.running
  expPhase : ∀ i, i ∈ s.expiredList ↔ phaseOf s i = some Phase.expired
  wtNodup : s.waitingTimers.Nodup
  rtNodup : s.releaseTimers.Nodup
  wtSub : ∀ i, i ∈ s.waitingTimers → i ∈ s.waitingQueue
  rtSub : ∀ i, i ∈ s.releaseTimers → i ∈ s.runningList
  cnt : ∀ i, i ≠ j → CntOK s i

end TaskCtrl

namespace TaskCtrl

/-- Justification that `jsRound` computes `⌊q + 1/2⌋`, the JS
`Math.round` of a finite value. -/
theorem jsRound_eq_floor (q : ℚ) : jsRound q = ⌊q + 1/2⌋ := by
  have hd0 : (q.den : ℚ) ≠ 0 := by
    exact_mod_cast q.den_nz
  have hnum : (q.num : ℚ) = q * (q.den : ℚ) := by
    have hq := Rat.num_div_den q
    rw [div_eq_iff hd0] at hq
    exact hq
  have h : q + 1/2 = ((2 * q.num + (q.den : ℤ) : ℤ) : ℚ) / (((2 * q.den : ℕ) : ℕ) : ℚ) := by
    rw [eq_div_iff (by positivity)]
    push_cast
    rw [hnum]
    ring
  rw [h, Rat.floor_intCast_div_natCast]
  unfold jsRound
  rw [Int.fdiv_eq_ediv _ (by positivity)]
  push_cast
  ring_nf

/-- Claim C2, counterexample: the supplied concurrency -12/5 is
negative, so by the claim the constructors should store the default 1;
the code rounds it to -2 and stores -2 (the `Number.isInteger` branch
returns `Math.round(value)` before the `value <= 0` guard is ever
reached). -/
theorem c2_sanitize_counterexample :
    sanitizedConcurrency (JSValue.num (JSNum.fin (mkRat (-12) 5))) = -2 := by decide

/-- Claim C2, amended: at construction of the Scheduler or the Gate, a
non-number, NaN, infinite, or nonpositive-integer concurrency yields the
default 1; a non-integer numeric value is rounded to the nearest
integer with ties going up and the rounded value is stored even when it
is zero or negative; only nonpositive integers fall back to the
default. -/
theorem c2_sanitize_amended :
    ∀ v : JSValue, sanitizedConcurrency v = specConcurrencyAmended v := by
  intro v
  cases v with
  | undef => rfl
  | null => rfl
  | notNumber => rfl
  | num n =>
    cases n with
    | nan => rfl
    | posInf => rfl
    | negInf => rfl
    | fin q =>
      simp only [sanitizedConcurrency, sanitizeNumberToPositiveGraterThanZeroInteger,
        specConcurrencyAmended]
      by_cases h : JSNum.isIntegerFin q = true
      · simp only [h, not_true_eq_false, if_false, if_true]
        by_cases h2 : q.num ≤ 0
        · have h3 : ¬ (0 < q.num) := by omega
          simp [h2, h3]
        · have h3 : 0 < q.num := by omega
          simp [h2, h3]
      · have h1 : JSNum.isIntegerFin q = false := by
          revert h
          cases JSNum.isIntegerFin q <;> simp
        simp [h1]

/-- Claim C5, counterexample: `tryRun(task, "A", 100)` ends up invoking
the user callable with a single doubly-nested array argument instead of
the supplied argument list, because `tryRun` passes its rest array to
`tryRunWithOptions` without spreading it, and the thunk passes its rest
array to `enqueueAndRun` without spreading it. -/
theorem c5_args_counterexample :
    tryRunInvokedArgs [JSArg.base 0, JSArg.base 1] ≠ [JSArg.base 0, JSArg.base 1] := by
  simp [tryRunInvokedArgs, tryRunWithOptionsInvokedArgs, invokedArgs, enqueueAndRunEntryArgs]

/-- Claim C5, amended: run, runWithOptions, runMany, runForEachArgs and
runForEach invoke the user callable with exactly the argument list
supplied at submission; the thunks returned by tryRunWithOptions and
tryRun instead invoke it with a single argument — the caller's argument
array (wrapped once, respectively twice, by the missing spreads). -/
theorem c5_args_amended :
    ∀ (cs : List JSArg) (e : JSArg),
      runInvokedArgs cs = cs ∧
      runWithOptionsInvokedArgs cs = cs ∧
      runManyInvokedArgs (some cs) = cs ∧
      runManyInvokedArgs none = [] ∧
      runForEachArgsInvokedArgs cs = cs ∧
      runForEachInvokedArgs e = [e] ∧
      tryRunWithOptionsInvokedArgs cs = [JSArg.arr cs] ∧
      tryRunInvokedArgs cs = [JSArg.arr [JSArg.arr cs]] := by
  intro cs e
  exact ⟨rfl, rfl, rfl, rfl, rfl, rfl, rfl, rfl⟩

/-- Claim C10, counterexample: `new MultiStepController(null)` throws a
TypeError (the constructor reads `options.stepConcurrencies` with no
guard), contradicting the claim that none of the three constructors
throws for any options argument. -/
theorem c10_ctor_counterexample :
    multiStepConstruct MSArg.jsNull = Except.error JSError.typeError := rfl

/-- Claim C10, amended: the TaskController and LockController
constructors never throw — every options argument, including null,
undefined, primitives, arrays and objects with wrong-typed fields, is
silently sanitized to defaults; the MultiStepController constructor
performs no sanitization and throws a TypeError whenever its options
argument is not an object carrying an array-valued `stepConcurrencies`
field (in which case each step concurrency is sanitized by the
LockController it builds). -/
theorem c10_ctor_amended :
    (∀ a : CtorArg, ∃ s, taskControllerConstruct a = Except.ok s) ∧
    (∀ a : CtorArg, ∃ t, lockControllerConstruct a = Except.ok t) ∧
    (∀ ls, multiStepConstruct (MSArg.obj (MSField.arrOf ls)) =
      Except.ok (ls.map sanitizedConcurrency)) ∧
    multiStepConstruct MSArg.jsUndefined = Except.error JSError.typeError ∧
    multiStepConstruct MSArg.primitive = Except.error JSError.typeError ∧
    multiStepConstruct MSArg.arrayVal = Except.error JSError.typeError ∧
    multiStepConstruct (MSArg.obj MSField.missing) = Except.error JSError.typeError ∧
    multiStepConstruct (MSArg.obj MSField.notArray) = Except.error JSError.typeError := by
  refine ⟨?_, ?_, fun ls => rfl, rfl, rfl, rfl, rfl, rfl⟩
  · intro a
    cases a <;> exact ⟨_, rfl⟩
  · intro a
    cases a <;> exact ⟨_, rfl⟩

/-- Claim C7: `tryRun` of the Scheduler and `tryAcquire` of the Gate
report availability exactly when the running (acquired) count is
strictly below the concurrency limit and the waiting queue is empty;
a queued waiter makes them report unavailable even if a slot is
free. -/
theorem c7_try_report :
    ∀ (s : Ctrl) (t : LockCtrl),
      (s.tryRunAvailable = true ↔ (s.isAvailable = true ∧ s.waitingTasks = 0)) ∧
      ((t.tryAcquire).1 = true ↔ (t.isAvailable = true ∧ t.waitingQueue.length = 0)) := by
  intro s t
  constructor
  · constructor
    · intro h
      unfold Ctrl.tryRunAvailable at h
      split_ifs at h with h1 h2
      simp only [decide_eq_true_eq] at h2
      refine ⟨?_, ?_⟩
      · simp only [Ctrl.isAvailable, decide_eq_true_eq]
        omega
      · unfold Ctrl.waitingTasks
        omega
    · rintro ⟨ha, hw⟩
      simp only [Ctrl.isAvailable, decide_eq_true_eq] at ha
      unfold Ctrl.waitingTasks at hw
      unfold Ctrl.tryRunAvailable
      split_ifs with h1 h2
      · exact absurd h1 (by omega)
      · simp only [decide_eq_true_eq] at h2
        exact absurd h2 (by omega)
      · rfl
  · constructor
    · intro h
      unfold LockCtrl.tryAcquire at h
      split_ifs at h with h1 h2
      simp only [decide_eq_true_eq] at h2
      refine ⟨?_, ?_⟩
      · simp only [LockCtrl.isAvailable, decide_eq_true_eq]
        omega
      · omega
    · rintro ⟨ha, hw⟩
      simp only [LockCtrl.isAvailable, decide_eq_true_eq] at ha
      unfold LockCtrl.tryAcquire
      split_ifs with h1 h2
      · exact absurd h1 (by omega)
      · simp only [decide_eq_true_eq] at h2
        exact absurd h2 (by omega)
      · rfl

/-- Claim C1, counterexample: submit two tasks to a concurrency-1
Scheduler and flush the pending one; the flushed entry is discarded
(discardReason forced, task-discarded emitted) yet the Future returned
by its submission has not settled — the claim says it settles to the
rejected-with-discard-marker variant at the discard. -/
theorem c1_discard_counterexample :
    ((runSteps (Ctrl.init 1 QueueType.FIFO (JSNum.fin 0) (JSNum.fin 0) false)
        [Step.submit none, Step.submit none, Step.flush]).findEntry 1).map
        (fun e => (e.phase, e.outerSettled, e.discardReason))
      = some (Phase.discarded, none, some DiscardReason.forced) := by decide

/-- Claim C3, counterexample: with concurrency 1, one task running and
two waiting (none aborted), `changeConcurrentLimit(3)` should by the
claim start exactly 3 - 1 = 2 waiting tasks; the code performs a single
dispatch, so only one task starts and one keeps waiting. -/
theorem c3_changelimit_counterexample :
    (runSteps (Ctrl.init 1 QueueType.FIFO (JSNum.fin 0) (JSNum.fin 0) false)
        [Step.submit none, Step.submit none, Step.submit none,
         Step.changeLimit (JSValue.num (JSNum.fin 3))]).runningTasks = 2 ∧
    (runSteps (Ctrl.init 1 QueueType.FIFO (JSNum.fin 0) (JSNum.fin 0) false)
        [Step.submit none, Step.submit none, Step.submit none,
         Step.changeLimit (JSValue.num (JSNum.fin 3))]).waitingTasks = 1 := by decide

/-- Claim C6, counterexample: two tasks running at concurrency 2, then
`changeConcurrentLimit(1)`: no running task is evicted, so
runningTasks() = 2 exceeds the new limit 1, contradicting the claim
that runningTasks() never exceeds the current limit across lowering
calls. -/
theorem c6_invariant_counterexample :
    (runSteps (Ctrl.init 2 QueueType.FIFO (JSNum.fin 0) (JSNum.fin 0) false)
        [Step.submit none, Step.submit none,
         Step.changeLimit (JSValue.num (JSNum.fin 1))]).runningTasks = 2 ∧
    (runSteps (Ctrl.init 2 QueueType.FIFO (JSNum.fin 0) (JSNum.fin 0) false)
        [Step.submit none, Step.submit none,
         Step.changeLimit (JSValue.num (JSNum.fin 1))]).conc = 1 := by decide

/-- Claim C4, counterexample: on the Scheduler, invoke a running task's
release token with reason forced, then invoke it a second time: the
second invocation removes the entry from the expired set and emits
task-finished, so it is not a no-op as the claim states for every
reason combination. -/
theorem c4_release_counterexample :
    (Ctrl.releaseFn 0 none (Ctrl.releaseFn 0 (some RelReason.forced)
        (runSteps (Ctrl.init 1 QueueType.FIFO (JSNum.fin 0) (JSNum.fin 0) false)
          [Step.submit none]))).events
      = (Ctrl.releaseFn 0 (some RelReason.forced)
        (runSteps (Ctrl.init 1 QueueType.FIFO (JSNum.fin 0) (JSNum.fin 0) false)
          [Step.submit none])).events ++ [Ev.taskFinished 0] := by decide

end TaskCtrl

namespace TaskCtrl

/-- Membership of the popped element (`popNext`). -/
theorem popNext_some_mem {qt : QueueType} {q rest : List ℕ} {j : ℕ}
    (h : popNext qt q = some (j, rest)) : j ∈ q := by
  cases qt with
  | FIFO =>
    cases q with
    | nil => cases h
    | cons x xs =>
      simp only [popNext, Option.some.injEq, Prod.mk.injEq] at h
      obtain ⟨rfl, rfl⟩ := h
      exact List.mem_cons_self _ _
  | LIFO =>
    simp only [popNext] at h
    cases hg : q.getLast? with
    | none => rw [hg] at h; cases h
    | some x =>
      rw [hg] at h
      simp only [Option.some.injEq, Prod.mk.injEq] at h
      obtain ⟨rfl, rfl⟩ := h
      exact List.mem_of_mem_getLast? hg

/-- The rest of the queue after a pop is contained in the queue. -/
theorem popNext_some_rest_subset {qt : QueueType} {q rest : List ℕ} {j : ℕ}
    (h : popNext qt q = some (j, rest)) : rest ⊆ q := by
  cases qt with
  | FIFO =>
    cases q with
    | nil => cases h
    | cons x xs =>
      simp only [popNext, Option.some.injEq, Prod.mk.injEq] at h
      obtain ⟨rfl, rfl⟩ := h
      exact List.subset_cons_self _ _
  | LIFO =>
    simp only [popNext] at h
    cases hg : q.getLast? with
    | none => rw [hg] at h; cases h
    | some x =>
      rw [hg] at h
      simp only [Option.some.injEq, Prod.mk.injEq] at h
      obtain ⟨rfl, rfl⟩ := h
      exact List.dropLast_subset q

end TaskCtrl

namespace TaskCtrl

/-- Acquired map after `LockCtrl.start`: the fresh permit is
appended. -/
theorem lock_start_acquired (j : ℕ) (s : LockCtrl) :
    (LockCtrl.start j s).acquiredList = s.acquiredList ++ [j] := by
  unfold LockCtrl.start
  cases h : JSNum.gtZero s.releaseTimeoutNum <;> simp [h]

/-- Dispatch never installs a permit whose id was neither acquired nor
waiting. -/
theorem lock_dispatch_not_mem_acquired {s : LockCtrl} {i : ℕ}
    (ha : i ∉ s.acquiredList) (hw : i ∉ s.waitingQueue) :
    i ∉ (LockCtrl.dispatchNextLock s).acquiredList := by
  unfold LockCtrl.dispatchNextLock
  split
  · cases hp : popNext s.queueType s.waitingQueue with
    | none => simpa [hp] using ha
    | some pr =>
      obtain ⟨j, rest⟩ := pr
      have hj : j ∈ s.waitingQueue := popNext_some_mem hp
      have hij : i ≠ j := fun h => hw (h ▸ hj)
      simp only [hp]
      rw [lock_start_acquired]
      simp [List.mem_append, ha, hij]
  · exact ha

/-- After its first invocation a release token's permit is gone from
the acquired map (the permit ids are unique and never re-enter). -/
theorem lock_release_not_mem_acquired {s : LockCtrl} {i : ℕ} (b : Bool)
    (hn : s.acquiredList.Nodup) (hw : i ∉ s.waitingQueue) :
    i ∉ (LockCtrl.releaseFn i b s).acquiredList := by
  unfold LockCtrl.releaseFn
  split
  · exact lock_dispatch_not_mem_acquired (by simpa using hn.not_mem_erase) (by simpa using hw)
  · assumption

/-- Gate release token no-op on a permit that is not acquired
(lines 149-151 of src/locks/lock-controller.ts). -/
theorem lock_release_noop {s : LockCtrl} {i : ℕ} (b : Bool)
    (h : i ∉ s.acquiredList) : LockCtrl.releaseFn i b s = s := by
  unfold LockCtrl.releaseFn
  rw [if_neg h]

/-- Scheduler release token no-op on an entry that is neither running
nor expired (lines 389-396 of src/tasks/task-controller.ts). -/
theorem sched_release_noop {s : Ctrl} {i : ℕ} (r : Option RelReason)
    (hr : i ∉ s.runningList) (he : i ∉ s.expiredList) :
    Ctrl.releaseFn i r s = s := by
  unfold Ctrl.releaseFn
  rw [if_neg he, if_neg hr]

end TaskCtrl

namespace TaskCtrl

/-- Running map after `Ctrl.startTask`: the admitted entry is
appended. -/
theorem startTask_runningList (i : ℕ) (s : Ctrl) :
    (Ctrl.startTask i s).runningList = s.runningList ++ [i] := by
  unfold Ctrl.startTask
  cases h : JSNum.gtZero (s.effReleaseTimeout i) <;> simp [h, Ctrl.updEntry, Ctrl.emit]

/-- Expired set is untouched by `Ctrl.startTask`. -/
theorem startTask_expiredList (i : ℕ) (s : Ctrl) :
    (Ctrl.startTask i s).expiredList = s.expiredList := by
  unfold Ctrl.startTask
  cases h : JSNum.gtZero (s.effReleaseTimeout i) <;> simp [h, Ctrl.updEntry, Ctrl.emit]

/-- Waiting queue is untouched by `Ctrl.startTask`. -/
theorem startTask_waitingQueue (i : ℕ) (s : Ctrl) :
    (Ctrl.startTask i s).waitingQueue = s.waitingQueue := by
  unfold Ctrl.startTask
  cases h : JSNum.gtZero (s.effReleaseTimeout i) <;> simp [h, Ctrl.updEntry, Ctrl.emit]

/-- Concurrency limit is untouched by `Ctrl.startTask`. -/
theorem startTask_conc (i : ℕ) (s : Ctrl) :
    (Ctrl.startTask i s).conc = s.conc := by
  unfold Ctrl.startTask
  cases h : JSNum.gtZero (s.effReleaseTimeout i) <;> simp [h, Ctrl.updEntry, Ctrl.emit]

/-- Events after `Ctrl.startTask`: task-started is appended. -/
theorem startTask_events (i : ℕ) (s : Ctrl) :
    (Ctrl.startTask i s).events = s.events ++ [Ev.taskStarted i] := by
  unfold Ctrl.startTask
  cases h : JSNum.gtZero (s.effReleaseTimeout i) <;> simp [h, Ctrl.updEntry, Ctrl.emit]

/-- State components untouched by `Ctrl.discardAborted`. -/
theorem discardAborted_frame (s : Ctrl) (i : ℕ) :
    (Ctrl.discardAborted s i).runningList = s.runningList ∧
    (Ctrl.discardAborted s i).expiredList = s.expiredList ∧
    (Ctrl.discardAborted s i).waitingQueue = s.waitingQueue ∧
    (Ctrl.discardAborted s i).conc = s.conc ∧
    (Ctrl.discardAborted s i).events = s.events ++ [Ev.taskDiscarded i DiscardReason.abortSignal] := by
  unfold Ctrl.discardAborted
  simp [Ctrl.updEntry, Ctrl.emit]

/-- State components untouched by a fold of `Ctrl.discardAborted`, and
the events it appends. -/
theorem discardAborted_foldl_frame (l : List ℕ) (s : Ctrl) :
    (l.foldl Ctrl.discardAborted s).runningList = s.runningList ∧
    (l.foldl Ctrl.discardAborted s).expiredList = s.expiredList ∧
    (l.foldl Ctrl.discardAborted s).waitingQueue = s.waitingQueue ∧
    (l.foldl Ctrl.discardAborted s).conc = s.conc ∧
    ∃ mid, (l.foldl Ctrl.discardAborted s).events = s.events ++ mid := by
  induction l generalizing s with
  | nil => exact ⟨rfl, rfl, rfl, rfl, [], by simp⟩
  | cons x xs ih =>
    obtain ⟨h1, h2, h3, h4, mid, h5⟩ := ih (Ctrl.discardAborted s x)
    obtain ⟨g1, g2, g3, g4, g5⟩ := discardAborted_frame s x
    refine ⟨?_, ?_, ?_, ?_, ?_⟩
    · rw [List.foldl_cons, h1, g1]
    · rw [List.foldl_cons, h2, g2]
    · rw [List.foldl_cons, h3, g3]
    · rw [List.foldl_cons, h4, g4]
    · refine ⟨Ev.taskDiscarded x DiscardReason.abortSignal :: mid, ?_⟩
      rw [List.foldl_cons, h5, g5]
      simp

end TaskCtrl

namespace TaskCtrl

/-- Specification of `skipFront`: skipped ids, the admitted id and the
remaining queue all come from the original queue. -/
theorem skipFront_spec (ab : ℕ → Bool) (q : List ℕ) :
    (∀ x ∈ (skipFront ab q).1, x ∈ q) ∧
    (∀ j, (skipFront ab q).2.1 = some j → j ∈ q) ∧
    (skipFront ab q).2.2 ⊆ q := by
  induction q with
  | nil => simp [skipFront]
  | cons x xs ih =>
    obtain ⟨i1, i2, i3⟩ := ih
    by_cases h : ab x
    · simp only [skipFront, h, if_true]
      refine ⟨?_, ?_, ?_⟩
      · intro y hy
        rcases List.mem_cons.mp hy with rfl | hy2
        · exact List.mem_cons_self _ _
        · exact List.mem_cons_of_mem _ (i1 y hy2)
      · intro j hj
        exact List.mem_cons_of_mem _ (i2 j hj)
      · exact List.Subset.trans i3 (List.subset_cons_self _ _)
    · simp only [skipFront, h, if_false]
      refine ⟨fun y hy => absurd hy (List.not_mem_nil y), ?_, List.subset_cons_self _ _⟩
      intro j hj
      cases hj
      exact List.mem_cons_self _ _

/-- When no queued entry is aborted, `skipFront` admits the head and
skips nothing. -/
theorem skipFront_all_false (ab : ℕ → Bool) (x : ℕ) (xs : List ℕ)
    (h : ab x = false) :
    skipFront ab (x :: xs) = ([], some x, xs) := by
  simp [skipFront, h]

end TaskCtrl

namespace TaskCtrl

/-- Specification of `queuePick`: skipped ids, the admitted id and the
remaining queue all come from the original queue. -/
theorem queuePick_spec (qt : QueueType) (ab : ℕ → Bool) (q : List ℕ) :
    (∀ x ∈ (queuePick qt ab q).1, x ∈ q) ∧
    (∀ j, (queuePick qt ab q).2.1 = some j → j ∈ q) ∧
    (queuePick qt ab q).2.2 ⊆ q := by
  cases qt with
  | FIFO => exact skipFront_spec ab q
  | LIFO =>
    obtain ⟨s1, s2, s3⟩ := skipFront_spec ab q.reverse
    refine ⟨?_, ?_, ?_⟩
    · intro x hx
      exact List.mem_reverse.mp (s1 x hx)
    · intro j hj
      exact List.mem_reverse.mp (s2 j hj)
    · intro x hx
      simp only [queuePick, List.mem_reverse] at hx
      exact List.mem_reverse.mp (s3 hx)

/-- Frame of `Ctrl.getNext`: running, expired and the concurrency limit
are untouched, the admitted id comes from the waiting queue, the
remaining waiting queue shrinks, and events only grow. -/
theorem getNext_frame (s : Ctrl) :
    (s.getNext).2.runningList = s.runningList ∧
    (s.getNext).2.expiredList = s.expiredList ∧
    (s.getNext).2.conc = s.conc ∧
    (∀ j, (s.getNext).1 = some j → j ∈ s.waitingQueue) ∧
    (s.getNext).2.waitingQueue ⊆ s.waitingQueue ∧
    ∃ mid, (s.getNext).2.events = s.events ++ mid := by
  unfold Ctrl.getNext
  obtain ⟨sp1, sp2, sp3⟩ := queuePick_spec s.queueType (s.effAborted) s.waitingQueue
  rcases hr : queuePick s.queueType (s.effAborted) s.waitingQueue with ⟨d, a, rest⟩
  rw [hr] at sp1 sp2 sp3
  simp only [hr]
  obtain ⟨f1, f2, f3, f4, mid, f5⟩ :=
    discardAborted_foldl_frame d { s with waitingQueue := rest }
  cases a with
  | none =>
    refine ⟨by simpa using f1, by simpa using f2, by simpa using f4, ?_, ?_, ?_⟩
    · intro j hj
      cases hj
    · intro x hx
      simp only at hx
      rw [f3] at hx
      exact sp3 hx
    · exact ⟨mid, by simpa using f5⟩
  | some j =>
    refine ⟨by simpa using f1, by simpa using f2, by simpa using f4, ?_, ?_, ?_⟩
    · intro j2 hj2
      cases hj2
      exact sp2 j rfl
    · intro x hx
      simp only at hx
      rw [f3] at hx
      exact sp3 hx
    · exact ⟨mid, by simpa using f5⟩

end TaskCtrl

namespace TaskCtrl

/-- Frame of `Ctrl.dispatchNextTask`: expired set and concurrency limit
are untouched and events only grow. -/
theorem dispatch_frame (s : Ctrl) :
    (s.dispatchNextTask).expiredList = s.expiredList ∧
    (s.dispatchNextTask).conc = s.conc ∧
    ∃ mid, (s.dispatchNextTask).events = s.events ++ mid := by
  unfold Ctrl.dispatchNextTask
  split
  · obtain ⟨g1, g2, g3, g4, g5, mid, g6⟩ := getNext_frame s
    rcases hg : s.getNext with ⟨a, s1⟩
    have g2' : s1.expiredList = s.expiredList := by simpa [hg] using g2
    have g3' : s1.conc = s.conc := by simpa [hg] using g3
    have g6' : s1.events = s.events ++ mid := by simpa [hg] using g6
    cases a with
    | none => exact ⟨g2', g3', mid, g6'⟩
    | some j =>
      refine ⟨?_, ?_, ?_⟩
      · rw [startTask_expiredList]
        exact g2'
      · rw [startTask_conc]
        exact g3'
      · refine ⟨mid ++ [Ev.taskStarted j], ?_⟩
        rw [startTask_events, g6', List.append_assoc]
  · exact ⟨rfl, rfl, [], by simp⟩

/-- Dispatch never installs an entry that was neither running nor
waiting. -/
theorem dispatch_not_mem_running {s : Ctrl} {i : ℕ}
    (hr : i ∉ s.runningList) (hw : i ∉ s.waitingQueue) :
    i ∉ (s.dispatchNextTask).runningList := by
  unfold Ctrl.dispatchNextTask
  split
  · obtain ⟨g1, g2, g3, g4, g5, mid, g6⟩ := getNext_frame s
    rcases hg : s.getNext with ⟨a, s1⟩
    have g1' : s1.runningList = s.runningList := by simpa [hg] using g1
    have g4' : ∀ j, a = some j → j ∈ s.waitingQueue := by
      intro j hj
      exact g4 j (by rw [hg, hj])
    cases a with
    | none =>
      rw [g1']
      exact hr
    | some j =>
      have hj : j ∈ s.waitingQueue := g4' j rfl
      have hij : i ≠ j := fun h => hw (h ▸ hj)
      rw [startTask_runningList, g1']
      simp [List.mem_append, hr, hij]
  · exact hr

/-- Dispatch keeps the running count at or below the limit whenever it
admits, and otherwise leaves it unchanged: the count after a dispatch is
bounded by the larger of the previous count and the limit. -/
theorem dispatch_running_le (s : Ctrl) :
    ((s.dispatchNextTask).runningList.length : ℤ) ≤
      max (s.runningList.length : ℤ) s.conc := by
  unfold Ctrl.dispatchNextTask
  split
  · rename_i hav
    unfold Ctrl.isAvailable at hav
    simp only [decide_eq_true_eq] at hav
    obtain ⟨g1, g2, g3, g4, g5, mid, g6⟩ := getNext_frame s
    rcases hg : s.getNext with ⟨a, s1⟩
    have g1' : s1.runningList = s.runningList := by simpa [hg] using g1
    cases a with
    | none =>
      rw [g1']
      exact le_max_left _ _
    | some j =>
      rw [startTask_runningList, g1']
      simp only [List.length_append, List.length_singleton]
      have : (s.runningList.length : ℤ) + 1 ≤ s.conc := by omega
      push_cast
      omega
  · exact le_max_left _ _

end TaskCtrl

namespace TaskCtrl

/-- When no queued entry is aborted, `queuePick` admits exactly one id
and discards none, shrinking the queue by one. -/
theorem queuePick_all_false (qt : QueueType) (ab : ℕ → Bool) (q : List ℕ)
    (hne : q ≠ []) (hall : ∀ x ∈ q, ab x = false) :
    ∃ j rest, queuePick qt ab q = ([], some j, rest) ∧
      rest.length + 1 = q.length ∧ j ∈ q := by
  cases qt with
  | FIFO =>
    cases q with
    | nil => exact absurd rfl hne
    | cons x xs =>
      refine ⟨x, xs, ?_, by simp, List.mem_cons_self _ _⟩
      unfold queuePick
      exact skipFront_all_false ab x xs (hall x (List.mem_cons_self _ _))
  | LIFO =>
    cases hq : q.reverse with
    | nil =>
      exact absurd (by simpa using congrArg List.reverse hq) hne
    | cons y ys =>
      have hy : y ∈ q := by
        rw [← List.mem_reverse, hq]
        exact List.mem_cons_self _ _
      refine ⟨y, ys.reverse, ?_, ?_, hy⟩
      · unfold queuePick
        rw [hq, skipFront_all_false ab y ys (hall y hy)]
      · have : q.reverse.length = q.length := List.length_reverse q
        rw [hq] at this
        simp at this
        simp [this]

/-- Under an available slot, a non-empty waiting queue and no aborted
waiter, a dispatch starts exactly one task and removes exactly one
waiter. -/
theorem dispatch_admits {s : Ctrl} (hav : s.isAvailable = true)
    (hne : s.waitingQueue ≠ [])
    (hall : ∀ j ∈ s.waitingQueue, s.effAborted j = false) :
    (s.dispatchNextTask).runningList.length = s.runningList.length + 1 ∧
    (s.dispatchNextTask).waitingQueue.length + 1 = s.waitingQueue.length := by
  obtain ⟨j, rest, hqp, hlen, hj⟩ :=
    queuePick_all_false s.queueType (s.effAborted) s.waitingQueue hne hall
  unfold Ctrl.dispatchNextTask
  rw [hav]
  simp only [if_true]
  unfold Ctrl.getNext
  rw [hqp]
  simp only [List.foldl_nil]
  rw [startTask_runningList, startTask_waitingQueue]
  constructor
  · simp
  · simpa using hlen

end TaskCtrl

namespace TaskCtrl

/-- Effect of a reasoned release (timeoutReached/forced) on a running
entry: the entry moves from the running map to the expired set, the
task-released-before-finished event is emitted, and the follow-up
dispatch can only add further events. -/
theorem sched_release_reasoned {s : Ctrl} {i : ℕ} (r' : RelReason)
    (he : i ∉ s.expiredList) (hrun : i ∈ s.runningList)
    (hnd : s.runningList.Nodup) (hw : i ∉ s.waitingQueue) :
    i ∈ (Ctrl.releaseFn i (some r') s).expiredList ∧
    i ∉ (Ctrl.releaseFn i (some r') s).runningList ∧
    ∃ mid, (Ctrl.releaseFn i (some r') s).events =
      s.events ++ [Ev.taskReleasedBeforeFinished i r'] ++ mid := by
  unfold Ctrl.releaseFn
  rw [if_neg he, if_pos hrun]
  refine ⟨?_, ?_, ?_⟩
  · rw [(dispatch_frame _).1]
    simp [Ctrl.updEntry, Ctrl.emit]
  · apply dispatch_not_mem_running
    · simp only [Ctrl.updEntry, Ctrl.emit]
      simpa using hnd.not_mem_erase
    · simp only [Ctrl.updEntry, Ctrl.emit]
      simpa using hw
  · obtain ⟨mid2, hmid⟩ := (dispatch_frame _).2.2
    refine ⟨mid2, ?_⟩
    rw [hmid]
    simp [Ctrl.updEntry, Ctrl.emit]

end TaskCtrl

namespace TaskCtrl

/-- Lookup-then-project is unchanged by mapping the entry list with a
function that preserves ids and settlement states. -/
theorem find?_bind_settled_map (g : EntryRec → EntryRec)
    (hg : ∀ e, (g e).eid = e.eid ∧ (g e).outerSettled = e.outerSettled)
    (l : List EntryRec) (i : ℕ) :
    ((l.map g).find? (fun e => e.eid == i)).bind (fun e => e.outerSettled)
      = (l.find? (fun e => e.eid == i)).bind (fun e => e.outerSettled) := by
  induction l with
  | nil => rfl
  | cons e es ih =>
    simp only [List.map_cons]
    by_cases he : (e.eid == i) = true
    · simp [List.find?, (hg e).1, he, (hg e).2]
    · have he2 : (e.eid == i) = false := by simpa using he
      have he3 : ((g e).eid == i) = false := by
        rw [(hg e).1]
        exact he2
      simp only [List.find?, he2, he3]
      exact ih

/-- Lookup-then-project is unchanged by appending an entry whose future
is pending. -/
theorem find?_bind_settled_append (l : List EntryRec) (x : EntryRec)
    (hx : x.outerSettled = none) (i : ℕ) :
    ((l ++ [x]).find? (fun e => e.eid == i)).bind (fun e => e.outerSettled)
      = (l.find? (fun e => e.eid == i)).bind (fun e => e.outerSettled) := by
  induction l with
  | nil =>
    by_cases he : (x.eid == i) = true
    · simp [List.find?, he, hx]
    · simp [List.find?, he]
  | cons e es ih =>
    by_cases he : (e.eid == i) = true
    · simp [List.cons_append, List.find?, he]
    · have he2 : (e.eid == i) = false := by simpa using he
      simp only [List.cons_append, List.find?, he2]
      exact ih

/-- Settlement states are unchanged by appending an event. -/
theorem settledOf_emit (s : Ctrl) (ev : Ev) (i : ℕ) :
    settledOf (s.emit ev) i = settledOf s i := rfl

/-- Settlement states are unchanged by `Ctrl.discardAborted`. -/
theorem settledOf_discardAborted (s : Ctrl) (j i : ℕ) :
    settledOf (Ctrl.discardAborted s j) i = settledOf s i := by
  unfold Ctrl.discardAborted
  simp only [settledOf, Ctrl.findEntry, Ctrl.updEntry, Ctrl.emit]
  rw [find?_bind_settled_map]
  intro e
  by_cases h : (e.eid == j) = true <;> simp [h]

/-- Settlement states are unchanged by a fold of
`Ctrl.discardAborted`. -/
theorem settledOf_discardAborted_foldl (l : List ℕ) (s : Ctrl) (i : ℕ) :
    settledOf (l.foldl Ctrl.discardAborted s) i = settledOf s i := by
  induction l generalizing s with
  | nil => rfl
  | cons x xs ih =>
    rw [List.foldl_cons, ih, settledOf_discardAborted]

/-- Settlement states are unchanged by `Ctrl.getNext`. -/
theorem settledOf_getNext (s : Ctrl) (i : ℕ) :
    settledOf (s.getNext).2 i = settledOf s i := by
  unfold Ctrl.getNext
  rcases hr : queuePick s.queueType (s.effAborted) s.waitingQueue with ⟨d, a, rest⟩
  cases a with
  | none =>
    show settledOf (d.foldl Ctrl.discardAborted { s with waitingQueue := rest }) i
      = settledOf s i
    exact (settledOf_discardAborted_foldl d _ i).trans rfl
  | some j =>
    show settledOf (d.foldl Ctrl.discardAborted { s with waitingQueue := rest }) i
      = settledOf s i
    exact (settledOf_discardAborted_foldl d _ i).trans rfl

/-- Settlement states are unchanged by `Ctrl.startTask`. -/
theorem settledOf_startTask (j : ℕ) (s : Ctrl) (i : ℕ) :
    settledOf (Ctrl.startTask j s) i = settledOf s i := by
  unfold Ctrl.startTask
  by_cases h : JSNum.gtZero (s.effReleaseTimeout j) = true
  · rw [if_pos h]
    simp only [settledOf, Ctrl.findEntry, Ctrl.updEntry, Ctrl.emit]
    rw [find?_bind_settled_map]
    intro e
    by_cases h2 : (e.eid == j) = true <;> simp [h2]
  · rw [if_neg h]
    simp only [settledOf, Ctrl.findEntry, Ctrl.updEntry, Ctrl.emit]
    rw [find?_bind_settled_map]
    intro e
    by_cases h2 : (e.eid == j) = true <;> simp [h2]

/-- Settlement states are unchanged by `Ctrl.dispatchNextTask`. -/
theorem settledOf_dispatch (s : Ctrl) (i : ℕ) :
    settledOf (s.dispatchNextTask) i = settledOf s i := by
  unfold Ctrl.dispatchNextTask
  split
  · rcases hg : s.getNext with ⟨a, s1⟩
    have h1 : settledOf s1 i = settledOf s i := by
      have h0 := settledOf_getNext s i
      rw [hg] at h0
      exact h0
    cases a with
    | none => exact h1
    | some j => rw [settledOf_startTask, h1]
  · rfl

/-- Settlement states are unchanged by a release token invocation. -/
theorem settledOf_releaseFn (j : ℕ) (r : Option RelReason) (s : Ctrl) (i : ℕ) :
    settledOf (Ctrl.releaseFn j r s) i = settledOf s i := by
  cases r with
  | none =>
    unfold Ctrl.releaseFn
    dsimp only
    split
    · split
      · rw [settledOf_dispatch]
        simp only [settledOf, Ctrl.findEntry, Ctrl.updEntry, Ctrl.emit]
        rw [find?_bind_settled_map, find?_bind_settled_map]
        · intro e
          by_cases h2 : (e.eid == j) = true <;> simp [h2]
        · intro e
          by_cases h2 : (e.eid == j) = true <;> simp [h2]
      · simp only [settledOf, Ctrl.findEntry, Ctrl.updEntry, Ctrl.emit]
        rw [find?_bind_settled_map]
        intro e
        by_cases h2 : (e.eid == j) = true <;> simp [h2]
    · split
      · rw [settledOf_dispatch]
        simp only [settledOf, Ctrl.findEntry, Ctrl.updEntry, Ctrl.emit]
        rw [find?_bind_settled_map]
        intro e
        by_cases h2 : (e.eid == j) = true <;> simp [h2]
      · rfl
  | some r2 =>
    unfold Ctrl.releaseFn
    dsimp only
    split
    · split
      · rw [settledOf_dispatch]
        simp only [settledOf, Ctrl.findEntry, Ctrl.updEntry, Ctrl.emit]
        rw [find?_bind_settled_map, find?_bind_settled_map]
        · intro e
          by_cases h2 : (e.eid == j) = true <;> simp [h2]
        · intro e
          by_cases h2 : (e.eid == j) = true <;> simp [h2]
      · simp only [settledOf, Ctrl.findEntry, Ctrl.updEntry, Ctrl.emit]
        rw [find?_bind_settled_map]
        intro e
        by_cases h2 : (e.eid == j) = true <;> simp [h2]
    · split
      · rw [settledOf_dispatch]
        simp only [settledOf, Ctrl.findEntry, Ctrl.updEntry, Ctrl.emit]
        rw [find?_bind_settled_map]
        intro e
        by_cases h2 : (e.eid == j) = true <;> simp [h2]
      · rfl

end TaskCtrl

namespace TaskCtrl

/-- Settlement states are unchanged by a submission: the new entry's
future is pending and dispatch settles nothing. -/
theorem settledOf_submit (o : Option TaskOpts) (s : Ctrl) (i : ℕ) :
    settledOf (Ctrl.submit o s) i = settledOf s i := by
  unfold Ctrl.submit
  rw [settledOf_dispatch]
  split
  · simp only [settledOf, Ctrl.findEntry, Ctrl.emit]
    rw [find?_bind_settled_append]
    rfl
  · simp only [settledOf, Ctrl.findEntry, Ctrl.emit]
    rw [find?_bind_settled_append]
    rfl

/-- Settlement states are unchanged by a waiting-timer fire: the
discard does not settle the entry's future. -/
theorem settledOf_fireWaitingTimer (j : ℕ) (s : Ctrl) (i : ℕ) :
    settledOf (Ctrl.fireWaitingTimer j s) i = settledOf s i := by
  unfold Ctrl.fireWaitingTimer
  split
  · simp only [settledOf, Ctrl.findEntry, Ctrl.updEntry, Ctrl.emit]
    rw [find?_bind_settled_map]
    intro e
    by_cases h2 : (e.eid == j) = true <;> simp [h2]
  · rfl

/-- Settlement states are unchanged by a release-timer fire. -/
theorem settledOf_fireReleaseTimer (j : ℕ) (s : Ctrl) (i : ℕ) :
    settledOf (Ctrl.fireReleaseTimer j s) i = settledOf s i := by
  unfold Ctrl.fireReleaseTimer
  split
  · rw [settledOf_emit, settledOf_releaseFn]
    exact rfl
  · rfl

/-- Settlement states are unchanged by one flush iteration. -/
theorem settledOf_flushIter (s : Ctrl) (k i : ℕ) :
    settledOf
      (let a1 := s.updEntry k (fun e =>
        { e with phase := Phase.discarded, discardReason := some DiscardReason.forced })
       let a2 := a1.emit (Ev.taskDiscarded k DiscardReason.forced)
       { a2 with waitingTimers := a2.waitingTimers.erase k }) i = settledOf s i := by
  simp only [settledOf, Ctrl.findEntry, Ctrl.updEntry, Ctrl.emit]
  rw [find?_bind_settled_map]
  intro e
  by_cases h2 : (e.eid == k) = true <;> simp [h2]

/-- Settlement states are unchanged by `flushPendingTasks`: flushed
futures stay pending. -/
theorem settledOf_flush (s : Ctrl) (i : ℕ) :
    settledOf (Ctrl.flushPendingTasks s) i = settledOf s i := by
  unfold Ctrl.flushPendingTasks
  split
  · rfl
  · have hgen : ∀ (q : List ℕ) (t : Ctrl),
        settledOf (q.foldl (fun acc k =>
          let a1 := acc.updEntry k (fun e =>
            { e with phase := Phase.discarded, discardReason := some DiscardReason.forced })
          let a2 := a1.emit (Ev.taskDiscarded k DiscardReason.forced)
          { a2 with waitingTimers := a2.waitingTimers.erase k }) t) i = settledOf t i := by
      intro q
      induction q with
      | nil => intro t; rfl
      | cons x xs ih =>
        intro t
        rw [List.foldl_cons, ih]
        exact settledOf_flushIter t x i
    rw [hgen]
    rfl

/-- Settlement states are unchanged by `releaseRunningTasks`. -/
theorem settledOf_releaseAll (s : Ctrl) (i : ℕ) :
    settledOf (Ctrl.releaseRunningTasks s) i = settledOf s i := by
  unfold Ctrl.releaseRunningTasks
  split
  · rfl
  · have hgen : ∀ (q : List ℕ) (t : Ctrl),
        settledOf (q.foldl (fun acc k => Ctrl.releaseFn k (some RelReason.forced) acc) t) i
          = settledOf t i := by
      intro q
      induction q with
      | nil => intro t; rfl
      | cons x xs ih =>
        intro t
        rw [List.foldl_cons, ih, settledOf_releaseFn]
    exact hgen s.runningList s

/-- Settlement states are unchanged by `changeConcurrentLimit`. -/
theorem settledOf_changeLimit (v : JSValue) (s : Ctrl) (i : ℕ) :
    settledOf (Ctrl.changeConcurrentLimit v s) i = settledOf s i := by
  unfold Ctrl.changeConcurrentLimit
  cases v with
  | undef => rfl
  | null => rfl
  | notNumber => rfl
  | num n =>
    cases n with
    | nan => rfl
    | posInf => rfl
    | negInf => rfl
    | fin q =>
      dsimp only
      split
      · rfl
      · split
        · rfl
        · split
          · rw [settledOf_dispatch]
            exact rfl
          · rfl

end TaskCtrl

namespace TaskCtrl

/-- Lookup of an id different from the updated one is unchanged even
when the update rewrites settlement states. -/
theorem find?_bind_settled_map_ne (j : ℕ) (f : EntryRec → EntryRec)
    (hf : ∀ e, (f e).eid = e.eid) (l : List EntryRec) (i : ℕ) (hij : i ≠ j) :
    (((l.map (fun e => if e.eid == j then f e else e)).find?
        (fun e => e.eid == i)).bind fun e => e.outerSettled)
      = ((l.find? (fun e => e.eid == i)).bind fun e => e.outerSettled) := by
  induction l with
  | nil => rfl
  | cons e es ih =>
    simp only [List.map_cons]
    by_cases he : (e.eid == i) = true
    · have hej : (e.eid == j) = false := by
        have : e.eid = i := by simpa using he
        simp [this, hij]
      simp [List.find?, hej, hf e, he]
    · have he2 : (e.eid == i) = false := by simpa using he
      by_cases hej : (e.eid == j) = true
      · have he3 : ((f e).eid == i) = false := by
          rw [hf e]
          exact he2
        simp only [List.find?, hej, if_pos, if_true, he3, he2]
        exact ih
      · have hej2 : (e.eid == j) = false := by simpa using hej
        simp only [List.find?, hej2, Bool.false_eq_true, if_false, he2]
        exact ih

/-- Lookup of the updated id returns the updated entry. -/
theorem find?_map_upd_self (j : ℕ) (f : EntryRec → EntryRec)
    (hf : ∀ e, (f e).eid = e.eid) (l : List EntryRec) :
    (l.map (fun e => if e.eid == j then f e else e)).find? (fun e => e.eid == j)
      = (l.find? (fun e => e.eid == j)).map f := by
  induction l with
  | nil => rfl
  | cons e es ih =>
    simp only [List.map_cons]
    by_cases he : (e.eid == j) = true
    · have hfj : ((f e).eid == j) = true := by
        rw [hf e]
        exact he
      simp [List.find?, he, hfj]
    · have he2 : (e.eid == j) = false := by simpa using he
      simp only [List.find?, he2, Bool.false_eq_true, if_false]
      exact ih

/-- Settlement states of other entries are unchanged by a task
completion. -/
theorem settledOf_taskCompletes_ne (j : ℕ) (ok : Bool) (s : Ctrl) (i : ℕ)
    (hij : i ≠ j) :
    settledOf (Ctrl.taskCompletes j ok s) i = settledOf s i := by
  cases ok with
  | true =>
    unfold Ctrl.taskCompletes
    cases hfind : s.findEntry j with
    | none => rfl
    | some e =>
      dsimp only
      split
      · rw [settledOf_releaseFn]
        simp only [settledOf, Ctrl.findEntry, Ctrl.updEntry, Ctrl.emit, if_true]
        exact find?_bind_settled_map_ne j
          (fun e2 => { e2 with outstanding := false, outerSettled := some SettledResult.fulfilled })
          (fun e2 => rfl) s.entries i hij
      · rfl
  | false =>
    unfold Ctrl.taskCompletes
    cases hfind : s.findEntry j with
    | none => rfl
    | some e =>
      dsimp only
      split
      · rw [settledOf_releaseFn]
        simp only [settledOf, Ctrl.findEntry, Ctrl.updEntry, Ctrl.emit, if_true,
          if_false, Bool.false_eq_true]
        exact find?_bind_settled_map_ne j
          (fun e2 => { e2 with outstanding := false, outerSettled := some SettledResult.rejectedError })
          (fun e2 => rfl) s.entries i hij
      · rfl

/-- A freshly settled future settles to fulfilled on success and to
rejected-with-the-error on failure — never to a discard marker. -/
theorem settledOf_taskCompletes_self (j : ℕ) (ok : Bool) (s : Ctrl)
    (r : SettledResult) (hnone : settledOf s j = none)
    (hr : settledOf (Ctrl.taskCompletes j ok s) j = some r) :
    r = (if ok then SettledResult.fulfilled else SettledResult.rejectedError) := by
  unfold Ctrl.taskCompletes at hr
  cases hfind : s.findEntry j with
  | none =>
    rw [hfind] at hr
    dsimp only at hr
    rw [hnone] at hr
    cases hr
  | some e =>
    rw [hfind] at hr
    dsimp only at hr
    split at hr
    · rw [settledOf_releaseFn] at hr
      have hupd : settledOf (s.updEntry j (fun e2 =>
          { e2 with
            outstanding := false
            outerSettled := some (if ok then SettledResult.fulfilled else SettledResult.rejectedError) })) j
          = some (if ok then SettledResult.fulfilled else SettledResult.rejectedError) := by
        simp only [settledOf, Ctrl.findEntry, Ctrl.updEntry]
        rw [find?_map_upd_self j
          (fun e2 => { e2 with
            outstanding := false
            outerSettled := some (if ok then SettledResult.fulfilled else SettledResult.rejectedError) })
          (fun e2 => rfl) s.entries]
        have hfind2 : s.entries.find? (fun e2 => e2.eid == j) = some e := hfind
        rw [hfind2]
        rfl
      cases ok with
      | true =>
        simp only [if_true] at hr hupd ⊢
        rw [hupd] at hr
        simpa using hr.symm
      | false =>
        simp only [Bool.false_eq_true, if_false] at hr hupd ⊢
        rw [settledOf_emit] at hr
        rw [hupd] at hr
        simpa using hr.symm
    · rw [hnone] at hr
      cases hr

end TaskCtrl

namespace TaskCtrl

/-- A single dispatch starts at most one task. -/
theorem dispatch_running_le_succ (s : Ctrl) :
    (s.dispatchNextTask).runningList.length ≤ s.runningList.length + 1 := by
  unfold Ctrl.dispatchNextTask
  split
  · obtain ⟨g1, g2, g3, g4, g5, mid, g6⟩ := getNext_frame s
    rcases hg : s.getNext with ⟨a, s1⟩
    have g1' : s1.runningList = s.runningList := by simpa [hg] using g1
    cases a with
    | none =>
      rw [g1']
      omega
    | some j =>
      rw [startTask_runningList, g1']
      simp
  · omega

/-- The running count after a release token invocation is bounded by
the larger of the previous count and the limit, and the limit is
untouched. -/
theorem release_run_conc (j : ℕ) (r : Option RelReason) (s : Ctrl) :
    ((Ctrl.releaseFn j r s).runningList.length : ℤ) ≤
      max (s.runningList.length : ℤ) s.conc ∧
    (Ctrl.releaseFn j r s).conc = s.conc := by
  cases r with
  | none =>
    unfold Ctrl.releaseFn
    dsimp only
    split
    · split
      · constructor
        · refine le_trans (dispatch_running_le _) ?_
          simp only [Ctrl.updEntry, Ctrl.emit]
          have herase : (s.runningList.erase j).length ≤ s.runningList.length :=
            List.length_erase_le _ _
          have := le_max_left (s.runningList.length : ℤ) s.conc
          refine max_le ?_ ?_
          · omega
          · exact le_max_right _ _
        · rw [(dispatch_frame _).2.1]
          rfl
      · exact ⟨le_max_left _ _, rfl⟩
    · split
      · constructor
        · refine le_trans (dispatch_running_le _) ?_
          simp only [Ctrl.updEntry, Ctrl.emit]
          have herase : (s.runningList.erase j).length ≤ s.runningList.length :=
            List.length_erase_le _ _
          refine max_le ?_ ?_
          · omega
          · exact le_max_right _ _
        · rw [(dispatch_frame _).2.1]
          rfl
      · exact ⟨le_max_left _ _, rfl⟩
  | some r2 =>
    unfold Ctrl.releaseFn
    dsimp only
    split
    · split
      · constructor
        · refine le_trans (dispatch_running_le _) ?_
          simp only [Ctrl.updEntry, Ctrl.emit]
          have herase : (s.runningList.erase j).length ≤ s.runningList.length :=
            List.length_erase_le _ _
          refine max_le ?_ ?_
          · omega
          · exact le_max_right _ _
        · rw [(dispatch_frame _).2.1]
          rfl
      · exact ⟨le_max_left _ _, rfl⟩
    · split
      · constructor
        · refine le_trans (dispatch_running_le _) ?_
          simp only [Ctrl.updEntry, Ctrl.emit]
          have herase : (s.runningList.erase j).length ≤ s.runningList.length :=
            List.length_erase_le _ _
          refine max_le ?_ ?_
          · omega
          · exact le_max_right _ _
        · rw [(dispatch_frame _).2.1]
          rfl
      · exact ⟨le_max_left _ _, rfl⟩

/-- The flush fold touches neither the running map nor the limit. -/
theorem flush_foldl_run_conc (q : List ℕ) (t : Ctrl) :
    (q.foldl (fun acc k =>
      let a1 := acc.updEntry k (fun e =>
        { e with phase := Phase.discarded, discardReason := some DiscardReason.forced })
      let a2 := a1.emit (Ev.taskDiscarded k DiscardReason.forced)
      { a2 with waitingTimers := a2.waitingTimers.erase k }) t).runningList = t.runningList ∧
    (q.foldl (fun acc k =>
      let a1 := acc.updEntry k (fun e =>
        { e with phase := Phase.discarded, discardReason := some DiscardReason.forced })
      let a2 := a1.emit (Ev.taskDiscarded k DiscardReason.forced)
      { a2 with waitingTimers := a2.waitingTimers.erase k }) t).conc = t.conc := by
  induction q generalizing t with
  | nil => exact ⟨rfl, rfl⟩
  | cons x xs ih =>
    rw [List.foldl_cons]
    obtain ⟨h1, h2⟩ := ih _
    exact ⟨h1.trans rfl, h2.trans rfl⟩

end TaskCtrl

namespace TaskCtrl

/-- Claim C6, amended: admission never pushes the running count above
the limit — after any event-loop turn the running count is bounded by
the larger of the previous running count and the (possibly updated)
limit; consequently every turn that does not lower the limit preserves
runningTasks ≤ concurrency, while a lowering `changeConcurrentLimit`
leaves the running tasks untouched (no eviction), transiently exceeding
the new limit until tasks drain. -/
theorem c6_invariant_amended :
    (∀ (s : Ctrl) (σ : Step),
      ((step s σ).runningTasks : ℤ) ≤ max (s.runningTasks : ℤ) ((step s σ).conc)) ∧
    (∀ (s : Ctrl) (σ : Step),
      (s.runningTasks : ℤ) ≤ s.conc → s.conc ≤ (step s σ).conc →
      ((step s σ).runningTasks : ℤ) ≤ (step s σ).conc) := by
  have part1 : ∀ (s : Ctrl) (σ : Step),
      ((step s σ).runningTasks : ℤ) ≤ max (s.runningTasks : ℤ) ((step s σ).conc) := by
    intro s σ
    cases σ with
    | submit o =>
      simp only [step, Ctrl.runningTasks]
      unfold Ctrl.submit
      dsimp only
      split
      · refine le_trans (dispatch_running_le _) ?_
        rw [(dispatch_frame _).2.1]
      · refine le_trans (dispatch_running_le _) ?_
        rw [(dispatch_frame _).2.1]
    | complete j ok =>
      simp only [step, Ctrl.runningTasks]
      unfold Ctrl.taskCompletes
      cases hfind : s.findEntry j with
      | none => exact le_max_left _ _
      | some e =>
        dsimp only
        split
        · cases ok with
          | true =>
            rw [if_pos rfl]
            refine le_trans (release_run_conc j none _).1 ?_
            rw [(release_run_conc j none _).2]
            exact le_refl _
          | false =>
            rw [if_neg (by simp)]
            refine le_trans (release_run_conc j none _).1 ?_
            rw [(release_run_conc j none _).2]
            exact le_refl _
        · exact le_max_left _ _
    | waitTimer j =>
      simp only [step, Ctrl.runningTasks]
      unfold Ctrl.fireWaitingTimer
      split
      · exact le_max_left _ _
      · exact le_max_left _ _
    | relTimer j =>
      simp only [step, Ctrl.runningTasks]
      unfold Ctrl.fireReleaseTimer
      split
      · simp only [Ctrl.emit]
        refine le_trans (release_run_conc j (some RelReason.timeoutReached) _).1 ?_
        rw [(release_run_conc j (some RelReason.timeoutReached) _).2]
      · exact le_max_left _ _
    | flush =>
      simp only [step, Ctrl.runningTasks]
      unfold Ctrl.flushPendingTasks
      split
      · exact le_max_left _ _
      · obtain ⟨h1, h2⟩ := flush_foldl_run_conc s.waitingQueue { s with waitingQueue := [] }
        rw [h1, h2]
        exact le_max_left _ _
    | releaseAll =>
      simp only [step, Ctrl.runningTasks]
      unfold Ctrl.releaseRunningTasks
      split
      · exact le_max_left _ _
      · have hgen : ∀ (q : List ℕ) (t : Ctrl),
            ((q.foldl (fun acc k => Ctrl.releaseFn k (some RelReason.forced) acc) t).runningList.length : ℤ)
              ≤ max (t.runningList.length : ℤ) t.conc ∧
            (q.foldl (fun acc k => Ctrl.releaseFn k (some RelReason.forced) acc) t).conc = t.conc := by
          intro q
          induction q with
          | nil => exact fun t => ⟨le_max_left _ _, rfl⟩
          | cons x xs ih =>
            intro t
            rw [List.foldl_cons]
            obtain ⟨i1, i2⟩ := ih (Ctrl.releaseFn x (some RelReason.forced) t)
            obtain ⟨r1, r2⟩ := release_run_conc x (some RelReason.forced) t
            refine ⟨?_, i2.trans r2⟩
            refine le_trans i1 ?_
            rw [r2]
            exact max_le r1 (le_max_right _ _)
        obtain ⟨h1, h2⟩ := hgen s.runningList s
        rw [h2]
        exact h1
    | changeLimit v =>
      simp only [step, Ctrl.runningTasks]
      unfold Ctrl.changeConcurrentLimit
      cases v with
      | undef => exact le_max_left _ _
      | null => exact le_max_left _ _
      | notNumber => exact le_max_left _ _
      | num n =>
        cases n with
        | nan => exact le_max_left _ _
        | posInf => exact le_max_left _ _
        | negInf => exact le_max_left _ _
        | fin q =>
          dsimp only
          split
          · exact le_max_left _ _
          · split
            · exact le_max_left _ _
            · split
              · refine le_trans (dispatch_running_le _) ?_
                rw [(dispatch_frame _).2.1]
              · exact le_max_left _ _
  refine ⟨part1, ?_⟩
  intro s σ hrc hcc
  have h := part1 s σ
  have hmax : max ((s.runningTasks : ℤ)) ((step s σ).conc) = (step s σ).conc := by
    rw [max_eq_right]
    exact le_trans hrc hcc
  rw [hmax] at h
  exact h

end TaskCtrl

namespace TaskCtrl

/-- Claim C3, amended: `changeConcurrentLimit` performs a single
dispatch — every call starts at most one task; when an integer newC
above the current limit is supplied while a non-aborted task waits and
the running count is below newC, exactly one waiting task is started
and exactly one waiter leaves the queue (the remaining newly-allowed
waiters are admitted only by later dispatch-triggering turns). -/
theorem c3_changelimit_amended :
    (∀ (s : Ctrl) (v : JSValue),
      (Ctrl.changeConcurrentLimit v s).runningTasks ≤ s.runningTasks + 1) ∧
    (∀ (s : Ctrl) (q : ℚ),
      JSNum.isIntegerFin q = true → 1 ≤ q.num → s.conc < q.num →
      s.waitingQueue ≠ [] →
      (∀ j ∈ s.waitingQueue, s.effAborted j = false) →
      ((s.runningTasks : ℤ) < q.num) →
      (Ctrl.changeConcurrentLimit (JSValue.num (JSNum.fin q)) s).runningTasks
          = s.runningTasks + 1 ∧
      (Ctrl.changeConcurrentLimit (JSValue.num (JSNum.fin q)) s).waitingTasks + 1
          = s.waitingTasks) := by
  constructor
  · intro s v
    simp only [Ctrl.runningTasks]
    unfold Ctrl.changeConcurrentLimit
    cases v with
    | undef => exact Nat.le_succ _
    | null => exact Nat.le_succ _
    | notNumber => exact Nat.le_succ _
    | num n =>
      cases n with
      | nan => exact Nat.le_succ _
      | posInf => exact Nat.le_succ _
      | negInf => exact Nat.le_succ _
      | fin q =>
        dsimp only
        split
        · exact Nat.le_succ _
        · split
          · exact Nat.le_succ _
          · split
            · exact dispatch_running_le_succ _
            · exact Nat.le_succ _
  · intro s q hint hge hcl hne hall hrun
    unfold Ctrl.changeConcurrentLimit
    dsimp only
    rw [if_neg (by simp [hint])]
    rw [if_neg (by omega)]
    rw [if_pos (by simpa using hcl)]
    have hadm := dispatch_admits
      (s := { s with conc := q.num })
      (by
        unfold Ctrl.isAvailable
        simp only [decide_eq_true_eq]
        exact hrun)
      hne hall
    exact hadm

/-- Claim C3, amended, exercised at a concrete input: one task running
at limit 1, two waiting, and `changeConcurrentLimit(3)` starts exactly
one of them. -/
theorem c3_changelimit_amended_witness :
    (Ctrl.changeConcurrentLimit (JSValue.num (JSNum.fin 3))
        (runSteps (Ctrl.init 1 QueueType.FIFO (JSNum.fin 0) (JSNum.fin 0) false)
          [Step.submit none, Step.submit none, Step.submit none])).runningTasks
      = (runSteps (Ctrl.init 1 QueueType.FIFO (JSNum.fin 0) (JSNum.fin 0) false)
          [Step.submit none, Step.submit none, Step.submit none]).runningTasks + 1 ∧
    (Ctrl.changeConcurrentLimit (JSValue.num (JSNum.fin 3))
        (runSteps (Ctrl.init 1 QueueType.FIFO (JSNum.fin 0) (JSNum.fin 0) false)
          [Step.submit none, Step.submit none, Step.submit none])).waitingTasks + 1
      = (runSteps (Ctrl.init 1 QueueType.FIFO (JSNum.fin 0) (JSNum.fin 0) false)
          [Step.submit none, Step.submit none, Step.submit none]).waitingTasks :=
  c3_changelimit_amended.2 _ 3 (by decide) (by decide) (by decide) (by decide)
    (by decide) (by decide)

/-- Claim C4, amended: the Gate's release token is idempotent — a
second and every further invocation is a no-op; on the Scheduler a
release token whose entry has left both the running map and the expired
set is a no-op, but a release invoked on an entry sitting in the
expired set (i.e. after a timeoutReached/forced release) finalizes it:
it removes the entry from the expired set and emits task-finished. -/
theorem c4_release_amended :
    (∀ (s : LockCtrl) (i : ℕ) (b : Bool),
      i ∉ s.acquiredList → LockCtrl.releaseFn i b s = s) ∧
    (∀ (s : LockCtrl) (i : ℕ) (b : Bool) (bs : List Bool),
      s.acquiredList.Nodup → i ∉ s.waitingQueue →
      bs.foldl (fun acc b2 => LockCtrl.releaseFn i b2 acc) (LockCtrl.releaseFn i b s)
        = LockCtrl.releaseFn i b s) ∧
    (∀ (s : Ctrl) (i : ℕ) (r : Option RelReason),
      i ∉ s.runningList → i ∉ s.expiredList → Ctrl.releaseFn i r s = s) ∧
    (∀ (s : Ctrl) (i : ℕ) (r : Option RelReason),
      i ∈ s.expiredList → i ∉ s.runningList →
      (Ctrl.releaseFn i r s).expiredList = s.expiredList.erase i ∧
      (Ctrl.releaseFn i r s).runningList = s.runningList ∧
      (Ctrl.releaseFn i r s).waitingQueue = s.waitingQueue ∧
      (Ctrl.releaseFn i r s).events = s.events ++ [Ev.taskFinished i]) := by
  refine ⟨?_, ?_, ?_, ?_⟩
  · intro s i b h
    exact lock_release_noop b h
  · intro s i b bs hn hw
    have hni : i ∉ (LockCtrl.releaseFn i b s).acquiredList :=
      lock_release_not_mem_acquired b hn hw
    induction bs with
    | nil => rfl
    | cons b2 bs2 ih =>
      rw [List.foldl_cons, lock_release_noop b2 hni]
      exact ih
  · intro s i r hr he
    exact sched_release_noop r hr he
  · intro s i r hie hir
    unfold Ctrl.releaseFn
    rw [if_pos hie]
    rw [if_neg (by simpa [Ctrl.updEntry, Ctrl.emit] using hir)]
    refine ⟨?_, ?_, ?_, ?_⟩ <;> simp [Ctrl.updEntry, Ctrl.emit]

/-- Claim C4, amended, exercised at concrete inputs: a token on a
fresh Gate and a fresh Scheduler is a no-op, repeated invocations
collapse to one, and releasing an expired entry finalizes it with
task-finished. -/
theorem c4_release_amended_witness :
    LockCtrl.releaseFn 0 false (LockCtrl.init 1 QueueType.FIFO (JSNum.fin 0))
      = LockCtrl.init 1 QueueType.FIFO (JSNum.fin 0) ∧
    ([true, false].foldl (fun acc b2 => LockCtrl.releaseFn 0 b2 acc)
        (LockCtrl.releaseFn 0 false (LockCtrl.init 2 QueueType.LIFO (JSNum.fin 0)))
      = LockCtrl.releaseFn 0 false (LockCtrl.init 2 QueueType.LIFO (JSNum.fin 0))) ∧
    Ctrl.releaseFn 0 none (Ctrl.init 1 QueueType.FIFO (JSNum.fin 0) (JSNum.fin 0) false)
      = Ctrl.init 1 QueueType.FIFO (JSNum.fin 0) (JSNum.fin 0) false ∧
    (Ctrl.releaseFn 0 none
        { Ctrl.init 1 QueueType.FIFO (JSNum.fin 0) (JSNum.fin 0) false with
          expiredList := [0] }).events = [Ev.taskFinished 0] :=
  ⟨c4_release_amended.1 _ 0 false (by decide),
   c4_release_amended.2.1 _ 0 false [true, false] (by decide) (by decide),
   c4_release_amended.2.2.1 _ 0 none (by decide) (by decide),
   by
    have h := (c4_release_amended.2.2.2
      { Ctrl.init 1 QueueType.FIFO (JSNum.fin 0) (JSNum.fin 0) false with
        expiredList := [0] } 0 none (by decide) (by decide)).2.2.2
    simpa using h⟩

/-- Claim C9: when a release timer fires for a running task, the
admission slot is freed first — the entry leaves the running map and
joins the expired set, task-released-before-finished is emitted and the
next dispatch happens — and only afterwards is the
releaseTimeoutHandler invoked. -/
theorem c9_release_timer_order (s : Ctrl) (i : ℕ)
    (ht : i ∈ s.releaseTimers) (hrun : i ∈ s.runningList)
    (he : i ∉ s.expiredList) (hnd : s.runningList.Nodup)
    (hw : i ∉ s.waitingQueue) :
    i ∉ (Ctrl.fireReleaseTimer i s).runningList ∧
    i ∈ (Ctrl.fireReleaseTimer i s).expiredList ∧
    ∃ mid, (Ctrl.fireReleaseTimer i s).events =
      s.events ++ [Ev.taskReleasedBeforeFinished i RelReason.timeoutReached] ++ mid
        ++ [Ev.releaseTimeoutHandlerCalled i] := by
  unfold Ctrl.fireReleaseTimer
  rw [if_pos ht]
  obtain ⟨e1, e2, mid, e3⟩ := sched_release_reasoned
    (s := { s with releaseTimers := s.releaseTimers.erase i })
    RelReason.timeoutReached (by simpa using he) (by simpa using hrun)
    (by simpa using hnd) (by simpa using hw)
  refine ⟨?_, ?_, ⟨mid, ?_⟩⟩
  · simpa [Ctrl.emit] using e2
  · simpa [Ctrl.emit] using e1
  · simp only [Ctrl.emit]
    rw [e3]

/-- Claim C9, exercised at a concrete input: controller with
releaseTimeout 5, one task running and one waiting; the timer fire for
the running task frees the slot, moves it to the expired set, and the
handler marker lands after the release and dispatch events. -/
theorem c9_release_timer_order_witness :
    0 ∉ (Ctrl.fireReleaseTimer 0
      (runSteps (Ctrl.init 1 QueueType.FIFO (JSNum.fin 0) (JSNum.fin 5) false)
        [Step.submit none, Step.submit none])).runningList ∧
    0 ∈ (Ctrl.fireReleaseTimer 0
      (runSteps (Ctrl.init 1 QueueType.FIFO (JSNum.fin 0) (JSNum.fin 5) false)
        [Step.submit none, Step.submit none])).expiredList ∧
    ∃ mid, (Ctrl.fireReleaseTimer 0
      (runSteps (Ctrl.init 1 QueueType.FIFO (JSNum.fin 0) (JSNum.fin 5) false)
        [Step.submit none, Step.submit none])).events =
      (runSteps (Ctrl.init 1 QueueType.FIFO (JSNum.fin 0) (JSNum.fin 5) false)
        [Step.submit none, Step.submit none]).events
        ++ [Ev.taskReleasedBeforeFinished 0 RelReason.timeoutReached] ++ mid
        ++ [Ev.releaseTimeoutHandlerCalled 0] :=
  c9_release_timer_order _ 0 (by decide) (by decide) (by decide) (by decide) (by decide)

/-- Claim C1, amended: no discard path settles the submitter's Future —
every event-loop turn other than a user-callable completion leaves
every future's settlement state unchanged (in particular flushes,
waiting-timeout fires and abort-skipping dispatches leave discarded
futures pending forever); a completion settles only its own entry's
future, and a freshly settled future is fulfilled or
rejected-with-the-error, never the rejected-with-discard-marker variant
the spec postulates. -/
theorem c1_discard_amended :
    (∀ (s : Ctrl) (σ : Step) (i : ℕ),
      (∀ (j : ℕ) (ok : Bool), σ ≠ Step.complete j ok) →
      settledOf (step s σ) i = settledOf s i) ∧
    (∀ (s : Ctrl) (j : ℕ) (ok : Bool) (i : ℕ), i ≠ j →
      settledOf (step s (Step.complete j ok)) i = settledOf s i) ∧
    (∀ (s : Ctrl) (j : ℕ) (ok : Bool) (r : SettledResult),
      settledOf s j = none →
      settledOf (step s (Step.complete j ok)) j = some r →
      r = (if ok then SettledResult.fulfilled else SettledResult.rejectedError)) := by
  refine ⟨?_, ?_, ?_⟩
  · intro s σ i hne
    cases σ with
    | submit o => exact settledOf_submit o s i
    | complete j ok => exact absurd rfl (hne j ok)
    | waitTimer j => exact settledOf_fireWaitingTimer j s i
    | relTimer j => exact settledOf_fireReleaseTimer j s i
    | flush => exact settledOf_flush s i
    | releaseAll => exact settledOf_releaseAll s i
    | changeLimit v => exact settledOf_changeLimit v s i
  · intro s j ok i hij
    exact settledOf_taskCompletes_ne j ok s i hij
  · intro s j ok r h1 h2
    exact settledOf_taskCompletes_self j ok s r h1 h2

/-- Claim C1, amended, exercised at a concrete input: flushing the
waiting task of entry 1 leaves its future exactly as pending as it
was. -/
theorem c1_discard_amended_witness :
    settledOf (step (runSteps (Ctrl.init 1 QueueType.FIFO (JSNum.fin 0) (JSNum.fin 0) false)
        [Step.submit none, Step.submit none]) Step.flush) 1
      = settledOf (runSteps (Ctrl.init 1 QueueType.FIFO (JSNum.fin 0) (JSNum.fin 0) false)
        [Step.submit none, Step.submit none]) 1 ∧
    settledOf (runSteps (Ctrl.init 1 QueueType.FIFO (JSNum.fin 0) (JSNum.fin 0) false)
        [Step.submit none, Step.submit none]) 1 = none :=
  ⟨c1_discard_amended.1 _ Step.flush 1 (fun j ok h => Step.noConfusion h),
   by decide⟩

end TaskCtrl

namespace TaskCtrl

/-- Lookup of an id other than the updated one is unchanged by an
id-preserving pointwise update. -/
theorem find?_map_upd_ne (j : ℕ) (f : EntryRec → EntryRec)
    (hf : ∀ e, (f e).eid = e.eid) (l : List EntryRec) (i : ℕ) (hij : i ≠ j) :
    (l.map (fun e => if e.eid == j then f e else e)).find? (fun e => e.eid == i)
      = l.find? (fun e => e.eid == i) := by
  induction l with
  | nil => rfl
  | cons e es ih =>
    simp only [List.map_cons]
    by_cases he : (e.eid == i) = true
    · have hej : (e.eid == j) = false := by
        have : e.eid = i := by simpa using he
        simp [this, hij]
      simp [List.find?, hej, he]
    · have he2 : (e.eid == i) = false := by simpa using he
      by_cases hej : (e.eid == j) = true
      · have he3 : ((f e).eid == i) = false := by
          rw [hf e]
          exact he2
        simp only [List.find?, hej, if_true, he3, he2, Bool.false_eq_true, if_false]
        exact ih
      · have hej2 : (e.eid == j) = false := by simpa using hej
        simp only [List.find?, hej2, Bool.false_eq_true, if_false, he2]
        exact ih

/-- Entry lookup of the updated id after a pointwise update. -/
theorem findEntry_updEntry_self (s : Ctrl) (j : ℕ) (f : EntryRec → EntryRec)
    (hf : ∀ e, (f e).eid = e.eid) :
    (s.updEntry j f).findEntry j = (s.findEntry j).map f := by
  simp only [Ctrl.findEntry, Ctrl.updEntry]
  exact find?_map_upd_self j f hf s.entries

/-- Entry lookup of any other id after a pointwise update. -/
theorem findEntry_updEntry_ne (s : Ctrl) (j : ℕ) (f : EntryRec → EntryRec)
    (hf : ∀ e, (f e).eid = e.eid) (i : ℕ) (hij : i ≠ j) :
    (s.updEntry j f).findEntry i = s.findEntry i := by
  simp only [Ctrl.findEntry, Ctrl.updEntry]
  exact find?_map_upd_ne j f hf s.entries i hij

/-- `find?` over an append when the first part has no hit. -/
theorem find?_append_none {α : Type} (p : α → Bool) {l1 : List α}
    (l2 : List α) (h : l1.find? p = none) :
    (l1 ++ l2).find? p = l2.find? p := by
  induction l1 with
  | nil => rfl
  | cons a l ih =>
    by_cases hp : p a = true
    · rw [List.find?_cons_of_pos _ hp] at h
      cases h
    · rw [List.find?_cons_of_neg _ (by simpa using hp)] at h
      rw [List.cons_append, List.find?_cons_of_neg _ (by simpa using hp)]
      exact ih h

/-- `find?` over an append when the first part hits. -/
theorem find?_append_some {α : Type} (p : α → Bool) {l1 : List α}
    (l2 : List α) {e : α} (h : l1.find? p = some e) :
    (l1 ++ l2).find? p = some e := by
  induction l1 with
  | nil => cases h
  | cons a l ih =>
    by_cases hp : p a = true
    · rw [List.find?_cons_of_pos _ hp] at h
      rw [List.cons_append, List.find?_cons_of_pos _ hp]
      exact h
    · rw [List.find?_cons_of_neg _ (by simpa using hp)] at h
      rw [List.cons_append, List.find?_cons_of_neg _ (by simpa using hp)]
      exact ih h

/-- Event counting distributes over append. -/
theorem evCnt_append (p : Ev → Bool) (l1 l2 : List Ev) :
    evCnt p (l1 ++ l2) = evCnt p l1 + evCnt p l2 := by
  simp [evCnt, List.filter_append]

/-- Event count of a single event. -/
theorem evCnt_singleton (p : Ev → Bool) (e : Ev) :
    evCnt p [e] = if p e then 1 else 0 := by
  by_cases h : p e = true <;> simp [evCnt, List.filter, h]

/-- The count relation only depends on the entry list and the event
log. -/
theorem CntOK_congr {s s2 : Ctrl} (he : s2.entries = s.entries)
    (hev : s2.events = s.events) (i : ℕ) (h : CntOK s i) : CntOK s2 i := by
  unfold CntOK phaseOf outstandingOf startCnt finCnt disCnt failCnt
    Ctrl.findEntry at h ⊢
  rw [he, hev]
  exact h

end TaskCtrl

namespace TaskCtrl

/-- Entry lookup depends only on the entry list. -/
theorem findEntry_of_entries_eq {t t2 : Ctrl} (h : t2.entries = t.entries)
    (i : ℕ) : t2.findEntry i = t.findEntry i := by
  unfold Ctrl.findEntry
  rw [h]

/-- Entry lookup of the updated id through an entry-list equation. -/
theorem findEntry_map_upd_self {t t2 : Ctrl} {x : ℕ}
    {f : EntryRec → EntryRec} (hf : ∀ e, (f e).eid = e.eid)
    (hent : t2.entries = t.entries.map (fun e => if e.eid == x then f e else e)) :
    t2.findEntry x = (t.findEntry x).map f := by
  unfold Ctrl.findEntry
  rw [hent]
  exact find?_map_upd_self x f hf t.entries

/-- Entry lookup of other ids through an entry-list equation. -/
theorem findEntry_map_upd_ne {t t2 : Ctrl} {x : ℕ}
    {f : EntryRec → EntryRec} (hf : ∀ e, (f e).eid = e.eid)
    (hent : t2.entries = t.entries.map (fun e => if e.eid == x then f e else e))
    (i : ℕ) (hix : i ≠ x) :
    t2.findEntry i = t.findEntry i := by
  unfold Ctrl.findEntry
  rw [hent]
  exact find?_map_upd_ne x f hf t.entries i hix

/-- The count relation is preserved when the entry of `i` is untouched
and the appended events do not concern `i`. -/
theorem CntOK_keep {t t2 : Ctrl} {l : List Ev} (i : ℕ)
    (hfe : t2.findEntry i = t.findEntry i)
    (hev : t2.events = t.events ++ l)
    (hst : evCnt (isStartEv i) l = 0) (hfin : evCnt (isFinEv i) l = 0)
    (hdis : evCnt (isDisEv i) l = 0) (hfl : evCnt (isFailEv i) l = 0)
    (h : CntOK t i) : CntOK t2 i := by
  unfold CntOK phaseOf outstandingOf startCnt finCnt disCnt failCnt
  rw [hfe, hev, evCnt_append, evCnt_append, evCnt_append, evCnt_append,
    hst, hfin, hdis, hfl]
  unfold CntOK phaseOf outstandingOf startCnt finCnt disCnt failCnt at h
  simpa using h

/-- `skipFront` partitions the queue: skipped ids, then the admitted
id, then the remainder. -/
theorem skipFront_eq (ab : ℕ → Bool) (q : List ℕ) :
    (skipFront ab q).1 ++ ((skipFront ab q).2.1.toList ++ (skipFront ab q).2.2)
      = q := by
  induction q with
  | nil => rfl
  | cons x xs ih =>
    by_cases h : ab x
    · simp only [skipFront, h, if_true]
      simpa using ih
    · simp [skipFront, h]

/-- The waiting queue is a permutation of: remainder, skipped ids,
admitted id. -/
theorem queuePick_perm (qt : QueueType) (ab : ℕ → Bool) (q : List ℕ) :
    List.Perm q ((queuePick qt ab q).2.2 ++
      ((queuePick qt ab q).1 ++ (queuePick qt ab q).2.1.toList)) := by
  cases qt with
  | FIFO =>
    simp only [queuePick]
    rcases h : skipFront ab q with ⟨d, t, rest⟩
    have he := skipFront_eq ab q
    rw [h] at he
    simp only [h]
    have p1 : List.Perm q (d ++ (t.toList ++ rest)) := by
      rw [he]
    have p2 : List.Perm (d ++ (t.toList ++ rest)) (rest ++ (d ++ t.toList)) := by
      have : d ++ (t.toList ++ rest) = (d ++ t.toList) ++ rest := by
        rw [List.append_assoc]
      rw [this]
      exact List.perm_append_comm
    exact p1.trans p2
  | LIFO =>
    simp only [queuePick]
    rcases h : skipFront ab q.reverse with ⟨d, t, rest0⟩
    have he := skipFront_eq ab q.reverse
    rw [h] at he
    simp only [h]
    have p1 : List.Perm q (d ++ (t.toList ++ rest0)) := by
      have h0 : List.Perm q q.reverse := (List.reverse_perm q).symm
      rw [← he] at h0
      exact h0
    have p2 : List.Perm (d ++ (t.toList ++ rest0)) (rest0 ++ (d ++ t.toList)) := by
      have : d ++ (t.toList ++ rest0) = (d ++ t.toList) ++ rest0 := by
        rw [List.append_assoc]
      rw [this]
      exact List.perm_append_comm
    have p3 : List.Perm (rest0 ++ (d ++ t.toList))
        (rest0.reverse ++ (d ++ t.toList)) :=
      List.Perm.append_right _ (List.reverse_perm rest0).symm
    exact (p1.trans p2).trans p3

end TaskCtrl

namespace TaskCtrl

/-- Retiring one in-flight waiting entry as discarded (reason recorded,
task-discarded emitted, waiting timer cancelled) preserves
well-formedness, consuming the head of the in-flight list. -/
theorem discard_step_WFx {t t2 : Ctrl} {x : ℕ} {X : List ℕ}
    {r : DiscardReason} (hw : WFx t (x :: X))
    (hent : t2.entries = t.entries.map (fun e =>
      if e.eid == x then
        { e with phase := Phase.discarded, discardReason := some r }
      else e))
    (hev : t2.events = t.events ++ [Ev.taskDiscarded x r])
    (hwt : t2.waitingTimers = t.waitingTimers.erase x)
    (hwq : t2.waitingQueue = t.waitingQueue)
    (hrun : t2.runningList = t.runningList)
    (hexp : t2.expiredList = t.expiredList)
    (hrt : t2.releaseTimers = t.releaseTimers)
    (hnext : t2.nextId = t.nextId) :
    WFx t2 X := by
  have hxw : phaseOf t x = some Phase.waiting :=
    (hw.wqPhase x).mp (Or.inr (List.mem_cons_self x X))
  have hnd : (x :: (t.waitingQueue ++ X)).Nodup :=
    List.perm_middle.nodup hw.wqNodup
  have hxnotin : x ∉ t.waitingQueue ++ X := (List.nodup_cons.mp hnd).1
  have hxwq : x ∉ t.waitingQueue := fun h =>
    hxnotin (List.mem_append.mpr (Or.inl h))
  have hxX : x ∉ X := fun h => hxnotin (List.mem_append.mpr (Or.inr h))
  have hndrest : (t.waitingQueue ++ X).Nodup := (List.nodup_cons.mp hnd).2
  have hfe_ne : ∀ i, i ≠ x → t2.findEntry i = t.findEntry i := fun i hix =>
    findEntry_map_upd_ne
      (f := fun e => { e with phase := Phase.discarded, discardReason := some r })
      (fun e => rfl) hent i hix
  have hfe_x : t2.findEntry x = (t.findEntry x).map (fun e =>
      { e with phase := Phase.discarded, discardReason := some r }) :=
    findEntry_map_upd_self
      (f := fun e => { e with phase := Phase.discarded, discardReason := some r })
      (fun e => rfl) hent
  have hph_ne : ∀ i, i ≠ x → phaseOf t2 i = phaseOf t i := by
    intro i hix
    unfold phaseOf
    rw [hfe_ne i hix]
  obtain ⟨e, hfx, heph⟩ :
      ∃ e, t.findEntry x = some e ∧ e.phase = Phase.waiting := by
    unfold phaseOf at hxw
    cases hfx : t.findEntry x with
    | none =>
      rw [hfx] at hxw
      cases hxw
    | some e =>
      rw [hfx] at hxw
      exact ⟨e, rfl, by simpa using hxw⟩
  have hph_x : phaseOf t2 x = some Phase.discarded := by
    unfold phaseOf
    rw [hfe_x, hfx]
    rfl
  refine ⟨?_, ?_, ?_, ?_, ?_, ?_, ?_, ?_, ?_, ?_, ?_, ?_⟩
  · intro e2 he2
    rw [hent] at he2
    rw [hnext]
    obtain ⟨e0, he0, hee⟩ := List.mem_map.mp he2
    by_cases h : (e0.eid == x) = true <;> simp [h] at hee <;> rw [← hee] <;>
      exact hw.idsLt e0 he0
  · rw [hwq]
    exact hndrest
  · rw [hrun]
    exact hw.runNodup
  · rw [hexp]
    exact hw.expNodup
  · intro i
    by_cases hix : i = x
    · subst hix
      rw [hwq, hph_x]
      constructor
      · intro h
        rcases h with h | h
        · exact absurd h hxwq
        · exact absurd h hxX
      · intro h
        simp at h
    · rw [hwq, hph_ne i hix]
      have hip := hw.wqPhase i
      constructor
      · intro h
        refine hip.mp ?_
        rcases h with h | h
        · exact Or.inl h
        · exact Or.inr (List.mem_cons_of_mem _ h)
      · intro h
        rcases hip.mpr h with h2 | h2
        · exact Or.inl h2
        · rcases List.mem_cons.mp h2 with h3 | h3
          · exact absurd h3 hix
          · exact Or.inr h3
  · intro i
    rw [hrun]
    by_cases hix : i = x
    · subst hix
      rw [hph_x]
      constructor
      · intro h
        have h2 := (hw.runPhase i).mp h
        rw [hxw] at h2
        simp at h2
      · intro h
        simp at h
    · rw [hph_ne i hix]
      exact hw.runPhase i
  · intro i
    rw [hexp]
    by_cases hix : i = x
    · subst hix
      rw [hph_x]
      constructor
      · intro h
        have h2 := (hw.expPhase i).mp h
        rw [hxw] at h2
        simp at h2
      · intro h
        simp at h
    · rw [hph_ne i hix]
      exact hw.expPhase i
  · rw [hwt]
    exact hw.wtNodup.erase x
  · rw [hrt]
    exact hw.rtNodup
  · intro i hi
    rw [hwt] at hi
    rw [hwq]
    have hix : i ≠ x := by
      intro h
      subst h
      exact hw.wtNodup.not_mem_erase hi
    rcases hw.wtSub i (List.mem_of_mem_erase hi) with h2 | h2
    · exact Or.inl h2
    · rcases List.mem_cons.mp h2 with h3 | h3
      · exact absurd h3 hix
      · exact Or.inr h3
  · intro i hi
    rw [hrt] at hi
    rw [hrun]
    exact hw.rtSub i hi
  · intro i
    by_cases hix : i = x
    · subst hix
      have hold := hw.cnt i
      unfold CntOK at hold
      rw [hxw] at hold
      simp only [phaseCnt] at hold
      obtain ⟨h1, h2, h3, h4, h5⟩ := hold
      unfold CntOK
      rw [hph_x]
      simp only [phaseCnt]
      refine ⟨?_, ?_, ?_, ?_, ?_⟩
      · unfold startCnt at h1 ⊢
        rw [hev, evCnt_append, evCnt_singleton]
        simp [isStartEv, h1]
      · unfold finCnt at h2 ⊢
        rw [hev, evCnt_append, evCnt_singleton]
        simp [isFinEv, h2]
      · unfold disCnt at h3 ⊢
        rw [hev, evCnt_append, evCnt_singleton]
        simp [isDisEv, h3]
      · unfold failCnt at h4 ⊢
        rw [hev, evCnt_append, evCnt_singleton]
        simp [isFailEv, h4]
      · unfold outstandingOf at h5 ⊢
        rw [hfe_x, hfx]
        rw [hfx] at h5
        simpa using h5
    · refine CntOK_keep i (hfe_ne i hix) hev ?_ ?_ ?_ ?_ (hw.cnt i)
      · rw [evCnt_singleton]
        simp [isStartEv]
      · rw [evCnt_singleton]
        simp [isFinEv]
      · rw [evCnt_singleton]
        simp [isDisEv, Ne.symm hix]
      · rw [evCnt_singleton]
        simp [isFailEv]

end TaskCtrl

namespace TaskCtrl

/-- `Ctrl.discardAborted` retires the head in-flight id. -/
theorem discardAborted_WFx {t : Ctrl} {x : ℕ} {X : List ℕ}
    (hw : WFx t (x :: X)) : WFx (Ctrl.discardAborted t x) X := by
  refine discard_step_WFx (r := DiscardReason.abortSignal) hw ?_ ?_ ?_ ?_ ?_ ?_ ?_ ?_ <;>
    simp [Ctrl.discardAborted, Ctrl.updEntry, Ctrl.emit]

/-- Folding `Ctrl.discardAborted` retires a whole prefix of in-flight
ids. -/
theorem discardAborted_foldl_WFx (d : List ℕ) {t : Ctrl} {X : List ℕ}
    (hw : WFx t (d ++ X)) : WFx (d.foldl Ctrl.discardAborted t) X := by
  induction d generalizing t with
  | nil => simpa using hw
  | cons x xs ih =>
    rw [List.foldl_cons]
    exact ih (discardAborted_WFx (by simpa using hw))

/-- Re-rooting the waiting queue at the remainder of a pick leaves a
well-formed state whose in-flight ids are the skipped and admitted
ones. -/
theorem queuePick_WFx {s : Ctrl} (hw : WF s) {d rest : List ℕ}
    {a : Option ℕ}
    (hr : queuePick s.queueType (s.effAborted) s.waitingQueue = (d, a, rest)) :
    WFx { s with waitingQueue := rest } (d ++ a.toList) := by
  have hperm := queuePick_perm s.queueType (s.effAborted) s.waitingQueue
  rw [hr] at hperm
  have hqnd : s.waitingQueue.Nodup := by simpa using hw.wqNodup
  refine ⟨hw.idsLt, hperm.nodup hqnd, hw.runNodup, hw.expNodup, ?_,
    hw.runPhase, hw.expPhase, hw.wtNodup, hw.rtNodup, ?_, hw.rtSub, ?_⟩
  · intro i
    have hmem : i ∈ s.waitingQueue ↔ i ∈ rest ++ (d ++ a.toList) :=
      hperm.mem_iff
    have hold := hw.wqPhase i
    constructor
    · intro h
      refine hold.mp (Or.inl ?_)
      exact hmem.mpr (List.mem_append.mpr h)
    · intro h
      rcases hold.mpr h with h2 | h2
      · exact List.mem_append.mp (hmem.mp h2)
      · simp at h2
  · intro i hi
    rcases hw.wtSub i hi with h2 | h2
    · have hmem : i ∈ s.waitingQueue ↔ i ∈ rest ++ (d ++ a.toList) :=
        hperm.mem_iff
      exact List.mem_append.mp (hmem.mp h2)
    · simp at h2
  · intro i
    exact CntOK_congr rfl rfl i (hw.cnt i)

end TaskCtrl

namespace TaskCtrl

/-- Cancelling a waiting timer preserves well-formedness. -/
theorem WFx_erase_wtimer {t : Ctrl} {X : List ℕ} (hw : WFx t X) (j : ℕ) :
    WFx { t with waitingTimers := t.waitingTimers.erase j } X := by
  refine ⟨hw.idsLt, hw.wqNodup, hw.runNodup, hw.expNodup, hw.wqPhase,
    hw.runPhase, hw.expPhase, hw.wtNodup.erase j, hw.rtNodup, ?_, hw.rtSub, ?_⟩
  · intro i hi
    exact hw.wtSub i (List.mem_of_mem_erase hi)
  · intro i
    exact CntOK_congr rfl rfl i (hw.cnt i)

/-- `Ctrl.getNext` preserves well-formedness: with no admitted id the
state is closed again, with an admitted id it is the only in-flight one
and its waiting timer is cancelled. -/
theorem getNext_WFx {s : Ctrl} (hw : WF s) :
    ((s.getNext).1 = none → WF (s.getNext).2) ∧
    (∀ j, (s.getNext).1 = some j →
      WFx (s.getNext).2 [j] ∧ j ∉ (s.getNext).2.waitingTimers) := by
  unfold Ctrl.getNext
  rcases hr : queuePick s.queueType (s.effAborted) s.waitingQueue with ⟨d, a, rest⟩
  simp only [hr]
  have hw1 := queuePick_WFx hw hr
  cases a with
  | none =>
    have hw2 : WF (d.foldl Ctrl.discardAborted { s with waitingQueue := rest }) :=
      discardAborted_foldl_WFx d (by simpa using hw1)
    constructor
    · intro h
      exact hw2
    · intro j hj
      simp at hj
  | some j0 =>
    have hw2 : WFx (d.foldl Ctrl.discardAborted { s with waitingQueue := rest }) [j0] :=
      discardAborted_foldl_WFx d (by simpa using hw1)
    constructor
    · intro h
      simp at h
    · intro j hj
      have hjj : j0 = j := by simpa using hj
      subst hjj
      refine ⟨WFx_erase_wtimer hw2 j0, ?_⟩
      exact hw2.wtNodup.not_mem_erase

end TaskCtrl

namespace TaskCtrl

/-- Admitting the single in-flight waiting entry as running (running
list extended, release timer possibly armed, task-started emitted)
restores a closed well-formed state. -/
theorem start_step_WF {t t2 : Ctrl} {j : ℕ} (hw : WFx t [j])
    (hjt : j ∉ t.waitingTimers)
    (hent : t2.entries = t.entries.map (fun e =>
      if e.eid == j then { e with phase := Phase.running, outstanding := true }
      else e))
    (hev : t2.events = t.events ++ [Ev.taskStarted j])
    (hrun : t2.runningList = t.runningList ++ [j])
    (hrt : t2.releaseTimers = t.releaseTimers ∨
      t2.releaseTimers = t.releaseTimers ++ [j])
    (hwq : t2.waitingQueue = t.waitingQueue)
    (hexp : t2.expiredList = t.expiredList)
    (hwt : t2.waitingTimers = t.waitingTimers)
    (hnext : t2.nextId = t.nextId) :
    WF t2 := by
  have hxw : phaseOf t j = some Phase.waiting :=
    (hw.wqPhase j).mp (Or.inr (List.mem_cons_self j []))
  have hnd : (j :: (t.waitingQueue ++ [])).Nodup :=
    List.perm_middle.nodup hw.wqNodup
  have hjwq : j ∉ t.waitingQueue := fun h =>
    (List.nodup_cons.mp hnd).1 (List.mem_append.mpr (Or.inl h))
  have hqnd : t.waitingQueue.Nodup := by
    have := (List.nodup_cons.mp hnd).2
    simpa using this
  have hjrun : j ∉ t.runningList := fun h => by
    have h2 := (hw.runPhase j).mp h
    rw [hxw] at h2
    simp at h2
  have hjexp : j ∉ t.expiredList := fun h => by
    have h2 := (hw.expPhase j).mp h
    rw [hxw] at h2
    simp at h2
  have hjrt : j ∉ t.releaseTimers := fun h => hjrun (hw.rtSub j h)
  have hfe_ne : ∀ i, i ≠ j → t2.findEntry i = t.findEntry i := fun i hij =>
    findEntry_map_upd_ne
      (f := fun e => { e with phase := Phase.running, outstanding := true })
      (fun e => rfl) hent i hij
  have hfe_j : t2.findEntry j = (t.findEntry j).map (fun e =>
      { e with phase := Phase.running, outstanding := true }) :=
    findEntry_map_upd_self
      (f := fun e => { e with phase := Phase.running, outstanding := true })
      (fun e => rfl) hent
  have hph_ne : ∀ i, i ≠ j → phaseOf t2 i = phaseOf t i := by
    intro i hij
    unfold phaseOf
    rw [hfe_ne i hij]
  obtain ⟨e, hfj, heph⟩ :
      ∃ e, t.findEntry j = some e ∧ e.phase = Phase.waiting := by
    unfold phaseOf at hxw
    cases hfj : t.findEntry j with
    | none =>
      rw [hfj] at hxw
      cases hxw
    | some e =>
      rw [hfj] at hxw
      exact ⟨e, rfl, by simpa using hxw⟩
  have hph_j : phaseOf t2 j = some Phase.running := by
    unfold phaseOf
    rw [hfe_j, hfj]
    rfl
  refine ⟨?_, ?_, ?_, ?_, ?_, ?_, ?_, ?_, ?_, ?_, ?_, ?_⟩
  · intro e2 he2
    rw [hent] at he2
    rw [hnext]
    obtain ⟨e0, he0, hee⟩ := List.mem_map.mp he2
    by_cases h : (e0.eid == j) = true <;> simp [h] at hee <;> rw [← hee] <;>
      exact hw.idsLt e0 he0
  · rw [hwq]
    simpa using hqnd
  · rw [hrun]
    refine List.Nodup.append hw.runNodup (List.nodup_singleton j) ?_
    intro x hx hxj
    simp at hxj
    subst hxj
    exact hjrun hx
  · rw [hexp]
    exact hw.expNodup
  · intro i
    rw [hwq]
    by_cases hij : i = j
    · subst hij
      rw [hph_j]
      constructor
      · intro h
        rcases h with h | h
        · exact absurd h hjwq
        · simp at h
      · intro h
        simp at h
    · rw [hph_ne i hij]
      have hold := hw.wqPhase i
      constructor
      · intro h
        rcases h with h | h
        · exact hold.mp (Or.inl h)
        · simp at h
      · intro h
        rcases hold.mpr h with h2 | h2
        · exact Or.inl h2
        · rcases List.mem_cons.mp h2 with h3 | h3
          · exact absurd h3 hij
          · simp at h3
  · intro i
    rw [hrun]
    by_cases hij : i = j
    · subst hij
      rw [hph_j]
      simp
    · rw [hph_ne i hij]
      have hold := hw.runPhase i
      rw [List.mem_append]
      constructor
      · intro h
        rcases h with h | h
        · exact hold.mp h
        · simp at h
          exact absurd h hij
      · intro h
        exact Or.inl (hold.mpr h)
  · intro i
    rw [hexp]
    by_cases hij : i = j
    · subst hij
      rw [hph_j]
      constructor
      · intro h
        exact absurd h hjexp
      · intro h
        simp at h
    · rw [hph_ne i hij]
      exact hw.expPhase i
  · rw [hwt]
    exact hw.wtNodup
  · rcases hrt with hrt | hrt
    · rw [hrt]
      exact hw.rtNodup
    · rw [hrt]
      refine List.Nodup.append hw.rtNodup (List.nodup_singleton j) ?_
      intro x hx hxj
      simp at hxj
      subst hxj
      exact hjrt hx
  · intro i hi
    rw [hwt] at hi
    rw [hwq]
    rcases hw.wtSub i hi with h2 | h2
    · exact Or.inl h2
    · rcases List.mem_cons.mp h2 with h3 | h3
      · subst h3
        exact absurd hi hjt
      · simp at h3
  · intro i hi
    rw [hrun]
    rw [List.mem_append]
    rcases hrt with hrt | hrt
    · rw [hrt] at hi
      exact Or.inl (hw.rtSub i hi)
    · rw [hrt] at hi
      rcases List.mem_append.mp hi with h2 | h2
      · exact Or.inl (hw.rtSub i h2)
      · exact Or.inr h2
  · intro i
    by_cases hij : i = j
    · subst hij
      have hold := hw.cnt i
      unfold CntOK at hold
      rw [hxw] at hold
      simp only [phaseCnt] at hold
      obtain ⟨h1, h2, h3, h4, h5⟩ := hold
      unfold CntOK
      rw [hph_j]
      simp only [phaseCnt]
      refine ⟨?_, ?_, ?_, ?_, ?_⟩
      · unfold startCnt at h1 ⊢
        rw [hev, evCnt_append, evCnt_singleton]
        simp [isStartEv, h1]
      · unfold finCnt at h2 ⊢
        rw [hev, evCnt_append, evCnt_singleton]
        simp [isFinEv, h2]
      · unfold disCnt at h3 ⊢
        rw [hev, evCnt_append, evCnt_singleton]
        simp [isDisEv, h3]
      · unfold failCnt at h4 ⊢
        rw [hev, evCnt_append, evCnt_singleton]
        simp [isFailEv, h4]
      · unfold outstandingOf
        rw [hfe_j, hfj]
        simp
    · refine CntOK_keep i (hfe_ne i hij) hev ?_ ?_ ?_ ?_ (hw.cnt i)
      · rw [evCnt_singleton]
        simp [isStartEv, Ne.symm hij]
      · rw [evCnt_singleton]
        simp [isFinEv]
      · rw [evCnt_singleton]
        simp [isDisEv]
      · rw [evCnt_singleton]
        simp [isFailEv]

end TaskCtrl

namespace TaskCtrl

/-- `Ctrl.startTask` on the in-flight admitted entry restores a closed
well-formed state. -/
theorem startTask_WF {t : Ctrl} {j : ℕ} (hw : WFx t [j])
    (hjt : j ∉ t.waitingTimers) : WF (Ctrl.startTask j t) := by
  by_cases h : (Ctrl.effReleaseTimeout t j).gtZero = true
  · refine start_step_WF hw hjt ?_ ?_ ?_ (Or.inr ?_) ?_ ?_ ?_ ?_ <;>
      simp [Ctrl.startTask, h, Ctrl.updEntry, Ctrl.emit]
  · refine start_step_WF hw hjt ?_ ?_ ?_ (Or.inl ?_) ?_ ?_ ?_ ?_ <;>
      simp [Ctrl.startTask, h, Ctrl.updEntry, Ctrl.emit]

/-- `Ctrl.dispatchNextTask` preserves well-formedness. -/
theorem dispatch_WF {s : Ctrl} (hw : WF s) : WF s.dispatchNextTask := by
  unfold Ctrl.dispatchNextTask
  split
  · obtain ⟨hnone, hsome⟩ := getNext_WFx hw
    rcases hg : s.getNext with ⟨a, s1⟩
    cases a with
    | none =>
      have h2 := hnone (by rw [hg])
      rw [hg] at h2
      exact h2
    | some j =>
      have hs := hsome j (by rw [hg])
      rw [hg] at hs
      exact startTask_WF hs.1 hs.2
  · exact hw

/-- Dispatch never removes a running entry. -/
theorem dispatch_preserves_running {s : Ctrl} {b : ℕ}
    (hb : b ∈ s.runningList) : b ∈ (s.dispatchNextTask).runningList := by
  unfold Ctrl.dispatchNextTask
  split
  · obtain ⟨g1, g2, g3, g4, g5, mid, g6⟩ := getNext_frame s
    rcases hg : s.getNext with ⟨a, s1⟩
    have g1' : s1.runningList = s.runningList := by simpa [hg] using g1
    cases a with
    | none =>
      rw [g1']
      exact hb
    | some j =>
      rw [startTask_runningList, g1']
      exact List.mem_append.mpr (Or.inl hb)
  · exact hb

end TaskCtrl

namespace TaskCtrl

/-- Closed well-formedness gives the per-id weakened form. -/
theorem WFc_of_WF {s : Ctrl} (hw : WF s) (j : ℕ) : WFc s j := by
  refine ⟨hw.idsLt, by simpa using hw.wqNodup, hw.runNodup, hw.expNodup, ?_,
    hw.runPhase, hw.expPhase, hw.wtNodup, hw.rtNodup, ?_, hw.rtSub,
    fun i hij => hw.cnt i⟩
  · intro i
    constructor
    · intro h
      exact (hw.wqPhase i).mp (Or.inl h)
    · intro h
      rcases (hw.wqPhase i).mpr h with h2 | h2
      · exact h2
      · simp at h2
  · intro i hi
    rcases hw.wtSub i hi with h2 | h2
    · exact h2
    · simp at h2

/-- The weakened form plus the count relation at the weak id gives
closed well-formedness. -/
theorem WF_of_WFc {s : Ctrl} {j : ℕ} (hw : WFc s j) (hj : CntOK s j) :
    WF s := by
  refine ⟨hw.idsLt, by simpa using hw.wqNodup, hw.runNodup, hw.expNodup, ?_,
    hw.runPhase, hw.expPhase, hw.wtNodup, hw.rtNodup, ?_, hw.rtSub, ?_⟩
  · intro i
    constructor
    · intro h
      rcases h with h | h
      · exact (hw.wqPhase i).mp h
      · simp at h
    · intro h
      exact Or.inl ((hw.wqPhase i).mpr h)
  · intro i hi
    exact Or.inl (hw.wtSub i hi)
  · intro i
    by_cases hij : i = j
    · subst hij
      exact hj
    · exact hw.cnt i hij

/-- Moving a running entry to the expired set on a reasoned release
(timer cancelled, task-released-before-finished emitted) preserves
well-formedness. -/
theorem exp_move_step_WF {t t2 : Ctrl} {j : ℕ} {r : RelReason}
    (hw : WF t) (hjrun : j ∈ t.runningList)
    (hent : t2.entries = t.entries.map (fun e =>
      if e.eid == j then { e with phase := Phase.expired, releaseReason := some r }
      else e))
    (hev : t2.events = t.events ++ [Ev.taskReleasedBeforeFinished j r])
    (hrt2 : t2.releaseTimers = t.releaseTimers.erase j)
    (hrun2 : t2.runningList = t.runningList.erase j)
    (hexp2 : t2.expiredList = t.expiredList ++ [j])
    (hwq2 : t2.waitingQueue = t.waitingQueue)
    (hwt2 : t2.waitingTimers = t.waitingTimers)
    (hnext : t2.nextId = t.nextId) :
    WF t2 := by
  have hph : phaseOf t j = some Phase.running := (hw.runPhase j).mp hjrun
  have hjwq : j ∉ t.waitingQueue := fun h => by
    have h2 := (hw.wqPhase j).mp (Or.inl h)
    rw [hph] at h2
    simp at h2
  have hjexp : j ∉ t.expiredList := fun h => by
    have h2 := (hw.expPhase j).mp h
    rw [hph] at h2
    simp at h2
  have hfe_ne : ∀ i, i ≠ j → t2.findEntry i = t.findEntry i := fun i hij =>
    findEntry_map_upd_ne
      (f := fun e => { e with phase := Phase.expired, releaseReason := some r })
      (fun e => rfl) hent i hij
  have hfe_j : t2.findEntry j = (t.findEntry j).map (fun e =>
      { e with phase := Phase.expired, releaseReason := some r }) :=
    findEntry_map_upd_self
      (f := fun e => { e with phase := Phase.expired, releaseReason := some r })
      (fun e => rfl) hent
  have hph_ne : ∀ i, i ≠ j → phaseOf t2 i = phaseOf t i := by
    intro i hij
    unfold phaseOf
    rw [hfe_ne i hij]
  obtain ⟨e, hfj, heph⟩ :
      ∃ e, t.findEntry j = some e ∧ e.phase = Phase.running := by
    unfold phaseOf at hph
    cases hfj : t.findEntry j with
    | none =>
      rw [hfj] at hph
      cases hph
    | some e =>
      rw [hfj] at hph
      exact ⟨e, rfl, by simpa using hph⟩
  have hph_j : phaseOf t2 j = some Phase.expired := by
    unfold phaseOf
    rw [hfe_j, hfj]
    rfl
  refine ⟨?_, ?_, ?_, ?_, ?_, ?_, ?_, ?_, ?_, ?_, ?_, ?_⟩
  · intro e2 he2
    rw [hent] at he2
    rw [hnext]
    obtain ⟨e0, he0, hee⟩ := List.mem_map.mp he2
    by_cases h : (e0.eid == j) = true <;> simp [h] at hee <;> rw [← hee] <;>
      exact hw.idsLt e0 he0
  · rw [hwq2]
    exact hw.wqNodup
  · rw [hrun2]
    exact hw.runNodup.erase j
  · rw [hexp2]
    refine List.Nodup.append hw.expNodup (List.nodup_singleton j) ?_
    intro x hx hxj
    simp at hxj
    subst hxj
    exact hjexp hx
  · intro i
    rw [hwq2]
    by_cases hij : i = j
    · subst hij
      rw [hph_j]
      constructor
      · intro h
        rcases h with h | h
        · exact absurd h hjwq
        · simp at h
      · intro h
        simp at h
    · rw [hph_ne i hij]
      have hold := hw.wqPhase i
      constructor
      · intro h
        exact hold.mp h
      · intro h
        exact hold.mpr h
  · intro i
    rw [hrun2]
    by_cases hij : i = j
    · subst hij
      rw [hph_j]
      constructor
      · intro h
        exact absurd h (hw.runNodup.not_mem_erase)
      · intro h
        simp at h
    · rw [hph_ne i hij]
      rw [List.mem_erase_of_ne hij]
      exact hw.runPhase i
  · intro i
    rw [hexp2]
    by_cases hij : i = j
    · subst hij
      rw [hph_j]
      simp
    · rw [hph_ne i hij]
      rw [List.mem_append]
      constructor
      · intro h
        rcases h with h | h
        · exact (hw.expPhase i).mp h
        · simp at h
          exact absurd h hij
      · intro h
        exact Or.inl ((hw.expPhase i).mpr h)
  · rw [hwt2]
    exact hw.wtNodup
  · rw [hrt2]
    exact hw.rtNodup.erase j
  · intro i hi
    rw [hwt2] at hi
    rw [hwq2]
    exact hw.wtSub i hi
  · intro i hi
    rw [hrt2] at hi
    rw [hrun2]
    have hij : i ≠ j := by
      intro h
      subst h
      exact hw.rtNodup.not_mem_erase hi
    rcases hw.rtSub i (List.mem_of_mem_erase hi) with h2
    exact (List.mem_erase_of_ne hij).mpr h2
  · intro i
    by_cases hij : i = j
    · subst hij
      have hold := hw.cnt i
      unfold CntOK at hold
      rw [hph] at hold
      simp only [phaseCnt] at hold
      obtain ⟨h1, h2, h3, h4, h5⟩ := hold
      unfold CntOK
      rw [hph_j]
      simp only [phaseCnt]
      refine ⟨?_, ?_, ?_, ?_, ?_⟩
      · unfold startCnt at h1 ⊢
        rw [hev, evCnt_append, evCnt_singleton]
        simp [isStartEv, h1]
      · unfold finCnt at h2 ⊢
        rw [hev, evCnt_append, evCnt_singleton]
        simp [isFinEv, h2]
      · unfold disCnt at h3 ⊢
        rw [hev, evCnt_append, evCnt_singleton]
        simp [isDisEv, h3]
      · unfold failCnt at h4 ⊢
        rw [hev, evCnt_append, evCnt_singleton]
        simp [isFailEv, h4]
      · unfold outstandingOf at h5 ⊢
        rw [hfe_j, hfj]
        rw [hfj] at h5
        simpa using h5
    · refine CntOK_keep i (hfe_ne i hij) hev ?_ ?_ ?_ ?_ (hw.cnt i)
      · rw [evCnt_singleton]
        simp [isStartEv]
      · rw [evCnt_singleton]
        simp [isFinEv]
      · rw [evCnt_singleton]
        simp [isDisEv]
      · rw [evCnt_singleton]
        simp [isFailEv]

end TaskCtrl

namespace TaskCtrl

/-- Finishing a running entry (release timer cancelled, removed from
running, task-finished emitted) restores closed well-formedness, even
when the count relation at that entry was weakened by the enclosing
completion. -/
theorem fin_run_step_WF {t t2 : Ctrl} {j : ℕ} (hw : WFc t j)
    (hph : phaseOf t j = some Phase.running)
    (hst : startCnt t j = 1) (hfin : finCnt t j = 0) (hdis : disCnt t j = 0)
    (hfl : failCnt t j ≤ 1)
    (houfl : outstandingOf t j = true → failCnt t j = 0)
    (hent : t2.entries = t.entries.map (fun e =>
      if e.eid == j then { e with phase := Phase.finished } else e))
    (hev : t2.events = t.events ++ [Ev.taskFinished j])
    (hrt2 : t2.releaseTimers = t.releaseTimers.erase j)
    (hrun2 : t2.runningList = t.runningList.erase j)
    (hexp2 : t2.expiredList = t.expiredList)
    (hwq2 : t2.waitingQueue = t.waitingQueue)
    (hwt2 : t2.waitingTimers = t.waitingTimers)
    (hnext : t2.nextId = t.nextId) :
    WF t2 := by
  have hjwq : j ∉ t.waitingQueue := fun h => by
    have h2 := (hw.wqPhase j).mp h
    rw [hph] at h2
    simp at h2
  have hjexp : j ∉ t.expiredList := fun h => by
    have h2 := (hw.expPhase j).mp h
    rw [hph] at h2
    simp at h2
  have hfe_ne : ∀ i, i ≠ j → t2.findEntry i = t.findEntry i := fun i hij =>
    findEntry_map_upd_ne
      (f := fun e => { e with phase := Phase.finished })
      (fun e => rfl) hent i hij
  have hfe_j : t2.findEntry j = (t.findEntry j).map (fun e =>
      { e with phase := Phase.finished }) :=
    findEntry_map_upd_self
      (f := fun e => { e with phase := Phase.finished })
      (fun e => rfl) hent
  have hph_ne : ∀ i, i ≠ j → phaseOf t2 i = phaseOf t i := by
    intro i hij
    unfold phaseOf
    rw [hfe_ne i hij]
  obtain ⟨e, hfj, heph⟩ :
      ∃ e, t.findEntry j = some e ∧ e.phase = Phase.running := by
    unfold phaseOf at hph
    cases hfj : t.findEntry j with
    | none =>
      rw [hfj] at hph
      cases hph
    | some e =>
      rw [hfj] at hph
      exact ⟨e, rfl, by simpa using hph⟩
  have hph_j : phaseOf t2 j = some Phase.finished := by
    unfold phaseOf
    rw [hfe_j, hfj]
    rfl
  refine ⟨?_, ?_, ?_, ?_, ?_, ?_, ?_, ?_, ?_, ?_, ?_, ?_⟩
  · intro e2 he2
    rw [hent] at he2
    rw [hnext]
    obtain ⟨e0, he0, hee⟩ := List.mem_map.mp he2
    by_cases h : (e0.eid == j) = true <;> simp [h] at hee <;> rw [← hee] <;>
      exact hw.idsLt e0 he0
  · rw [hwq2]
    simpa using hw.wqNodup
  · rw [hrun2]
    exact hw.runNodup.erase j
  · rw [hexp2]
    exact hw.expNodup
  · intro i
    rw [hwq2]
    by_cases hij : i = j
    · subst hij
      rw [hph_j]
      constructor
      · intro h
        rcases h with h | h
        · exact absurd h hjwq
        · simp at h
      · intro h
        simp at h
    · rw [hph_ne i hij]
      constructor
      · intro h
        rcases h with h | h
        · exact (hw.wqPhase i).mp h
        · simp at h
      · intro h
        exact Or.inl ((hw.wqPhase i).mpr h)
  · intro i
    rw [hrun2]
    by_cases hij : i = j
    · subst hij
      rw [hph_j]
      constructor
      · intro h
        exact absurd h (hw.runNodup.not_mem_erase)
      · intro h
        simp at h
    · rw [hph_ne i hij]
      rw [List.mem_erase_of_ne hij]
      exact hw.runPhase i
  · intro i
    rw [hexp2]
    by_cases hij : i = j
    · subst hij
      rw [hph_j]
      constructor
      · intro h
        exact absurd h hjexp
      · intro h
        simp at h
    · rw [hph_ne i hij]
      exact hw.expPhase i
  · rw [hwt2]
    exact hw.wtNodup
  · rw [hrt2]
    exact hw.rtNodup.erase j
  · intro i hi
    rw [hwt2] at hi
    rw [hwq2]
    exact Or.inl (hw.wtSub i hi)
  · intro i hi
    rw [hrt2] at hi
    rw [hrun2]
    have hij : i ≠ j := by
      intro h
      subst h
      exact hw.rtNodup.not_mem_erase hi
    exact (List.mem_erase_of_ne hij).mpr (hw.rtSub i (List.mem_of_mem_erase hi))
  · intro i
    by_cases hij : i = j
    · subst hij
      unfold CntOK
      rw [hph_j]
      simp only [phaseCnt]
      have hou2 : outstandingOf t2 i = outstandingOf t i := by
        unfold outstandingOf
        rw [hfe_j, hfj]
        rfl
      refine ⟨?_, ?_, ?_, ?_, ?_⟩
      · unfold startCnt at hst ⊢
        rw [hev, evCnt_append, evCnt_singleton]
        simp [isStartEv, hst]
      · unfold finCnt at hfin ⊢
        rw [hev, evCnt_append, evCnt_singleton]
        simp [isFinEv, hfin]
      · unfold disCnt at hdis ⊢
        rw [hev, evCnt_append, evCnt_singleton]
        simp [isDisEv, hdis]
      · intro hou
        rw [hou2] at hou
        have hz := houfl hou
        unfold failCnt at hz ⊢
        rw [hev, evCnt_append, evCnt_singleton]
        simp [isFailEv, hz]
      · unfold failCnt at hfl ⊢
        rw [hev, evCnt_append, evCnt_singleton]
        simp [isFailEv]
        exact hfl
    · refine CntOK_keep i (hfe_ne i hij) hev ?_ ?_ ?_ ?_ (hw.cnt i hij)
      · rw [evCnt_singleton]
        simp [isStartEv]
      · rw [evCnt_singleton]
        simp [isFinEv, Ne.symm hij]
      · rw [evCnt_singleton]
        simp [isDisEv]
      · rw [evCnt_singleton]
        simp [isFailEv]

end TaskCtrl

namespace TaskCtrl

/-- Finalizing an expired entry (removed from the expired set,
task-finished emitted) restores closed well-formedness, even when the
count relation at that entry was weakened by the enclosing
completion. -/
theorem fin_exp_step_WF {t t2 : Ctrl} {j : ℕ} (hw : WFc t j)
    (hph : phaseOf t j = some Phase.expired)
    (hst : startCnt t j = 1) (hfin : finCnt t j = 0) (hdis : disCnt t j = 0)
    (hfl : failCnt t j ≤ 1)
    (houfl : outstandingOf t j = true → failCnt t j = 0)
    (hent : t2.entries = t.entries.map (fun e =>
      if e.eid == j then { e with phase := Phase.finished } else e))
    (hev : t2.events = t.events ++ [Ev.taskFinished j])
    (hexp2 : t2.expiredList = t.expiredList.erase j)
    (hrun2 : t2.runningList = t.runningList)
    (hrt2 : t2.releaseTimers = t.releaseTimers)
    (hwq2 : t2.waitingQueue = t.waitingQueue)
    (hwt2 : t2.waitingTimers = t.waitingTimers)
    (hnext : t2.nextId = t.nextId) :
    WF t2 := by
  have hjwq : j ∉ t.waitingQueue := fun h => by
    have h2 := (hw.wqPhase j).mp h
    rw [hph] at h2
    simp at h2
  have hjrun : j ∉ t.runningList := fun h => by
    have h2 := (hw.runPhase j).mp h
    rw [hph] at h2
    simp at h2
  have hfe_ne : ∀ i, i ≠ j → t2.findEntry i = t.findEntry i := fun i hij =>
    findEntry_map_upd_ne
      (f := fun e => { e with phase := Phase.finished })
      (fun e => rfl) hent i hij
  have hfe_j : t2.findEntry j = (t.findEntry j).map (fun e =>
      { e with phase := Phase.finished }) :=
    findEntry_map_upd_self
      (f := fun e => { e with phase := Phase.finished })
      (fun e => rfl) hent
  have hph_ne : ∀ i, i ≠ j → phaseOf t2 i = phaseOf t i := by
    intro i hij
    unfold phaseOf
    rw [hfe_ne i hij]
  obtain ⟨e, hfj, heph⟩ :
      ∃ e, t.findEntry j = some e ∧ e.phase = Phase.expired := by
    unfold phaseOf at hph
    cases hfj : t.findEntry j with
    | none =>
      rw [hfj] at hph
      cases hph
    | some e =>
      rw [hfj] at hph
      exact ⟨e, rfl, by simpa using hph⟩
  have hph_j : phaseOf t2 j = some Phase.finished := by
    unfold phaseOf
    rw [hfe_j, hfj]
    rfl
  refine ⟨?_, ?_, ?_, ?_, ?_, ?_, ?_, ?_, ?_, ?_, ?_, ?_⟩
  · intro e2 he2
    rw [hent] at he2
    rw [hnext]
    obtain ⟨e0, he0, hee⟩ := List.mem_map.mp he2
    by_cases h : (e0.eid == j) = true <;> simp [h] at hee <;> rw [← hee] <;>
      exact hw.idsLt e0 he0
  · rw [hwq2]
    simpa using hw.wqNodup
  · rw [hrun2]
    exact hw.runNodup
  · rw [hexp2]
    exact hw.expNodup.erase j
  · intro i
    rw [hwq2]
    by_cases hij : i = j
    · subst hij
      rw [hph_j]
      constructor
      · intro h
        rcases h with h | h
        · exact absurd h hjwq
        · simp at h
      · intro h
        simp at h
    · rw [hph_ne i hij]
      constructor
      · intro h
        rcases h with h | h
        · exact (hw.wqPhase i).mp h
        · simp at h
      · intro h
        exact Or.inl ((hw.wqPhase i).mpr h)
  · intro i
    rw [hrun2]
    by_cases hij : i = j
    · subst hij
      rw [hph_j]
      constructor
      · intro h
        exact absurd h hjrun
      · intro h
        simp at h
    · rw [hph_ne i hij]
      exact hw.runPhase i
  · intro i
    rw [hexp2]
    by_cases hij : i = j
    · subst hij
      rw [hph_j]
      constructor
      · intro h
        exact absurd h (hw.expNodup.not_mem_erase)
      · intro h
        simp at h
    · rw [hph_ne i hij]
      rw [List.mem_erase_of_ne hij]
      exact hw.expPhase i
  · rw [hwt2]
    exact hw.wtNodup
  · rw [hrt2]
    exact hw.rtNodup
  · intro i hi
    rw [hwt2] at hi
    rw [hwq2]
    exact Or.inl (hw.wtSub i hi)
  · intro i hi
    rw [hrt2] at hi
    rw [hrun2]
    exact hw.rtSub i hi
  · intro i
    by_cases hij : i = j
    · subst hij
      unfold CntOK
      rw [hph_j]
      simp only [phaseCnt]
      have hou2 : outstandingOf t2 i = outstandingOf t i := by
        unfold outstandingOf
        rw [hfe_j, hfj]
        rfl
      refine ⟨?_, ?_, ?_, ?_, ?_⟩
      · unfold startCnt at hst ⊢
        rw [hev, evCnt_append, evCnt_singleton]
        simp [isStartEv, hst]
      · unfold finCnt at hfin ⊢
        rw [hev, evCnt_append, evCnt_singleton]
        simp [isFinEv, hfin]
      · unfold disCnt at hdis ⊢
        rw [hev, evCnt_append, evCnt_singleton]
        simp [isDisEv, hdis]
      · intro hou
        rw [hou2] at hou
        have hz := houfl hou
        unfold failCnt at hz ⊢
        rw [hev, evCnt_append, evCnt_singleton]
        simp [isFailEv, hz]
      · unfold failCnt at hfl ⊢
        rw [hev, evCnt_append, evCnt_singleton]
        simp [isFailEv]
        exact hfl
    · refine CntOK_keep i (hfe_ne i hij) hev ?_ ?_ ?_ ?_ (hw.cnt i hij)
      · rw [evCnt_singleton]
        simp [isStartEv]
      · rw [evCnt_singleton]
        simp [isFinEv, Ne.symm hij]
      · rw [evCnt_singleton]
        simp [isDisEv]
      · rw [evCnt_singleton]
        simp [isFailEv]

end TaskCtrl

namespace TaskCtrl

/-- The release token invoked with no reason from a completion
preserves well-formedness, starting from the weakened form produced by
settling the entry. -/
theorem releaseFn_none_WFc {s : Ctrl} {j : ℕ} (hw : WFc s j)
    (hst : startCnt s j = 1) (hfin : finCnt s j = 0) (hdis : disCnt s j = 0)
    (hfl : failCnt s j ≤ 1)
    (houfl : outstandingOf s j = true → failCnt s j = 0)
    (hph : phaseOf s j = some Phase.running ∨ phaseOf s j = some Phase.expired) :
    WF (Ctrl.releaseFn j none s) := by
  unfold Ctrl.releaseFn
  rcases hph with hph | hph
  · have hexpm : j ∉ s.expiredList := fun h => by
      have h2 := (hw.expPhase j).mp h
      rw [hph] at h2
      simp at h2
    have hrunm : j ∈ s.runningList := (hw.runPhase j).mpr hph
    rw [if_neg hexpm]
    rw [if_pos hrunm]
    dsimp only
    apply dispatch_WF
    refine fin_run_step_WF hw hph hst hfin hdis hfl houfl ?_ ?_ ?_ ?_ ?_ ?_ ?_ ?_ <;>
      simp [Ctrl.updEntry, Ctrl.emit]
  · have hexpm : j ∈ s.expiredList := (hw.expPhase j).mpr hph
    have hrunm : j ∉ s.runningList := fun h => by
      have h2 := (hw.runPhase j).mp h
      rw [hph] at h2
      simp at h2
    rw [if_pos hexpm]
    have hw0 : WF ((Ctrl.updEntry { s with expiredList := s.expiredList.erase j } j
        (fun e => { e with phase := Phase.finished })).emit (Ev.taskFinished j)) := by
      refine fin_exp_step_WF hw hph hst hfin hdis hfl houfl ?_ ?_ ?_ ?_ ?_ ?_ ?_ ?_ <;>
        simp [Ctrl.updEntry, Ctrl.emit]
    rw [if_neg (show ¬ _ from by simpa [Ctrl.updEntry, Ctrl.emit] using hrunm)]
    exact hw0

/-- The release token preserves well-formedness from any well-formed
state, for every reason. -/
theorem releaseFn_WF {s : Ctrl} (j : ℕ) (r : Option RelReason) (hw : WF s) :
    WF (Ctrl.releaseFn j r s) := by
  by_cases hexpm : j ∈ s.expiredList
  · have hph : phaseOf s j = some Phase.expired := (hw.expPhase j).mp hexpm
    have hc := hw.cnt j
    unfold CntOK at hc
    rw [hph] at hc
    simp only [phaseCnt] at hc
    obtain ⟨h1, h2, h3, h4, h5⟩ := hc
    have hrunm : j ∉ s.runningList := fun h => by
      have hx := (hw.runPhase j).mp h
      rw [hph] at hx
      simp at hx
    unfold Ctrl.releaseFn
    rw [if_pos hexpm]
    have hw0 : WF ((Ctrl.updEntry { s with expiredList := s.expiredList.erase j } j
        (fun e => { e with phase := Phase.finished })).emit (Ev.taskFinished j)) := by
      refine fin_exp_step_WF (WFc_of_WF hw j) hph h1 h2 h3 (by simp [h4])
        (fun _ => h4) ?_ ?_ ?_ ?_ ?_ ?_ ?_ ?_ <;>
        simp [Ctrl.updEntry, Ctrl.emit]
    rw [if_neg (show ¬ _ from by simpa [Ctrl.updEntry, Ctrl.emit] using hrunm)]
    exact hw0
  · by_cases hrunm : j ∈ s.runningList
    · have hph : phaseOf s j = some Phase.running := (hw.runPhase j).mp hrunm
      cases r with
      | none =>
        have hc := hw.cnt j
        unfold CntOK at hc
        rw [hph] at hc
        simp only [phaseCnt] at hc
        obtain ⟨h1, h2, h3, h4, h5⟩ := hc
        exact releaseFn_none_WFc (WFc_of_WF hw j) h1 h2 h3 (by simp [h4])
          (fun _ => h4) (Or.inl hph)
      | some r2 =>
        unfold Ctrl.releaseFn
        rw [if_neg hexpm]
        rw [if_pos hrunm]
        dsimp only
        apply dispatch_WF
        refine exp_move_step_WF (r := r2) hw hrunm ?_ ?_ ?_ ?_ ?_ ?_ ?_ ?_ <;>
          simp [Ctrl.updEntry, Ctrl.emit]
    · unfold Ctrl.releaseFn
      rw [if_neg hexpm]
      rw [if_neg hrunm]
      exact hw

/-- The release token never removes a different running entry. -/
theorem releaseFn_keeps_running {s : Ctrl} {j b : ℕ} (r : Option RelReason)
    (hb : b ∈ s.runningList) (hbj : b ≠ j) :
    b ∈ (Ctrl.releaseFn j r s).runningList := by
  unfold Ctrl.releaseFn
  by_cases hexpm : j ∈ s.expiredList
  · rw [if_pos hexpm]
    by_cases hrunm : j ∈ ((Ctrl.updEntry { s with expiredList := s.expiredList.erase j } j
        (fun e => { e with phase := Phase.finished })).emit (Ev.taskFinished j)).runningList
    · rw [if_pos hrunm]
      cases r with
      | none =>
        dsimp only
        apply dispatch_preserves_running
        simp only [Ctrl.updEntry, Ctrl.emit]
        simpa using (List.mem_erase_of_ne hbj).mpr hb
      | some r2 =>
        dsimp only
        apply dispatch_preserves_running
        simp only [Ctrl.updEntry, Ctrl.emit]
        simpa using (List.mem_erase_of_ne hbj).mpr hb
    · rw [if_neg hrunm]
      simpa [Ctrl.updEntry, Ctrl.emit] using hb
  · rw [if_neg hexpm]
    by_cases hrunm : j ∈ s.runningList
    · rw [if_pos hrunm]
      cases r with
      | none =>
        dsimp only
        apply dispatch_preserves_running
        simp only [Ctrl.updEntry, Ctrl.emit]
        simpa using (List.mem_erase_of_ne hbj).mpr hb
      | some r2 =>
        dsimp only
        apply dispatch_preserves_running
        simp only [Ctrl.updEntry, Ctrl.emit]
        simpa using (List.mem_erase_of_ne hbj).mpr hb
    · rw [if_neg hrunm]
      exact hb

end TaskCtrl

namespace TaskCtrl

/-- Every id with a recorded phase is below the id counter. -/
theorem phase_some_lt {s : Ctrl} (hids : ∀ e ∈ s.entries, e.eid < s.nextId)
    {i : ℕ} {ph : Phase} (h : phaseOf s i = some ph) : i < s.nextId := by
  unfold phaseOf at h
  cases hf : s.findEntry i with
  | none =>
    rw [hf] at h
    cases h
  | some e =>
    unfold Ctrl.findEntry at hf
    have hmem := List.mem_of_find?_eq_some hf
    have heq : e.eid = i := by simpa using List.find?_some hf
    rw [← heq]
    exact hids e hmem

/-- Ids at or above the counter have no entry. -/
theorem findEntry_none_of_ge {s : Ctrl}
    (hids : ∀ e ∈ s.entries, e.eid < s.nextId) {i : ℕ} (h : s.nextId ≤ i) :
    s.findEntry i = none := by
  unfold Ctrl.findEntry
  cases hf : s.entries.find? (fun e => e.eid == i) with
  | none => rfl
  | some e =>
    have hmem := List.mem_of_find?_eq_some hf
    have heq : e.eid = i := by simpa using List.find?_some hf
    have := hids e hmem
    omega

/-- Arming the waiting timer of a queued entry preserves
well-formedness. -/
theorem arm_wtimer_WF {t : Ctrl} {i : ℕ} (hw : WF t) (hiq : i ∈ t.waitingQueue)
    (hit : i ∉ t.waitingTimers) :
    WF { t with waitingTimers := t.waitingTimers ++ [i] } := by
  refine ⟨hw.idsLt, hw.wqNodup, hw.runNodup, hw.expNodup, hw.wqPhase,
    hw.runPhase, hw.expPhase, ?_, hw.rtNodup, ?_, hw.rtSub, ?_⟩
  · refine List.Nodup.append hw.wtNodup (List.nodup_singleton i) ?_
    intro x hx hxi
    simp at hxi
    subst hxi
    exact hit hx
  · intro i2 hi2
    rcases List.mem_append.mp hi2 with h | h
    · exact hw.wtSub i2 h
    · simp at h
      subst h
      exact Or.inl hiq
  · intro i2
    exact CntOK_congr rfl rfl i2 (hw.cnt i2)

/-- Pushing a fresh waiting entry preserves well-formedness. -/
theorem submit_pre_WF {s : Ctrl} (o : Option TaskOpts) (hw : WF s) :
    WF { s with
      entries := s.entries ++ [{ eid := s.nextId, opts := o, phase := Phase.waiting, outstanding := false, outerSettled := none, discardReason := none, releaseReason := none }]
      waitingQueue := s.waitingQueue ++ [s.nextId]
      nextId := s.nextId + 1 } := by
  have hfn : s.findEntry s.nextId = none :=
    findEntry_none_of_ge hw.idsLt (le_refl _)
  have hphn : phaseOf s s.nextId = none := by
    unfold phaseOf
    rw [hfn]
    rfl
  have hnwq : s.nextId ∉ s.waitingQueue := fun h => by
    have h2 := phase_some_lt hw.idsLt ((hw.wqPhase s.nextId).mp (Or.inl h))
    omega
  have hnrun : s.nextId ∉ s.runningList := fun h => by
    have h2 := phase_some_lt hw.idsLt ((hw.runPhase s.nextId).mp h)
    omega
  have hnexp : s.nextId ∉ s.expiredList := fun h => by
    have h2 := phase_some_lt hw.idsLt ((hw.expPhase s.nextId).mp h)
    omega
  have hfe : ∀ i2, ({ s with
      entries := s.entries ++ [{ eid := s.nextId, opts := o, phase := Phase.waiting, outstanding := false, outerSettled := none, discardReason := none, releaseReason := none }]
      waitingQueue := s.waitingQueue ++ [s.nextId]
      nextId := s.nextId + 1 } : Ctrl).findEntry i2 =
      if i2 = s.nextId then
        some { eid := s.nextId, opts := o, phase := Phase.waiting, outstanding := false, outerSettled := none, discardReason := none, releaseReason := none }
      else s.findEntry i2 := by
    intro i2
    by_cases h : i2 = s.nextId
    · subst h
      rw [if_pos rfl]
      unfold Ctrl.findEntry at hfn ⊢
      rw [find?_append_none _ _ hfn]
      simp [List.find?]
    · rw [if_neg h]
      cases hf : s.findEntry i2 with
      | none =>
        unfold Ctrl.findEntry at hf ⊢
        rw [find?_append_none _ _ hf]
        have hne : (s.nextId == i2) = false := by
          simp
          exact Ne.symm h
        simp [List.find?, hne]
      | some e2 =>
        unfold Ctrl.findEntry at hf ⊢
        exact find?_append_some _ _ hf
  have hph : ∀ i2, phaseOf { s with
      entries := s.entries ++ [{ eid := s.nextId, opts := o, phase := Phase.waiting, outstanding := false, outerSettled := none, discardReason := none, releaseReason := none }]
      waitingQueue := s.waitingQueue ++ [s.nextId]
      nextId := s.nextId + 1 } i2 =
      if i2 = s.nextId then some Phase.waiting else phaseOf s i2 := by
    intro i2
    unfold phaseOf
    rw [hfe i2]
    by_cases h : i2 = s.nextId
    · rw [if_pos h, if_pos h]
      rfl
    · rw [if_neg h, if_neg h]
  refine ⟨?_, ?_, ?_, ?_, ?_, ?_, ?_, ?_, ?_, ?_, ?_, ?_⟩
  · intro e2 he2
    rcases List.mem_append.mp he2 with h | h
    · have := hw.idsLt e2 h
      dsimp only
      omega
    · simp at h
      subst h
      simp
  · simp only [List.append_nil]
    refine List.Nodup.append (by simpa using hw.wqNodup)
      (List.nodup_singleton _) ?_
    intro x hx hxn
    simp at hxn
    subst hxn
    exact hnwq hx
  · exact hw.runNodup
  · exact hw.expNodup
  · intro i2
    rw [hph i2]
    by_cases h : i2 = s.nextId
    · subst h
      rw [if_pos rfl]
      constructor
      · intro h2
        rfl
      · intro h2
        exact Or.inl (List.mem_append.mpr (Or.inr (List.mem_singleton.mpr rfl)))
    · rw [if_neg h]
      constructor
      · intro h2
        rcases h2 with h2 | h2
        · rcases List.mem_append.mp h2 with h3 | h3
          · exact (hw.wqPhase i2).mp (Or.inl h3)
          · simp at h3
            exact absurd h3 h
        · simp at h2
      · intro h2
        rcases (hw.wqPhase i2).mpr h2 with h3 | h3
        · exact Or.inl (List.mem_append.mpr (Or.inl h3))
        · simp at h3
  · intro i2
    rw [hph i2]
    by_cases h : i2 = s.nextId
    · subst h
      rw [if_pos rfl]
      constructor
      · intro h2
        exact absurd h2 hnrun
      · intro h2
        simp at h2
    · rw [if_neg h]
      exact hw.runPhase i2
  · intro i2
    rw [hph i2]
    by_cases h : i2 = s.nextId
    · subst h
      rw [if_pos rfl]
      constructor
      · intro h2
        exact absurd h2 hnexp
      · intro h2
        simp at h2
    · rw [if_neg h]
      exact hw.expPhase i2
  · exact hw.wtNodup
  · exact hw.rtNodup
  · intro i2 hi2
    rcases hw.wtSub i2 hi2 with h | h
    · exact Or.inl (List.mem_append.mpr (Or.inl h))
    · simp at h
  · intro i2 hi2
    exact hw.rtSub i2 hi2
  · intro i2
    by_cases h : i2 = s.nextId
    · subst h
      have hc := hw.cnt s.nextId
      unfold CntOK at hc
      rw [hphn] at hc
      simp only [phaseCnt] at hc
      obtain ⟨h1, h2, h3, h4, h5⟩ := hc
      unfold CntOK
      rw [hph s.nextId, if_pos rfl]
      simp only [phaseCnt]
      refine ⟨h1, h2, h3, h4, ?_⟩
      unfold outstandingOf
      rw [hfe s.nextId, if_pos rfl]
    · refine CntOK_keep (l := []) i2 ?_ (by simp) rfl rfl rfl rfl (hw.cnt i2)
      rw [hfe i2, if_neg h]

/-- `Ctrl.submit` preserves well-formedness. -/
theorem submit_WF {s : Ctrl} (o : Option TaskOpts) (hw : WF s) :
    WF (Ctrl.submit o s) := by
  have hpre := submit_pre_WF o hw
  have hnwt : s.nextId ∉ s.waitingTimers := fun h => by
    rcases hw.wtSub _ h with h2 | h2
    · have h3 := phase_some_lt hw.idsLt ((hw.wqPhase s.nextId).mp (Or.inl h2))
      omega
    · simp at h2
  unfold Ctrl.submit
  apply dispatch_WF
  split
  · exact arm_wtimer_WF hpre
      (List.mem_append.mpr (Or.inr (List.mem_singleton.mpr rfl))) hnwt
  · exact hpre

end TaskCtrl

namespace TaskCtrl

/-- Emitting an event that is no task lifecycle event preserves
well-formedness. -/
theorem WF_emit {t : Ctrl} (hw : WF t) (ev : Ev)
    (h1 : ∀ i, isStartEv i ev = false) (h2 : ∀ i, isFinEv i ev = false)
    (h3 : ∀ i, isDisEv i ev = false) (h4 : ∀ i, isFailEv i ev = false) :
    WF (t.emit ev) := by
  refine ⟨hw.idsLt, hw.wqNodup, hw.runNodup, hw.expNodup, hw.wqPhase,
    hw.runPhase, hw.expPhase, hw.wtNodup, hw.rtNodup, hw.wtSub, hw.rtSub, ?_⟩
  intro i
  refine CntOK_keep (l := [ev]) i
    (show (t.emit ev).findEntry i = t.findEntry i from rfl)
    (show (t.emit ev).events = t.events ++ [ev] from rfl)
    ?_ ?_ ?_ ?_ (hw.cnt i)
  · rw [evCnt_singleton, h1 i]
    rfl
  · rw [evCnt_singleton, h2 i]
    rfl
  · rw [evCnt_singleton, h3 i]
    rfl
  · rw [evCnt_singleton, h4 i]
    rfl

/-- `Ctrl.fireWaitingTimer` preserves well-formedness. -/
theorem fireWaitingTimer_WF {s : Ctrl} (i : ℕ) (hw : WF s) :
    WF (Ctrl.fireWaitingTimer i s) := by
  unfold Ctrl.fireWaitingTimer
  split
  · rename_i hmem
    have hiq : i ∈ s.waitingQueue := by
      rcases hw.wtSub i hmem with h | h
      · exact h
      · simp at h
    have hqnd : s.waitingQueue.Nodup := by simpa using hw.wqNodup
    have hpre : WFx { s with waitingQueue := s.waitingQueue.erase i } [i] := by
      refine ⟨hw.idsLt, ?_, hw.runNodup, hw.expNodup, ?_, hw.runPhase,
        hw.expPhase, hw.wtNodup, hw.rtNodup, ?_, hw.rtSub, ?_⟩
      · refine List.Nodup.append (hqnd.erase i) (List.nodup_singleton i) ?_
        intro x hx hxi
        simp at hxi
        subst hxi
        exact hqnd.not_mem_erase hx
      · intro i2
        by_cases h : i2 = i
        · subst h
          constructor
          · intro h2
            exact (hw.wqPhase i2).mp (Or.inl hiq)
          · intro h2
            exact Or.inr (List.mem_singleton.mpr rfl)
        · constructor
          · intro h2
            rcases h2 with h2 | h2
            · exact (hw.wqPhase i2).mp (Or.inl (List.mem_of_mem_erase h2))
            · simp at h2
              exact absurd h2 h
          · intro h2
            rcases (hw.wqPhase i2).mpr h2 with h3 | h3
            · exact Or.inl ((List.mem_erase_of_ne h).mpr h3)
            · simp at h3
      · intro i2 hi2
        rcases hw.wtSub i2 hi2 with h | h
        · by_cases he : i2 = i
          · subst he
            exact Or.inr (List.mem_singleton.mpr rfl)
          · exact Or.inl ((List.mem_erase_of_ne he).mpr h)
        · simp at h
      · intro i2
        exact CntOK_congr rfl rfl i2 (hw.cnt i2)
    refine WF_emit ?_ (Ev.waitingTimeoutHandlerCalled i) ?_ ?_ ?_ ?_
    · show WFx _ []
      refine discard_step_WFx (r := DiscardReason.timeoutReached) hpre
        ?_ ?_ ?_ ?_ ?_ ?_ ?_ ?_ <;>
        simp [Ctrl.updEntry, Ctrl.emit]
    · intro i2
      rfl
    · intro i2
      rfl
    · intro i2
      rfl
    · intro i2
      rfl
  · exact hw

/-- Cancelling a release timer preserves well-formedness. -/
theorem WF_erase_rtimer {t : Ctrl} (hw : WF t) (j : ℕ) :
    WF { t with releaseTimers := t.releaseTimers.erase j } := by
  refine ⟨hw.idsLt, hw.wqNodup, hw.runNodup, hw.expNodup, hw.wqPhase,
    hw.runPhase, hw.expPhase, hw.wtNodup, hw.rtNodup.erase j, hw.wtSub, ?_, ?_⟩
  · intro i hi
    exact hw.rtSub i (List.mem_of_mem_erase hi)
  · intro i
    exact CntOK_congr rfl rfl i (hw.cnt i)

/-- `Ctrl.fireReleaseTimer` preserves well-formedness. -/
theorem fireReleaseTimer_WF {s : Ctrl} (i : ℕ) (hw : WF s) :
    WF (Ctrl.fireReleaseTimer i s) := by
  unfold Ctrl.fireReleaseTimer
  split
  · refine WF_emit ?_ (Ev.releaseTimeoutHandlerCalled i) ?_ ?_ ?_ ?_
    · exact releaseFn_WF i (some RelReason.timeoutReached) (WF_erase_rtimer hw i)
    · intro i2
      rfl
    · intro i2
      rfl
    · intro i2
      rfl
    · intro i2
      rfl
  · exact hw

/-- The flush fold retires every snapshot id. -/
theorem flush_foldl_WFx (q : List ℕ) {t : Ctrl} (hw : WFx t q) :
    WF (q.foldl (fun acc i =>
      let a1 := acc.updEntry i (fun e =>
        { e with phase := Phase.discarded, discardReason := some DiscardReason.forced })
      let a2 := a1.emit (Ev.taskDiscarded i DiscardReason.forced)
      { a2 with waitingTimers := a2.waitingTimers.erase i }) t) := by
  induction q generalizing t with
  | nil => exact hw
  | cons x xs ih =>
    rw [List.foldl_cons]
    refine ih ?_
    refine discard_step_WFx (r := DiscardReason.forced) hw ?_ ?_ ?_ ?_ ?_ ?_ ?_ ?_ <;>
      simp [Ctrl.updEntry, Ctrl.emit]

/-- `Ctrl.flushPendingTasks` preserves well-formedness. -/
theorem flushPendingTasks_WF {s : Ctrl} (hw : WF s) :
    WF s.flushPendingTasks := by
  unfold Ctrl.flushPendingTasks
  split
  · exact hw
  · refine flush_foldl_WFx s.waitingQueue ?_
    refine ⟨hw.idsLt, by simpa using hw.wqNodup, hw.runNodup, hw.expNodup, ?_,
      hw.runPhase, hw.expPhase, hw.wtNodup, hw.rtNodup, ?_, hw.rtSub, ?_⟩
    · intro i
      constructor
      · intro h
        rcases h with h | h
        · simp at h
        · exact (hw.wqPhase i).mp (Or.inl h)
      · intro h
        rcases (hw.wqPhase i).mpr h with h2 | h2
        · exact Or.inr h2
        · simp at h2
    · intro i hi
      rcases hw.wtSub i hi with h | h
      · exact Or.inr h
      · simp at h
    · intro i
      exact CntOK_congr rfl rfl i (hw.cnt i)

/-- The forced-release fold preserves well-formedness over any nodup
snapshot of running ids. -/
theorem releaseAll_foldl_WF (q : List ℕ) {t : Ctrl} (hw : WF t)
    (hnd : q.Nodup) (hsub : ∀ b ∈ q, b ∈ t.runningList) :
    WF (q.foldl (fun acc i => Ctrl.releaseFn i (some RelReason.forced) acc) t) := by
  induction q generalizing t with
  | nil => exact hw
  | cons x xs ih =>
    rw [List.foldl_cons]
    refine ih (releaseFn_WF x _ hw) (List.nodup_cons.mp hnd).2 ?_
    intro b hb
    refine releaseFn_keeps_running _ (hsub b (List.mem_cons_of_mem _ hb)) ?_
    intro hbx
    subst hbx
    exact (List.nodup_cons.mp hnd).1 hb

/-- `Ctrl.releaseRunningTasks` preserves well-formedness. -/
theorem releaseRunningTasks_WF {s : Ctrl} (hw : WF s) :
    WF s.releaseRunningTasks := by
  unfold Ctrl.releaseRunningTasks
  split
  · exact hw
  · exact releaseAll_foldl_WF s.runningList hw hw.runNodup (fun b hb => hb)

/-- Updating the concurrency limit preserves well-formedness. -/
theorem WF_set_conc {s : Ctrl} (hw : WF s) (c : ℤ) :
    WF { s with conc := c } := by
  refine ⟨hw.idsLt, hw.wqNodup, hw.runNodup, hw.expNodup, hw.wqPhase,
    hw.runPhase, hw.expPhase, hw.wtNodup, hw.rtNodup, hw.wtSub, hw.rtSub, ?_⟩
  intro i
  exact CntOK_congr rfl rfl i (hw.cnt i)

/-- `Ctrl.changeConcurrentLimit` preserves well-formedness. -/
theorem changeConcurrentLimit_WF {s : Ctrl} (v : JSValue) (hw : WF s) :
    WF (Ctrl.changeConcurrentLimit v s) := by
  unfold Ctrl.changeConcurrentLimit
  cases v with
  | null => exact hw
  | undef => exact hw
  | notNumber => exact hw
  | num n =>
    cases n with
    | nan => exact hw
    | posInf => exact hw
    | negInf => exact hw
    | fin q =>
      dsimp only
      split
      · exact hw
      · split
        · exact hw
        · split
          · exact dispatch_WF (WF_set_conc hw q.num)
          · exact WF_set_conc hw q.num

end TaskCtrl

namespace TaskCtrl

/-- Settling an entry (outstanding cleared, outer future recorded,
possibly task-failure emitted) yields the weakened form at that entry
and changes no phase and no other count. -/
theorem settle_step_WFc {s u : Ctrl} {j : ℕ} {v : Option SettledResult}
    (hw : WF s)
    (hent : u.entries = s.entries.map (fun e =>
      if e.eid == j then { e with outstanding := false, outerSettled := v }
      else e))
    (hev : u.events = s.events ∨ u.events = s.events ++ [Ev.taskFailure j])
    (hwq : u.waitingQueue = s.waitingQueue)
    (hrun : u.runningList = s.runningList)
    (hexp : u.expiredList = s.expiredList)
    (hwt : u.waitingTimers = s.waitingTimers)
    (hrt : u.releaseTimers = s.releaseTimers)
    (hnext : u.nextId = s.nextId) :
    WFc u j ∧ (∀ i, phaseOf u i = phaseOf s i) ∧
      outstandingOf u j = false ∧
      startCnt u j = startCnt s j ∧ finCnt u j = finCnt s j ∧
      disCnt u j = disCnt s j ∧ failCnt u j ≤ failCnt s j + 1 := by
  have hfe_ne : ∀ i, i ≠ j → u.findEntry i = s.findEntry i := fun i hij =>
    findEntry_map_upd_ne
      (f := fun e => { e with outstanding := false, outerSettled := v })
      (fun e => rfl) hent i hij
  have hfe_j : u.findEntry j = (s.findEntry j).map (fun e =>
      { e with outstanding := false, outerSettled := v }) :=
    findEntry_map_upd_self
      (f := fun e => { e with outstanding := false, outerSettled := v })
      (fun e => rfl) hent
  have hph_all : ∀ i, phaseOf u i = phaseOf s i := by
    intro i
    by_cases hij : i = j
    · subst hij
      unfold phaseOf
      rw [hfe_j]
      cases hfi : s.findEntry i <;> rfl
    · unfold phaseOf
      rw [hfe_ne i hij]
  refine ⟨⟨?_, ?_, ?_, ?_, ?_, ?_, ?_, ?_, ?_, ?_, ?_, ?_⟩, hph_all, ?_, ?_, ?_, ?_, ?_⟩
  · intro e2 he2
    rw [hent] at he2
    rw [hnext]
    obtain ⟨e0, he0, hee⟩ := List.mem_map.mp he2
    by_cases h : (e0.eid == j) = true <;> simp [h] at hee <;> rw [← hee] <;>
      exact hw.idsLt e0 he0
  · rw [hwq]
    simpa using hw.wqNodup
  · rw [hrun]
    exact hw.runNodup
  · rw [hexp]
    exact hw.expNodup
  · intro i
    rw [hwq, hph_all i]
    constructor
    · intro h
      exact (hw.wqPhase i).mp (Or.inl h)
    · intro h
      rcases (hw.wqPhase i).mpr h with h2 | h2
      · exact h2
      · simp at h2
  · intro i
    rw [hrun, hph_all i]
    exact hw.runPhase i
  · intro i
    rw [hexp, hph_all i]
    exact hw.expPhase i
  · rw [hwt]
    exact hw.wtNodup
  · rw [hrt]
    exact hw.rtNodup
  · intro i hi
    rw [hwt] at hi
    rw [hwq]
    rcases hw.wtSub i hi with h | h
    · exact h
    · simp at h
  · intro i hi
    rw [hrt] at hi
    rw [hrun]
    exact hw.rtSub i hi
  · intro i hij
    rcases hev with hev | hev
    · refine CntOK_keep (l := []) i (hfe_ne i hij) (by rw [hev]; simp)
        rfl rfl rfl rfl (hw.cnt i)
    · refine CntOK_keep (l := [Ev.taskFailure j]) i (hfe_ne i hij) hev
        ?_ ?_ ?_ ?_ (hw.cnt i)
      · rw [evCnt_singleton]
        simp [isStartEv]
      · rw [evCnt_singleton]
        simp [isFinEv]
      · rw [evCnt_singleton]
        simp [isDisEv]
      · rw [evCnt_singleton]
        simp [isFailEv, Ne.symm hij]
  · unfold outstandingOf
    rw [hfe_j]
    cases hfi : s.findEntry j <;> simp [hfi]
  · rcases hev with hev | hev
    · unfold startCnt
      rw [hev]
    · unfold startCnt
      rw [hev, evCnt_append, evCnt_singleton]
      simp [isStartEv]
  · rcases hev with hev | hev
    · unfold finCnt
      rw [hev]
    · unfold finCnt
      rw [hev, evCnt_append, evCnt_singleton]
      simp [isFinEv]
  · rcases hev with hev | hev
    · unfold disCnt
      rw [hev]
    · unfold disCnt
      rw [hev, evCnt_append, evCnt_singleton]
      simp [isDisEv]
  · rcases hev with hev | hev
    · unfold failCnt
      rw [hev]
      exact Nat.le_succ _
    · unfold failCnt
      rw [hev, evCnt_append, evCnt_singleton]
      simp [isFailEv]

/-- Invoking the release token with no reason after settling preserves
well-formedness, whatever the phase of the settled entry. -/
theorem completes_core {s t2 : Ctrl} {j : ℕ} {e : EntryRec}
    (hw : WF s) (hf : s.findEntry j = some e) (hout : e.outstanding = true)
    (hwc : WFc t2 j) (hph_all : ∀ i, phaseOf t2 i = phaseOf s i)
    (hou0 : outstandingOf t2 j = false)
    (hstq : startCnt t2 j = startCnt s j) (hfinq : finCnt t2 j = finCnt s j)
    (hdisq : disCnt t2 j = disCnt s j) (hflq : failCnt t2 j ≤ failCnt s j + 1) :
    WF (Ctrl.releaseFn j none t2) := by
  have hphj : phaseOf s j = some e.phase := by
    unfold phaseOf
    rw [hf]
    rfl
  have houS : outstandingOf s j = true := by
    unfold outstandingOf
    rw [hf]
    exact hout
  have hc := hw.cnt j
  unfold CntOK at hc
  rw [hphj] at hc
  cases he : e.phase with
  | waiting =>
    rw [he] at hc
    simp only [phaseCnt] at hc
    rw [hc.2.2.2.2] at houS
    cases houS
  | discarded =>
    rw [he] at hc
    simp only [phaseCnt] at hc
    rw [hc.2.2.2.2] at houS
    cases houS
  | running =>
    rw [he] at hc
    simp only [phaseCnt] at hc
    obtain ⟨h1, h2, h3, h4, h5⟩ := hc
    refine releaseFn_none_WFc hwc ?_ ?_ ?_ ?_ ?_ (Or.inl ?_)
    · rw [hstq]
      exact h1
    · rw [hfinq]
      exact h2
    · rw [hdisq]
      exact h3
    · rw [h4] at hflq
      simpa using hflq
    · intro h
      rw [hou0] at h
      cases h
    · rw [hph_all j, hphj, he]
  | expired =>
    rw [he] at hc
    simp only [phaseCnt] at hc
    obtain ⟨h1, h2, h3, h4, h5⟩ := hc
    refine releaseFn_none_WFc hwc ?_ ?_ ?_ ?_ ?_ (Or.inr ?_)
    · rw [hstq]
      exact h1
    · rw [hfinq]
      exact h2
    · rw [hdisq]
      exact h3
    · rw [h4] at hflq
      simpa using hflq
    · intro h
      rw [hou0] at h
      cases h
    · rw [hph_all j, hphj, he]
  | finished =>
    rw [he] at hc
    simp only [phaseCnt] at hc
    obtain ⟨h1, h2, h3, h4, h5⟩ := hc
    have hfl0 : failCnt s j = 0 := h4 houS
    refine releaseFn_WF j none (WF_of_WFc hwc ?_)
    unfold CntOK
    rw [hph_all j, hphj, he]
    simp only [phaseCnt]
    refine ⟨?_, ?_, ?_, ?_, ?_⟩
    · rw [hstq]
      exact h1
    · rw [hfinq]
      exact h2
    · rw [hdisq]
      exact h3
    · intro h
      rw [hou0] at h
      cases h
    · rw [hfl0] at hflq
      simpa using hflq

/-- `Ctrl.taskCompletes` preserves well-formedness. -/
theorem taskCompletes_WF {s : Ctrl} (j : ℕ) (ok : Bool) (hw : WF s) :
    WF (Ctrl.taskCompletes j ok s) := by
  unfold Ctrl.taskCompletes
  cases hf : s.findEntry j with
  | none => exact hw
  | some e =>
    dsimp only
    split
    · rename_i hout
      cases ok with
      | true =>
        obtain ⟨hwc, hph_all, hou0, hstq, hfinq, hdisq, hflq⟩ :=
          settle_step_WFc (j := j) (v := some SettledResult.fulfilled)
            (u := s.updEntry j (fun e2 => { e2 with outstanding := false, outerSettled := some SettledResult.fulfilled }))
            hw (by simp [Ctrl.updEntry]) (Or.inl (by simp [Ctrl.updEntry]))
            (by simp [Ctrl.updEntry]) (by simp [Ctrl.updEntry])
            (by simp [Ctrl.updEntry]) (by simp [Ctrl.updEntry])
            (by simp [Ctrl.updEntry]) (by simp [Ctrl.updEntry])
        exact completes_core hw hf hout hwc hph_all hou0 hstq hfinq hdisq hflq
      | false =>
        obtain ⟨hwc, hph_all, hou0, hstq, hfinq, hdisq, hflq⟩ :=
          settle_step_WFc (j := j) (v := some SettledResult.rejectedError)
            (u := (s.updEntry j (fun e2 => { e2 with outstanding := false, outerSettled := some SettledResult.rejectedError })).emit (Ev.taskFailure j))
            hw (by simp [Ctrl.updEntry, Ctrl.emit])
            (Or.inr (by simp [Ctrl.updEntry, Ctrl.emit]))
            (by simp [Ctrl.updEntry, Ctrl.emit])
            (by simp [Ctrl.updEntry, Ctrl.emit])
            (by simp [Ctrl.updEntry, Ctrl.emit])
            (by simp [Ctrl.updEntry, Ctrl.emit])
            (by simp [Ctrl.updEntry, Ctrl.emit])
            (by simp [Ctrl.updEntry, Ctrl.emit])
        exact completes_core hw hf hout hwc hph_all hou0 hstq hfinq hdisq hflq
    · exact hw

end TaskCtrl

namespace TaskCtrl

/-- A fresh controller is well-formed. -/
theorem init_WF (c : ℤ) (qt : QueueType) (wt rt : JSNum) (ab : Bool) :
    WF (Ctrl.init c qt wt rt ab) := by
  refine ⟨?_, ?_, ?_, ?_, ?_, ?_, ?_, ?_, ?_, ?_, ?_, ?_⟩ <;>
    simp [Ctrl.init, phaseOf, Ctrl.findEntry, CntOK, phaseCnt, startCnt,
      finCnt, disCnt, failCnt, evCnt, outstandingOf, List.find?]

/-- Every event-loop turn preserves well-formedness. -/
theorem step_WF {s : Ctrl} (x : Step) (hw : WF s) : WF (step s x) := by
  cases x with
  | submit o => exact submit_WF o hw
  | complete i ok => exact taskCompletes_WF i ok hw
  | waitTimer i => exact fireWaitingTimer_WF i hw
  | relTimer i => exact fireReleaseTimer_WF i hw
  | flush => exact flushPendingTasks_WF hw
  | releaseAll => exact releaseRunningTasks_WF hw
  | changeLimit v => exact changeConcurrentLimit_WF v hw

/-- Every run from a well-formed state stays well-formed. -/
theorem runSteps_WF (l : List Step) {s : Ctrl} (hw : WF s) :
    WF (runSteps s l) := by
  induction l generalizing s with
  | nil => exact hw
  | cons x xs ih => exact ih (step_WF x hw)

end TaskCtrl

namespace TaskCtrl

/-- Claim C8: over every run of the Scheduler from a fresh state and
for every task id, the task-finished and task-discarded events together
are emitted at most once; an entry in the finished phase has emitted
task-finished exactly once and task-discarded never; an entry in the
discarded phase has emitted task-discarded exactly once and has never
emitted task-started, task-finished or task-failure; and any id with a
task-discarded event has no task-started, task-finished or task-failure
event. -/
theorem c8_lifecycle_events (c : ℤ) (qt : QueueType) (wt rt : JSNum)
    (ab : Bool) (l : List Step) (i : ℕ) :
    finCnt (runSteps (Ctrl.init c qt wt rt ab) l) i
        + disCnt (runSteps (Ctrl.init c qt wt rt ab) l) i ≤ 1 ∧
    (phaseOf (runSteps (Ctrl.init c qt wt rt ab) l) i = some Phase.finished →
      finCnt (runSteps (Ctrl.init c qt wt rt ab) l) i = 1 ∧
      disCnt (runSteps (Ctrl.init c qt wt rt ab) l) i = 0) ∧
    (phaseOf (runSteps (Ctrl.init c qt wt rt ab) l) i = some Phase.discarded →
      disCnt (runSteps (Ctrl.init c qt wt rt ab) l) i = 1 ∧
      finCnt (runSteps (Ctrl.init c qt wt rt ab) l) i = 0 ∧
      startCnt (runSteps (Ctrl.init c qt wt rt ab) l) i = 0 ∧
      failCnt (runSteps (Ctrl.init c qt wt rt ab) l) i = 0) ∧
    (1 ≤ disCnt (runSteps (Ctrl.init c qt wt rt ab) l) i →
      startCnt (runSteps (Ctrl.init c qt wt rt ab) l) i = 0 ∧
      finCnt (runSteps (Ctrl.init c qt wt rt ab) l) i = 0 ∧
      failCnt (runSteps (Ctrl.init c qt wt rt ab) l) i = 0) := by
  have hw : WF (runSteps (Ctrl.init c qt wt rt ab) l) :=
    runSteps_WF l (init_WF c qt wt rt ab)
  have hc := hw.cnt i
  unfold CntOK at hc
  cases hph : phaseOf (runSteps (Ctrl.init c qt wt rt ab) l) i with
  | none =>
    rw [hph] at hc
    simp only [phaseCnt] at hc
    obtain ⟨h1, h2, h3, h4, h5⟩ := hc
    refine ⟨by omega, ?_, ?_, ?_⟩
    · intro h
      cases h
    · intro h
      cases h
    · intro h
      rw [h3] at h
      omega
  | some ph =>
    cases ph with
    | waiting =>
      rw [hph] at hc
      simp only [phaseCnt] at hc
      obtain ⟨h1, h2, h3, h4, h5⟩ := hc
      refine ⟨by omega, ?_, ?_, ?_⟩
      · intro h
        simp at h
      · intro h
        simp at h
      · intro h
        rw [h3] at h
        omega
    | running =>
      rw [hph] at hc
      simp only [phaseCnt] at hc
      obtain ⟨h1, h2, h3, h4, h5⟩ := hc
      refine ⟨by omega, ?_, ?_, ?_⟩
      · intro h
        simp at h
      · intro h
        simp at h
      · intro h
        rw [h3] at h
        omega
    | expired =>
      rw [hph] at hc
      simp only [phaseCnt] at hc
      obtain ⟨h1, h2, h3, h4, h5⟩ := hc
      refine ⟨by omega, ?_, ?_, ?_⟩
      · intro h
        simp at h
      · intro h
        simp at h
      · intro h
        rw [h3] at h
        omega
    | finished =>
      rw [hph] at hc
      simp only [phaseCnt] at hc
      obtain ⟨h1, h2, h3, h4, h5⟩ := hc
      refine ⟨by omega, fun h => ⟨h2, h3⟩, ?_, ?_⟩
      · intro h
        simp at h
      · intro h
        rw [h3] at h
        omega
    | discarded =>
      rw [hph] at hc
      simp only [phaseCnt] at hc
      obtain ⟨h1, h2, h3, h4, h5⟩ := hc
      refine ⟨by omega, ?_, fun h => ⟨h3, h2, h1, h4⟩, fun h => ⟨h1, h2, h4⟩⟩
      intro h
      simp at h

/-- Witness for C8: on the concrete trace submit, submit, flush with
concurrency 1, entry 1 is discarded; the theorem yields its exact event
counts. -/
theorem c8_lifecycle_events_witness :
    phaseOf (runSteps (Ctrl.init 1 QueueType.FIFO (JSNum.fin 0) (JSNum.fin 0) false)
      [Step.submit none, Step.submit none, Step.flush]) 1 = some Phase.discarded ∧
    (disCnt (runSteps (Ctrl.init 1 QueueType.FIFO (JSNum.fin 0) (JSNum.fin 0) false)
      [Step.submit none, Step.submit none, Step.flush]) 1 = 1 ∧
    finCnt (runSteps (Ctrl.init 1 QueueType.FIFO (JSNum.fin 0) (JSNum.fin 0) false)
      [Step.submit none, Step.submit none, Step.flush]) 1 = 0 ∧
    startCnt (runSteps (Ctrl.init 1 QueueType.FIFO (JSNum.fin 0) (JSNum.fin 0) false)
      [Step.submit none, Step.submit none, Step.flush]) 1 = 0 ∧
    failCnt (runSteps (Ctrl.init 1 QueueType.FIFO (JSNum.fin 0) (JSNum.fin 0) false)
      [Step.submit none, Step.submit none, Step.flush]) 1 = 0) :=
  ⟨by decide, (c8_lifecycle_events 1 QueueType.FIFO (JSNum.fin 0) (JSNum.fin 0) false
      [Step.submit none, Step.submit none, Step.flush] 1).2.2.1 (by decide)⟩

end TaskCtrl

namespace TaskCtrl

/-- Witness for the amended C6 bound: a fresh controller with limit 1
satisfies the preconditions of part 2 for a submit turn, whose
conclusion bounds the one running task by the limit. -/
theorem c6_invariant_amended_witness :
    ((Ctrl.init 1 QueueType.FIFO (JSNum.fin 0) (JSNum.fin 0) false).runningTasks : ℤ) ≤
        (Ctrl.init 1 QueueType.FIFO (JSNum.fin 0) (JSNum.fin 0) false).conc ∧
    (Ctrl.init 1 QueueType.FIFO (JSNum.fin 0) (JSNum.fin 0) false).conc ≤
        (step (Ctrl.init 1 QueueType.FIFO (JSNum.fin 0) (JSNum.fin 0) false)
          (Step.submit none)).conc ∧
    ((step (Ctrl.init 1 QueueType.FIFO (JSNum.fin 0) (JSNum.fin 0) false)
          (Step.submit none)).runningTasks : ℤ) ≤
        (step (Ctrl.init 1 QueueType.FIFO (JSNum.fin 0) (JSNum.fin 0) false)
          (Step.submit none)).conc :=
  ⟨by decide, by decide,
    c6_invariant_amended.2 (Ctrl.init 1 QueueType.FIFO (JSNum.fin 0) (JSNum.fin 0) false)
      (Step.submit none) (by decide) (by decide)⟩

end TaskCtrl
